import Mathlib

/-!
# Travelling-salesperson benchmark (`tsp.c`): embedding

The C program keeps its city table in the globals `city[]` and `max_city`, its memo table
in the global `saved_solution[][]`, and aborts through `exit(1)`.  Here the globals are
explicit arguments, the memo table is passed in and handed back, and every function that
can reach `exit(1)` returns an `Outcome`.

Machine integers: `int` values are `Int`; the additions that build a tour length go through
`int_add`, which wraps to 32 bits.  `long` visit sets are `Nat` below `2 ^ 64`; the shifts
and complements are taken modulo `2 ^ 64`.
-/

namespace Tsp

/-! ## Results of a call -/

/-- Result of running a C function of the program: it returned a value, it ended the process
through `exit(1)`, or the recursion budget of the embedding ran out before it finished. -/
inductive Outcome (α : Type) where
  | ret (a : α) : Outcome α
  | fatal : Outcome α
  | cutoff : Outcome α
  deriving DecidableEq, Repr

/-- Value part of an outcome that carries the memo table along. -/
def Outcome.val {α β : Type} : Outcome (α × β) → Outcome α
  | .ret (a, _) => .ret a
  | .fatal => .fatal
  | .cutoff => .cutoff

/-! ## Constants (`tsp.c` lines 37-41) -/

def MAX_CITY : Nat := 64
def MAX_CITY_BRUTE_FORCE : Nat := 13
def MAX_CITY_DYN_PROG : Nat := 22
def INT32_MAX : Int := 2147483647

/-! ## Machine arithmetic -/

/-- Reduction of an integer to the range of a 32-bit `int`. -/
def wrap32 (z : Int) : Int := (z + 2147483648) % 4294967296 - 2147483648

/-- Addition of two `int` values. -/
def int_add (a b : Int) : Int := wrap32 (a + b)

/-- The C expression `1L << c` as a 64-bit pattern. -/
def shl1 (c : Nat) : Nat := (1 <<< c) % 2 ^ 64

/-- The C expression `~x` on a 64-bit pattern. -/
def long_not (x : Nat) : Nat := 2 ^ 64 - 1 - x

/-- The test `visit_city_bits & (1L << c)` of lines 249, 268, 361 and 387. -/
def has_bit (visit c : Nat) : Bool := (visit &&& shl1 c) != 0

/-- The update `visit_city_bits & ~(1L << c)` of lines 274, 346 and 394. -/
def clear_bit (visit c : Nat) : Nat := visit &&& long_not (shl1 c)

/-- Integer part of the square root, by upward search: `r` is the candidate, the first
argument bounds the number of steps. -/
def isqrt_from (n : Nat) : Nat → Nat → Nat
  | 0, r => r
  | k + 1, r => if (r + 1) * (r + 1) ≤ n then isqrt_from n k (r + 1) else r

/-- The conversion `(int) sqrt(n)` of line 116 for an `int` value `n ≥ 0`: the argument is
below `2 ^ 53`, the `double` square root is correctly rounded, so the truncation is the
integer square root. -/
def isqrt (n : Nat) : Nat := isqrt_from n n 0

/-! ## The city table (`tsp.c` lines 53-58, 75-76, 105-144) -/

/-- One entry of `city[]`. -/
structure city_t where
  x : Int
  y : Int
  dist : List Int
  sort : List Nat
  deriving DecidableEq, Repr

instance : Inhabited city_t := ⟨⟨0, 0, [], []⟩⟩

/-- The globals `max_city` and `city[]`. -/
structure Graph where
  max_city : Nat
  city : List city_t
  deriving DecidableEq, Repr

/-- The read `city[i].dist[j]`. -/
def Graph.dist (g : Graph) (i j : Nat) : Int := (g.city.getD i default).dist.getD j 0

/-- The read `city[i].sort[k]`. -/
def Graph.sort (g : Graph) (i k : Nat) : Nat := (g.city.getD i default).sort.getD k 0

/-- Lines 114-116: the distance stored in `city[i].dist[j]`, from the coordinates. -/
def gen_dist (xy : List (Int × Int)) (i j : Nat) : Int :=
  let dx := (xy.getD i (0, 0)).1 - (xy.getD j (0, 0)).1
  let dy := (xy.getD i (0, 0)).2 - (xy.getD j (0, 0)).2
  ((isqrt (dx * dx + dy * dy).toNat : Nat) : Int)

/-- The call `swap(&a[i], &a[j])` (lines 212-218) on an array. -/
def swap {α : Type} [Inhabited α] (a : List α) (i j : Nat) : List α :=
  (a.set i (a.getD j default)).set j (a.getD i default)

/-- Lines 131-136: the scan `for (k = j; k < max_city; k++)` over the working copy `dist`,
carrying `(min_idx, min_dist)`. -/
def scan_min (dist : List Int) : List Nat → Int × Int → Int × Int
  | [], st => st
  | k :: ks, (min_idx, min_dist) =>
    if min_idx = -1 ∨ dist.getD k 0 < min_dist then
      scan_min dist ks ((k : Int), dist.getD k 0)
    else
      scan_min dist ks (min_idx, min_dist)

/-- Lines 129-143: the loop `for (j = 0; j < max_city; j++)` of the ranking, over the
remaining values of `j`, carrying the working copy `dist` and `city[i].sort`. -/
def rank_loop (n : Nat) : List Nat → List Int × List Nat → Outcome (List Int × List Nat)
  | [], st => .ret st
  | j :: js, (dist, sort) =>
    let min_idx := (scan_min dist (List.range' j (n - j)) (-1, -1)).1
    if min_idx = -1 then .fatal
    else rank_loop n js (swap dist j min_idx.toNat, swap sort j min_idx.toNat)

/-- Lines 122-143 for one city: copy the distances, fill `sort` with `0 .. n-1`, rank. -/
def gen_sort (n : Nat) (dist : List Int) : Outcome (List Nat) :=
  match rank_loop n (List.range n) (dist, List.range n) with
  | .ret st => .ret st.2
  | .fatal => .fatal
  | .cutoff => .cutoff

/-- Lines 121-144: the ranking of every city in turn; the first failing city ends the run. -/
def gen_cities (xy : List (Int × Int)) : List Nat → Outcome (List city_t)
  | [] => .ret []
  | i :: is =>
    let d := (List.range xy.length).map (gen_dist xy i)
    match gen_sort xy.length d with
    | .ret s =>
      match gen_cities xy is with
      | .ret cs => .ret (⟨(xy.getD i (0, 0)).1, (xy.getD i (0, 0)).2, d, s⟩ :: cs)
      | .fatal => .fatal
      | .cutoff => .cutoff
    | .fatal => .fatal
    | .cutoff => .cutoff

/-- Lines 105-144 of `main`, from the coordinates drawn at lines 106-109. -/
def build (xy : List (Int × Int)) : Outcome Graph :=
  match gen_cities xy (List.range xy.length) with
  | .ret cs => .ret ⟨xy.length, cs⟩
  | .fatal => .fatal
  | .cutoff => .cutoff

/-- What `main` accepts and draws: between 2 and 64 cities (lines 95-103), coordinates in
`0 .. 1000` (lines 106-109). -/
def ValidCoords (xy : List (Int × Int)) : Prop :=
  2 ≤ xy.length ∧ xy.length ≤ MAX_CITY ∧
    ∀ p ∈ xy, 0 ≤ p.1 ∧ p.1 ≤ 1000 ∧ 0 ≤ p.2 ∧ p.2 ≤ 1000

instance (xy : List (Int × Int)) : Decidable (ValidCoords xy) := by
  unfold ValidCoords; infer_instance

/-! ## The exact solvers (`tsp.c` lines 221-308) -/

/-- The global `saved_solution[city][visit]`. -/
abbrev Memo := Nat → Nat → Int

/-- The all-zero table a fresh process starts with. -/
def zero_memo : Memo := fun _ _ => 0

/-- Lines 243-245: `bzero` of the first `2 ^ max_city` entries of rows `0 .. max_city - 1`. -/
def zero_saved (n : Nat) (saved : Memo) : Memo :=
  fun i v => if i < n ∧ v < 2 ^ n then 0 else saved i v

/-- The store `saved_solution[c][v] = d` of line 284. -/
def store (saved : Memo) (c v : Nat) (d : Int) : Memo :=
  fun i w => if i = c ∧ w = v then d else saved i w

/-- Lines 266-280: the loop over `next_city`, over the remaining values of `next_city`,
carrying `min_distance` and the memo table; `call` is the recursive call of line 274. -/
def tsp1_scan (g : Graph) (call : Memo → Nat → Nat → Outcome (Int × Memo))
    (start_city visit : Nat) : List Nat → Int → Memo → Outcome (Int × Memo)
  | [], min_distance, saved => .ret (min_distance, saved)
  | next_city :: rest, min_distance, saved =>
    if has_bit visit next_city = false then
      tsp1_scan g call start_city visit rest min_distance saved
    else
      match call saved next_city (clear_bit visit next_city) with
      | .ret (d, saved') =>
        let distance := int_add (g.dist start_city next_city) d
        tsp1_scan g call start_city visit rest
          (if distance < min_distance then distance else min_distance) saved'
      | .fatal => .fatal
      | .cutoff => .cutoff

/-- Lines 235-308: `tsp1(start_city, visit_city_bits, dyn_prog)`.  The first argument bounds
the depth of the recursion; it is consulted only where the C function recurses. -/
def tsp1 (g : Graph) : Nat → Memo → Nat → Nat → Bool → Outcome (Int × Memo)
  | fuel, saved, start_city, visit, dyn_prog =>
    let saved1 := if dyn_prog && start_city == 0 then zero_saved g.max_city saved else saved
    if has_bit visit start_city then .fatal
    else if visit = 0 then .ret (0, saved1)
    else if dyn_prog && saved1 start_city visit != 0 then
      .ret (saved1 start_city visit, saved1)
    else
      match fuel with
      | 0 => .cutoff
      | fuel' + 1 =>
        match tsp1_scan g (fun m c v => tsp1 g fuel' m c v dyn_prog) start_city visit
            (List.range g.max_city) INT32_MAX saved1 with
        | .ret (min_distance, saved2) =>
          .ret (min_distance,
            if dyn_prog then store saved2 start_city visit min_distance else saved2)
        | .fatal => .fatal
        | .cutoff => .cutoff

/-- Lines 225-228.  A visit set has at most 64 bits, so 64 levels of recursion are all the
C function can use. -/
def tsp_brute_force (g : Graph) (saved : Memo) (start_city visit : Nat) :
    Outcome (Int × Memo) :=
  tsp1 g MAX_CITY saved start_city visit false

/-- Lines 230-233. -/
def tsp_dyn_prog (g : Graph) (saved : Memo) (start_city visit : Nat) :
    Outcome (Int × Memo) :=
  tsp1 g MAX_CITY saved start_city visit true

/-! ## The heuristic solvers (`tsp.c` lines 310-421) -/

/-- Lines 382-408: the loop over the ranking positions `i`, over the remaining positions,
carrying `min_distance`, `best_city` and `num_cities_checked`; `call` is the recursive call
of line 393.  The result is `(min_distance, best_city)` at the end of the loop. -/
def tsp2_scan (g : Graph) (call : Nat → Nat → Int → Outcome (Int × Int))
    (start_city visit : Nat) (num_cities_to_check : Int) :
    List Nat → Int → Int → Int → Outcome (Int × Int)
  | [], min_distance, best_city, _ => .ret (min_distance, best_city)
  | i :: rest, min_distance, best_city, num_cities_checked =>
    let next_city := g.sort start_city i
    if has_bit visit next_city = false then
      tsp2_scan g call start_city visit num_cities_to_check rest min_distance best_city
        num_cities_checked
    else
      match call next_city (clear_bit visit next_city)
          (if num_cities_to_check > 1 then num_cities_to_check - 1 else 1) with
      | .ret (d, _) =>
        let distance := int_add (g.dist start_city next_city) d
        let min_distance' := if distance < min_distance then distance else min_distance
        let best_city' := if distance < min_distance then (next_city : Int) else best_city
        if num_cities_checked + 1 = num_cities_to_check then .ret (min_distance', best_city')
        else
          tsp2_scan g call start_city visit num_cities_to_check rest min_distance' best_city'
            (num_cities_checked + 1)
      | .fatal => .fatal
      | .cutoff => .cutoff

/-- Lines 353-421: `tsp2(start_city, visit_city_bits, num_cities_to_check, city_chosen)`.
The result is the returned distance paired with the value written to `*city_chosen`; a
caller that passes `NULL` drops the second component. -/
def tsp2 (g : Graph) : Nat → Nat → Nat → Int → Outcome (Int × Int)
  | fuel, start_city, visit, num_cities_to_check =>
    if has_bit visit start_city then .fatal
    else if num_cities_to_check < 1 then .fatal
    else if visit = 0 then .ret (0, -1)
    else
      match fuel with
      | 0 => .cutoff
      | fuel' + 1 =>
        match tsp2_scan g (fun c v k => tsp2 g fuel' c v k) start_city visit
            num_cities_to_check (List.range g.max_city) INT32_MAX (-1) 0 with
        | .ret (min_distance, best_city) =>
          if best_city = -1 then .fatal else .ret (min_distance, best_city)
        | .fatal => .fatal
        | .cutoff => .cutoff

/-- Lines 312-315. -/
def tsp_nearest_neighbor (g : Graph) (start_city visit : Nat) : Outcome Int :=
  match tsp2 g MAX_CITY start_city visit 1 with
  | .ret (d, _) => .ret d
  | .fatal => .fatal
  | .cutoff => .cutoff

/-- Lines 323-347: the `while (visit_city_bits)` loop of `tsp_bounded`, carrying
`route_city`, `total_distance` and `visit_city_bits`.  The result is `total_distance` with
the hops taken, in order (the `city_chosen` of each pass, as the disabled debug print of
lines 334-340 lists them).  The first argument bounds the number of passes. -/
def tsp_bounded_loop (g : Graph) : Nat → Nat → Int → Nat → Outcome (Int × List Nat)
  | fuel, route_city, total_distance, visit =>
    if visit = 0 then .ret (total_distance, [])
    else
      match fuel with
      | 0 => .cutoff
      | fuel' + 1 =>
        match tsp2 g MAX_CITY route_city visit 10 with
        | .ret (_, city_chosen) =>
          if city_chosen < 1 ∨ city_chosen ≥ (g.max_city : Int) then .fatal
          else
            match tsp_bounded_loop g fuel' city_chosen.toNat
                (int_add total_distance (g.dist route_city city_chosen.toNat))
                (clear_bit visit city_chosen.toNat) with
            | .ret (total, hops) => .ret (total, city_chosen.toNat :: hops)
            | .fatal => .fatal
            | .cutoff => .cutoff
        | .fatal => .fatal
        | .cutoff => .cutoff

/-- Lines 317-351 with the hops taken.  Every pass clears one of at most 64 set bits. -/
def tsp_bounded_route (g : Graph) (start_city visit : Nat) : Outcome (Int × List Nat) :=
  tsp_bounded_loop g MAX_CITY start_city 0 visit

/-- Lines 317-351: `tsp_bounded(start_city, visit_city_bits)`. -/
def tsp_bounded (g : Graph) (start_city visit : Nat) : Outcome Int :=
  (tsp_bounded_route g start_city visit).val

/-- Line 174 of `main`: `(2 * (1L << (max_city-1)) - 1) & ~(1L << start_city)`, in 64-bit
wrapping arithmetic. -/
def visit_all (n start_city : Nat) : Nat :=
  ((2 * shl1 (n - 1) + 2 ^ 64 - 1) % 2 ^ 64) &&& long_not (shl1 start_city)


/-! ## Vocabulary of the properties -/

/-- Cities below `n` whose bit is set in `visit`, in increasing order. -/
def members (n visit : Nat) : List Nat := (List.range n).filter (fun c => has_bit visit c)

/-- Sum of the edge distances of the open path that leaves `s` and visits the cities of `p`
in order. -/
def path_len (g : Graph) : Nat → List Nat → Int
  | _, [] => 0
  | s, c :: p => g.dist s c + path_len g c p

/-- The value `m` is the least length of an open path from `s` through every city of `cs`
exactly once: some ordering of `cs` attains it and no ordering is shorter. -/
def IsShortest (g : Graph) (s : Nat) (cs : List Nat) (m : Int) : Prop :=
  (∃ p, p.Perm cs ∧ path_len g s p = m) ∧ ∀ p, p.Perm cs → m ≤ path_len g s p

/-- State of the ranking loop before pass `j`: `sort` is a rearrangement of `0 .. n-1`, the
working copy holds the distances of the cities at the same positions, and the first `j`
positions hold the `j` least values in order. -/
def RankInv (n : Nat) (d0 : List Int) (j : Nat) (dist : List Int) (sort : List Nat) : Prop :=
  dist.length = n ∧ sort.length = n ∧ sort.Perm (List.range n) ∧
    (∀ k, k < n → dist.getD k 0 = d0.getD (sort.getD k 0) 0) ∧
    ∀ a b, a < j → a ≤ b → b < n → dist.getD a 0 ≤ dist.getD b 0

/-- The table `g` is what lines 105-144 leave for the coordinates `xy`: `max_city` is their
number, and every row holds the distances of line 116 and their ranking. -/
def Built (xy : List (Int × Int)) (g : Graph) : Prop :=
  g.max_city = xy.length ∧ g.city.length = xy.length ∧
    ∀ i, i < xy.length →
      (g.city.getD i default).dist = (List.range xy.length).map (gen_dist xy i) ∧
      gen_sort xy.length ((List.range xy.length).map (gen_dist xy i)) =
        .ret (g.city.getD i default).sort

/-- What the solvers rely on: at most 64 cities, distances between 0 and 2000000, and every
ranking row lists exactly the cities `0 .. max_city - 1`. -/
def GoodGraph (g : Graph) : Prop :=
  g.max_city ≤ 64 ∧ (∀ i j, 0 ≤ g.dist i j ∧ g.dist i j ≤ 2000000) ∧
    ∀ i, i < g.max_city →
      (∀ k, k < g.max_city → g.sort i k < g.max_city) ∧
      ∀ c, c < g.max_city → ∃ k, k < g.max_city ∧ g.sort i k = c

/-- Every non-zero entry of the part of the memo table that lines 243-245 clear holds the
least path length for its key. -/
def MemoInv (g : Graph) (saved : Memo) : Prop :=
  ∀ c v, c < g.max_city → v < 2 ^ g.max_city → saved c v ≠ 0 →
    IsShortest g c (members g.max_city v) (saved c v)

/-- The value `d` is the length of the open path from `s` through some ordering of `cs`. -/
def IsPathLen (g : Graph) (s : Nat) (cs : List Nat) (d : Int) : Prop :=
  ∃ p, p.Perm cs ∧ path_len g s p = d

/-- The hops `c₁, c₂, …` are taken from the visit set one after the other: each is in the
set when it is chosen, its bit is then cleared, and the set is empty after the last. -/
def StepsWithin : Nat → List Nat → Prop
  | visit, [] => visit = 0
  | visit, c :: hops => has_bit visit c = true ∧ StepsWithin (clear_bit visit c) hops

/-! ## Two small instances -/

/-- Two cities, at `(0,0)` and `(3,4)`. -/
def coords2 : List (Int × Int) := [(0, 0), (3, 4)]

/-- The table `main` builds for `coords2`. -/
def graph2 : Graph := ⟨2, [⟨0, 0, [0, 5], [0, 1]⟩, ⟨3, 4, [5, 0], [1, 0]⟩]⟩

/-- Three cities, at `(3,4)`, `(4,3)` and `(0,0)`: the first two are both at distance 5 from
the third. -/
def coords3 : List (Int × Int) := [(3, 4), (4, 3), (0, 0)]

/-- The table `main` builds for `coords3`. -/
def graph3 : Graph :=
  ⟨3, [⟨3, 4, [0, 1, 5], [0, 1, 2]⟩, ⟨4, 3, [1, 0, 5], [1, 0, 2]⟩, ⟨0, 0, [5, 5, 0], [2, 1, 0]⟩]⟩

/-- Four cities on the corners of a square of side 10: `(0,0)`, `(10,0)`, `(10,10)`,
`(0,10)`. -/
def coords4 : List (Int × Int) := [(0, 0), (10, 0), (10, 10), (0, 10)]

/-- The table `main` builds for `coords4`. -/
def graph4 : Graph :=
  ⟨4, [⟨0, 0, [0, 10, 14, 10], [0, 1, 3, 2]⟩, ⟨10, 0, [10, 0, 10, 14], [1, 0, 2, 3]⟩,
    ⟨10, 10, [14, 10, 0, 10], [2, 1, 3, 0]⟩, ⟨0, 10, [10, 14, 10, 0], [3, 2, 0, 1]⟩]⟩

/-! ## Vocabulary of the heuristic recurrence -/

/-- The lookahead handed to the recursive call at line 395. -/
def next_lookahead (K : Int) : Int := if K > 1 then K - 1 else 1

/-- The cities of the visit set in the order in which the ranking row of `s` lists them. -/
def ranked (g : Graph) (s visit : Nat) : List Nat :=
  ((List.range g.max_city).map (g.sort s)).filter (fun c => has_bit visit c)

/-- The first `K` cities of the visit set in the ranking order of `s`. -/
def candidates (g : Graph) (s visit : Nat) (K : Int) : List Nat :=
  (ranked g s visit).take K.toNat

/-- The body of the loop of lines 382-408 run over a list of candidate cities: one
recursive call per city of the list, in order, keeping the least distance and the first
city that attains it. -/
def tsp2_pick (g : Graph) (call : Nat → Nat → Int → Outcome (Int × Int))
    (start_city visit : Nat) (K' : Int) : List Nat → Int → Int → Outcome (Int × Int)
  | [], min_distance, best_city => .ret (min_distance, best_city)
  | c :: rest, min_distance, best_city =>
    match call c (clear_bit visit c) K' with
    | .ret (d, _) =>
      tsp2_pick g call start_city visit K' rest
        (if int_add (g.dist start_city c) d < min_distance
          then int_add (g.dist start_city c) d else min_distance)
        (if int_add (g.dist start_city c) d < min_distance then (c : Int) else best_city)
    | .fatal => .fatal
    | .cutoff => .cutoff

/-- The distance returned by `tsp2(s, visit, K, …)` (0 when the call does not return). -/
def estimate (g : Graph) (s visit : Nat) (K : Int) : Int :=
  match tsp2 g MAX_CITY s visit K with
  | .ret (d, _) => d
  | .fatal => 0
  | .cutoff => 0

/-- The loop of lines 323-347 with the lookahead passed to `tsp2` at line 326 (the constant
10 in the source) as the parameter `K`. -/
def tsp_bounded_loop_k (g : Graph) (K : Int) : Nat → Nat → Int → Nat → Outcome (Int × List Nat)
  | fuel, route_city, total_distance, visit =>
    if visit = 0 then .ret (total_distance, [])
    else
      match fuel with
      | 0 => .cutoff
      | fuel' + 1 =>
        match tsp2 g MAX_CITY route_city visit K with
        | .ret (_, city_chosen) =>
          if city_chosen < 1 ∨ city_chosen ≥ (g.max_city : Int) then .fatal
          else
            match tsp_bounded_loop_k g K fuel' city_chosen.toNat
                (int_add total_distance (g.dist route_city city_chosen.toNat))
                (clear_bit visit city_chosen.toNat) with
            | .ret (total, hops) => .ret (total, city_chosen.toNat :: hops)
            | .fatal => .fatal
            | .cutoff => .cutoff
        | .fatal => .fatal
        | .cutoff => .cutoff

/-- The route assembler of `tsp_bounded` run with lookahead `K`: total and hops. -/
def tsp_bounded_route_k (g : Graph) (K : Int) (start_city visit : Nat) :
    Outcome (Int × List Nat) :=
  tsp_bounded_loop_k g K MAX_CITY start_city 0 visit

/-- Six cities on which a lookahead of 3 gives a longer route than a lookahead of 2. -/
def coords6 : List (Int × Int) := [(5, 5), (6, 2), (1, 6), (2, 3), (1, 0), (3, 1)]

/-- The table `main` builds for `coords6`. -/
def graph6 : Graph :=
  ⟨6, [⟨5, 5, [0, 3, 4, 3, 6, 4], [0, 1, 3, 2, 5, 4]⟩, ⟨6, 2, [3, 0, 6, 4, 5, 3], [1, 0, 5, 3, 4, 2]⟩,
    ⟨1, 6, [4, 6, 0, 3, 6, 5], [2, 3, 0, 5, 4, 1]⟩, ⟨2, 3, [3, 4, 3, 0, 3, 2], [3, 5, 2, 0, 4, 1]⟩,
    ⟨1, 0, [6, 5, 6, 3, 0, 2], [4, 5, 3, 1, 0, 2]⟩, ⟨3, 1, [4, 3, 5, 2, 2, 0], [5, 3, 4, 1, 0, 2]⟩]⟩

/-- The greedy path of the nearest-neighbour rule, in the words of its description: from
`s`, each hop goes to the first city of the current city's ranking that is still in the
visit set, no city of the visit set is nearer to the current city than that one, and the
path ends when the visit set is empty. -/
def GreedyPath (g : Graph) : Nat → Nat → List Nat → Prop
  | _, visit, [] => visit = 0
  | s, visit, c :: p =>
    (ranked g s visit).head? = some c ∧
      (∀ c', c' < g.max_city → has_bit visit c' = true → g.dist s c ≤ g.dist s c') ∧
      GreedyPath g c (clear_bit visit c) p

/-- Every ranking row lists the cities by non-decreasing distance from its city. -/
def RankedByDistance (g : Graph) : Prop :=
  ∀ i, i < g.max_city → ∀ a b, a ≤ b → b < g.max_city →
    g.dist i (g.sort i a) ≤ g.dist i (g.sort i b)

/-- Non-zero memo entries sit only at keys a call of `tsp1` can have: a city below
`max_city`, a visit set within the cities, the city not in the set. -/
def MemoKeys (g : Graph) (saved : Memo) : Prop :=
  ∀ c w, saved c w ≠ 0 → c < g.max_city ∧ w < 2 ^ g.max_city ∧ has_bit w c = false

/-! ## The driver (`tsp.c` lines 78-83, 162-190) -/

/-- The entries of `alg_table`. -/
inductive Alg where
  | brute_force : Alg
  | dyn_prog : Alg
  | bounded : Alg
  | nearest_neighbor : Alg
  deriving DecidableEq, Repr

/-- The field `max_city` of an entry of `alg_table`. -/
def Alg.bound : Alg → Nat
  | .brute_force => MAX_CITY_BRUTE_FORCE
  | .dyn_prog => MAX_CITY_DYN_PROG
  | .bounded => MAX_CITY
  | .nearest_neighbor => MAX_CITY

/-- The call `alg->proc(start_city, visit_city_bits)` of line 177, with the memo table it
leaves. -/
def Alg.proc (g : Graph) (saved : Memo) (start_city visit : Nat) : Alg → Outcome (Int × Memo)
  | .brute_force => tsp_brute_force g saved start_city visit
  | .dyn_prog => tsp_dyn_prog g saved start_city visit
  | .bounded =>
    match tsp_bounded g start_city visit with
    | .ret d => .ret (d, saved)
    | .fatal => .fatal
    | .cutoff => .cutoff
  | .nearest_neighbor =>
    match tsp_nearest_neighbor g start_city visit with
    | .ret d => .ret (d, saved)
    | .fatal => .fatal
    | .cutoff => .cutoff

/-- The table `alg_table`, in order. -/
def alg_table : List Alg := [.brute_force, .dyn_prog, .bounded, .nearest_neighbor]

/-- Lines 170-179 for one entry: `none` when `do_run` is false (the solver is not called and
the line printed is `not_run`), otherwise the outcome of the call on start city 0 and the
visit set of line 174. -/
def run_alg (g : Graph) (saved : Memo) (alg : Alg) : Option (Outcome (Int × Memo)) :=
  if g.max_city ≤ alg.bound then some (alg.proc g saved 0 (visit_all g.max_city 0)) else none

/-- Lines 164-190: the loop over the remaining entries of `alg_table`, carrying the memo
table; the result lists, per entry, the distance printed (`none` for `not_run`), and stops
at an entry whose solver does not return. -/
def run_algs (g : Graph) : List Alg → Memo → List (Alg × Option Int)
  | [], _ => []
  | alg :: rest, saved =>
    match run_alg g saved alg with
    | none => (alg, none) :: run_algs g rest saved
    | some (.ret (d, saved')) => (alg, some d) :: run_algs g rest saved'
    | some .fatal => []
    | some .cutoff => []

end Tsp

/-!
# 0/1 knapsack benchmark (`knapsack.c`): embedding

The globals `item[]`, `max_item`, `taken[]`, `saved_value[][]` and `saved_taken[][]` are
explicit: the items are an argument, the three arrays are a state that is passed in and
handed back.  `int` additions wrap to 32 bits.
-/

namespace Knapsack

/-! ## Constants and machine arithmetic -/

def MAX_ITEM : Nat := 100
def MAX_VALUE : Int := 1000
def MAX_WEIGHT : Int := 1000

/-- Reduction of an integer to the range of a 32-bit `int`. -/
def wrap32 (z : Int) : Int := (z + 2147483648) % 4294967296 - 2147483648

/-- Addition of two `int` values. -/
def int_add (a b : Int) : Int := wrap32 (a + b)

/-- Subtraction of two `int` values. -/
def int_sub (a b : Int) : Int := wrap32 (a - b)

/-- Multiplication of two `int` values. -/
def int_mul (a b : Int) : Int := wrap32 (a * b)

/-! ## Globals (`knapsack.c` lines 37-44, 161-163) -/

/-- The type `item_t`. -/
structure item_t where
  value : Int
  weight : Int
  deriving DecidableEq, Repr

/-- The globals `max_item` and `item[]`; the entry `item[0]` is not used. -/
structure Items where
  max_item : Nat
  item : List item_t
  deriving DecidableEq, Repr

/-- The read `item[i].value`. -/
def Items.value (I : Items) (i : Nat) : Int := (I.item.getD i ⟨0, 0⟩).value

/-- The read `item[i].weight`. -/
def Items.weight (I : Items) (i : Nat) : Int := (I.item.getD i ⟨0, 0⟩).weight

/-- The globals `taken[]`, `saved_value[][]` and `saved_taken[][]`. -/
structure State where
  taken : Nat → Bool
  saved_value : Nat → Int → Int
  saved_taken : Nat → Int → Bool

/-- The two `bzero` calls of lines 172-173 and 227-228. -/
def clear_saved (st : State) : State :=
  { st with saved_value := fun _ _ => 0, saved_taken := fun _ _ => false }

/-- The stores `saved_value[n][c] = v; saved_taken[n][c] = t` of lines 197-201, 246-250. -/
def record (st : State) (n : Nat) (c : Int) (v : Int) (t : Bool) : State :=
  { st with
    saved_value := fun i d => if i = n ∧ d = c then v else st.saved_value i d,
    saved_taken := fun i d => if i = n ∧ d = c then t else st.saved_taken i d }

/-- The store `taken[n] = b`. -/
def set_taken (taken : Nat → Bool) (n : Nat) (b : Bool) : Nat → Bool :=
  fun i => if i = n then b else taken i

/-- Lines 208-215 and 257-264: the walk `for (n = …; n > 0; n--)` through `saved_taken`,
from item `n` with the capacity `c` left, setting `taken[n]`. -/
def scan_taken (I : Items) (saved_taken : Nat → Int → Bool) :
    Nat → Int → (Nat → Bool) → (Nat → Bool)
  | 0, _, taken => taken
  | n + 1, c, taken =>
    if saved_taken (n + 1) c then
      scan_taken I saved_taken n (int_sub c (I.weight (n + 1))) (set_taken taken (n + 1) true)
    else
      scan_taken I saved_taken n c (set_taken taken (n + 1) false)

/-! ## `top_down` (lines 165-220) -/

/-- The function `top_down(num_item, capacity, dynamic_programming)`, with the state of the
global arrays before and after. -/
def top_down (I : Items) : Nat → Int → Bool → State → Int × State
  | 0, _, _, st =>
    let st1 := if (0 == I.max_item) then clear_saved st else st
    (0, st1)
  | n + 1, capacity, dynamic_programming, st =>
    let first_call := (n + 1 == I.max_item)
    let st1 := if first_call then clear_saved st else st
    if dynamic_programming && st1.saved_value (n + 1) capacity != 0 then
      (st1.saved_value (n + 1) capacity, st1)
    else
      let take :=
        if capacity ≥ I.weight (n + 1) then
          let r := top_down I n (int_sub capacity (I.weight (n + 1))) dynamic_programming st1
          (int_add (I.value (n + 1)) r.1, r.2)
        else (0, st1)
      let not_take := top_down I n capacity dynamic_programming take.2
      let st4 :=
        if take.1 > not_take.1 then record not_take.2 (n + 1) capacity take.1 true
        else record not_take.2 (n + 1) capacity not_take.1 false
      let st5 :=
        if first_call then
          { st4 with taken := scan_taken I st4.saved_taken I.max_item MAX_WEIGHT st4.taken }
        else st4
      (st5.saved_value (n + 1) capacity, st5)

/-! ## `bottom_up` (lines 222-268) -/

/-- The values `0 .. capacity` of the loop variable `c` of line 232. -/
def capacities (capacity : Int) : List Int :=
  (List.range (capacity + 1).toNat).map (fun (k : Nat) => (k : Int))

/-- Lines 232-252: the loop over `c` for item `i`, over the remaining values of `c`. -/
def bottom_up_row (I : Items) (i : Nat) : List Int → State → State
  | [], st => st
  | c :: cs, st =>
    let value_take :=
      if I.weight i ≤ c then
        int_add (I.value i) (st.saved_value (i - 1) (int_sub c (I.weight i)))
      else 0
    let value_not_take := st.saved_value (i - 1) c
    bottom_up_row I i cs
      (if value_take > value_not_take then record st i c value_take true
       else record st i c value_not_take false)

/-- Lines 231-253: the loop over `i`, over the remaining values of `i`. -/
def bottom_up_rows (I : Items) (capacity : Int) : List Nat → State → State
  | [], st => st
  | i :: rest, st => bottom_up_rows I capacity rest (bottom_up_row I i (capacities capacity) st)

/-- The function `bottom_up(num_item, capacity)`. -/
def bottom_up (I : Items) (num_item : Nat) (capacity : Int) (st : State) : Int × State :=
  let st2 := bottom_up_rows I capacity (List.range' 1 num_item) (clear_saved st)
  let st3 := { st2 with taken := scan_taken I st2.saved_taken num_item capacity st2.taken }
  (st3.saved_value num_item capacity, st3)

/-! ## `approximation` (lines 270-318) -/

/-- Lines 288-294: the scan for the largest ratio, carrying `(max, max_i)`. -/
def find_max (x : Nat → Int) : List Nat → Int × Nat → Int × Nat
  | [], st => st
  | i :: rest, (max, max_i) =>
    if x i > max then find_max x rest (x i, i) else find_max x rest (max, max_i)

/-- Lines 286-314: the `while (true)` loop, carrying `x[]`, `capacity`, `value` and
`taken[]`; the first argument bounds the number of passes, `none` means it was used up. -/
def approx_loop (I : Items) (num_item : Nat) :
    Nat → (Nat → Int) → Int → Int → (Nat → Bool) → Option (Int × (Nat → Bool))
  | 0, _, _, _, _ => none
  | fuel + 1, x, capacity, value, taken =>
    let max_i := (find_max x (List.range' 1 num_item) (0, 0)).2
    if max_i = 0 then some (value, taken)
    else
      let x' : Nat → Int := fun i => if i = max_i then 0 else x i
      if I.weight max_i > capacity then approx_loop I num_item fuel x' capacity value taken
      else
        approx_loop I num_item fuel x' (int_sub capacity (I.weight max_i))
          (int_add value (I.value max_i)) (set_taken taken max_i true)

/-- The array `x[]` of lines 281-283: `1000000 * value / weight` in `int` arithmetic. -/
def ratio (I : Items) (i : Nat) : Int := Int.tdiv (int_mul 1000000 (I.value i)) (I.weight i)

/-- The function `approximation(num_item, capacity)`.  Every pass but the last zeroes one
positive entry of `x[1 .. num_item]`, so `num_item + 1` passes are all the loop can make. -/
def approximation (I : Items) (num_item : Nat) (capacity : Int) (st : State) :
    Option (Int × State) :=
  match approx_loop I num_item (num_item + 1) (ratio I) capacity 0 (fun _ => false) with
  | some (value, taken) => some (value, { st with taken := taken })
  | none => none

/-! ## `print_results` (lines 111-140) -/

/-- Lines 117-123: the sum `value_taken` over the remaining items `i`. -/
def value_taken (I : Items) (taken : Nat → Bool) : List Nat → Int → Int
  | [], acc => acc
  | i :: rest, acc =>
    if taken i then value_taken I taken rest (int_add acc (I.value i))
    else value_taken I taken rest acc

/-- The test of line 135: `true` when `print_results` returns, `false` when it exits. -/
def print_results (I : Items) (st : State) (value : Int) : Bool :=
  value == value_taken I st.taken (List.range' 1 I.max_item) 0

/-- A state of the global arrays with every entry zero, as at program start. -/
def zero_state : State := ⟨fun _ => false, fun _ _ => 0, fun _ _ => false⟩

/-- Three items of weight 600, 500, 500 and value 10, 6, 6. -/
def items3 : Items := ⟨3, [⟨0, 0⟩, ⟨10, 600⟩, ⟨6, 500⟩, ⟨6, 500⟩]⟩

/-! ## Vocabulary of the knapsack properties -/

/-- The recurrence the exact algorithms evaluate, in `int` arithmetic: the value for the
items `1 .. n` and the capacity `c`. -/
def best (I : Items) : Nat → Int → Int
  | 0, _ => 0
  | n + 1, c =>
    let value_take :=
      if c ≥ I.weight (n + 1) then
        int_add (I.value (n + 1)) (best I n (int_sub c (I.weight (n + 1))))
      else 0
    if value_take > best I n c then value_take else best I n c

/-- The decision of the recurrence at item `n` and capacity `c`: `true` when taking is
strictly better. -/
def takes (I : Items) : Nat → Int → Bool
  | 0, _ => false
  | n + 1, c =>
    decide ((if c ≥ I.weight (n + 1) then
        int_add (I.value (n + 1)) (best I n (int_sub c (I.weight (n + 1))))
      else 0) > best I n c)

/-- The entry `[n][c]` of the two tables holds the recurrence's value and decision. -/
def Written (I : Items) (sv : Nat → Int → Int) (tk : Nat → Int → Bool) (n : Nat) (c : Int) :
    Prop :=
  sv n c = best I n c ∧ tk n c = takes I n c

/-- Every entry the walk of `scan_taken` reads from item `n` and capacity `c` is written. -/
def PathOK (I : Items) (sv : Nat → Int → Int) (tk : Nat → Int → Bool) : Nat → Int → Prop
  | 0, _ => True
  | n + 1, c =>
    Written I sv tk (n + 1) c ∧
      PathOK I sv tk n (if takes I (n + 1) c then int_sub c (I.weight (n + 1)) else c)

/-- Every non-zero entry of `saved_value` is written, with all the entries below it that the
walk reads. -/
def Inv (I : Items) (sv : Nat → Int → Int) (tk : Nat → Int → Bool) : Prop :=
  ∀ n c, sv n c ≠ 0 → PathOK I sv tk n c

/-- The second pair of tables keeps every written entry of the first. -/
def Ext (I : Items) (sv : Nat → Int → Int) (tk : Nat → Int → Bool)
    (sv' : Nat → Int → Int) (tk' : Nat → Int → Bool) : Prop :=
  ∀ n c, Written I sv tk n c → Written I sv' tk' n c

/-- The items are `int` pairs with positive value and weight, at most `MAX_ITEM` of them. -/
def ValidItems (I : Items) : Prop :=
  I.max_item ≤ MAX_ITEM ∧
    ∀ i, 1 ≤ i → i ≤ I.max_item →
      1 ≤ I.value i ∧ I.value i ≤ 2147483647 ∧ 1 ≤ I.weight i ∧ I.weight i ≤ 2147483647

instance (I : Items) : Decidable (ValidItems I) := by
  unfold ValidItems; exact inferInstance

/-- The total value of the items of `S`. -/
def total_value (I : Items) (S : Finset Nat) : Int := S.sum (fun i => I.value i)

/-- The total weight of the items of `S`. -/
def total_weight (I : Items) (S : Finset Nat) : Int := S.sum (fun i => I.weight i)

/-- The value `r` is the 0/1-knapsack optimum of the items `1 .. n` for the capacity `c`:
some subset of total weight at most `c` has total value `r`, and none has more. -/
def IsOptimum (I : Items) (n : Nat) (c : Int) (r : Int) : Prop :=
  (∃ S : Finset Nat, S ⊆ Finset.Icc 1 n ∧ total_weight I S ≤ c ∧ total_value I S = r) ∧
    ∀ S : Finset Nat, S ⊆ Finset.Icc 1 n → total_weight I S ≤ c → total_value I S ≤ r

/-- The largest item value for which a hundred values still add up to an `int`. -/
def VALUE_BOUND : Int := 21474836

/-- Two items of value 2^30 and weight 1. -/
def items_big : Items := ⟨2, [⟨0, 0⟩, ⟨1073741824, 1⟩, ⟨1073741824, 1⟩]⟩

end Knapsack

/-!
# Sorting benchmark (`sort.c`): embedding

An `int` array with its element count is a list of integers; a sort routine maps the list
to the list it leaves in the array.
-/

namespace Sorting

/-! ## Arrays and machine arithmetic -/

/-- Reduction of an integer to the range of a 32-bit `int`. -/
def wrap32 (z : Int) : Int := (z + 2147483648) % 4294967296 - 2147483648

/-- Addition of two `int` values. -/
def int_add (a b : Int) : Int := wrap32 (a + b)

/-- The call `swap(&array[i], &array[j])` (lines 197-202). -/
def swap (array : List Int) (i j : Nat) : List Int :=
  (array.set i (array.getD j 0)).set j (array.getD i 0)

/-- The call `memmove(array+dst, array+src, count*sizeof(int))`: the `count` entries from
`src` on, as they were before the call, land at `dst` and after. -/
def memmove (array : List Int) (dst src count : Nat) : List Int :=
  (List.range array.length).map
    (fun p => if dst ≤ p ∧ p < dst + count then array.getD (src + (p - dst)) 0
      else array.getD p 0)

/-! ## `checksum` and `sorted_okay` (lines 131-161) -/

/-- Lines 157-159: the loop of `checksum` over the remaining indices `i`. -/
def checksum_loop (array : List Int) : List Nat → Int → Int
  | [], sum => sum
  | i :: rest, sum => checksum_loop array rest (int_add sum (array.getD i 0))

/-- The function `checksum(array, elements)`. -/
def checksum (array : List Int) (elements : Nat) : Int :=
  checksum_loop array (List.range elements) 0

/-- Lines 135-141: the loop of `sorted_okay` over the remaining indices `i`; `false` is the
early `return false`. -/
def order_okay (array : List Int) : List Nat → Bool
  | [] => true
  | i :: rest => if array.getD i 0 > array.getD (i + 1) 0 then false else order_okay array rest

/-- The function `sorted_okay(array, elements, cksum_expected)`. -/
def sorted_okay (array : List Int) (elements : Nat) (cksum_expected : Int) : Bool :=
  if order_okay array (List.range (elements - 1)) then
    if cksum_expected != checksum array elements then false else true
  else false

/-! ## `bubble_sort` (lines 204-224) -/

/-- Lines 217-222: one scan `for (i = 0; i < elements-1; i++)` over the remaining indices,
carrying the array and the flag `swaps`. -/
def bubble_pass : List Nat → List Int × Bool → List Int × Bool
  | [], st => st
  | i :: rest, (array, swaps) =>
    if array.getD i 0 > array.getD (i + 1) 0 then bubble_pass rest (swap array i (i + 1), true)
    else bubble_pass rest (array, swaps)

/-- Lines 215-223: the `do … while (swaps)` loop; the first argument bounds the number of
scans, `none` means it was used up. -/
def bubble_loop (elements : Nat) : Nat → List Int → Option (List Int)
  | 0, _ => none
  | fuel + 1, array =>
    let r := bubble_pass (List.range (elements - 1)) (array, false)
    if r.2 then bubble_loop elements fuel r.1 else some r.1

/-- The function `bubble_sort(array, elements)`, with a bound on the number of scans. -/
def bubble_sort (fuel : Nat) (array : List Int) (elements : Nat) : Option (List Int) :=
  if elements ≤ 1 then some array else bubble_loop elements fuel array

/-! ## `selection_sort` (lines 226-247) -/

/-- Lines 240-245: the scan `for (i = start+1; i < elements; i++)` over the remaining
indices, carrying `(min_val, min_idx)`. -/
def selection_scan (array : List Int) : List Nat → Int × Nat → Int × Nat
  | [], st => st
  | i :: rest, (min_val, min_idx) =>
    if array.getD i 0 < min_val then selection_scan array rest (array.getD i 0, i)
    else selection_scan array rest (min_val, min_idx)

/-- Lines 237-246: the loop `for (start = 0; start < elements-1; start++)` over the remaining
values of `start`. -/
def selection_loop (elements : Nat) : List Nat → List Int → List Int
  | [], array => array
  | start :: rest, array =>
    let r := selection_scan array (List.range' (start + 1) (elements - (start + 1)))
      (array.getD start 0, start)
    selection_loop elements rest (swap array start r.2)

/-- The function `selection_sort(array, elements)`. -/
def selection_sort (array : List Int) (elements : Nat) : List Int :=
  if elements ≤ 1 then array else selection_loop elements (List.range (elements - 1)) array

/-! ## `insertion_sort` (lines 249-287) -/

/-- Lines 273-277: the backward scan `for (j = i-1; j > 0; j--)` from the current `j`; the
result is the value of `j` after the loop. -/
def insertion_scan (array : List Int) (val : Int) : Nat → Nat
  | 0 => 0
  | j + 1 => if val ≥ array.getD j 0 then j + 1 else insertion_scan array val j

/-- Lines 262-286: the loop `for (i = 1; i < elements; i++)` over the remaining values
of `i`. -/
def insertion_loop : List Nat → List Int → List Int
  | [], array => array
  | i :: rest, array =>
    if array.getD i 0 ≥ array.getD (i - 1) 0 then insertion_loop rest array
    else
      let val := array.getD i 0
      let j := insertion_scan array val (i - 1)
      insertion_loop rest ((memmove array (j + 1) j (i - j)).set j val)

/-- The function `insertion_sort(array, elements)`. -/
def insertion_sort (array : List Int) (elements : Nat) : List Int :=
  if elements ≤ 1 then array else insertion_loop (List.range' 1 (elements - 1)) array

/-! ## `quick_sort` (lines 289-352) -/

/-- Lines 317-327: the `while (true)` loop that reorders the array around `pivot_val`,
carrying the array, `left_idx` and `right_idx`; the result is the array and `left_idx` at
the `break`.  The first argument bounds the number of passes, `none` means it was
used up. -/
def partition_loop (pivot_val : Int) : Nat → List Int → Nat → Nat → Option (List Int × Nat)
  | 0, _, _, _ => none
  | fuel + 1, array, left_idx, right_idx =>
    if left_idx == right_idx then some (array, left_idx)
    else if array.getD left_idx 0 ≥ pivot_val then
      partition_loop pivot_val fuel (swap array left_idx right_idx) left_idx (right_idx - 1)
    else partition_loop pivot_val fuel array (left_idx + 1) right_idx

/-- The function `quick_sort(array, elements)` on the `elements` entries of `array`.  The
call on `array + pivot_idx` is the call on the entries from `pivot_idx` on.  The first
argument bounds the depth of the recursion, `none` means it was used up. -/
def quick_sort : Nat → List Int → Nat → Option (List Int)
  | 0, _, _ => none
  | fuel + 1, array, elements =>
    if elements ≤ 2 then
      if elements == 2 && array.getD 0 0 > array.getD 1 0 then some (swap array 0 1)
      else some array
    else
      let pivot_val := array.getD (elements / 2) 0
      match partition_loop pivot_val elements
          (swap array (elements / 2) (elements - 1)) 0 (elements - 2) with
      | none => none
      | some (array2, left_idx) =>
        let pivot_idx := if array2.getD left_idx 0 > pivot_val then left_idx else left_idx + 1
        match quick_sort fuel (array2.take pivot_idx) pivot_idx with
        | none => none
        | some left =>
          match quick_sort fuel (array2.drop pivot_idx) (elements - pivot_idx) with
          | none => none
          | some right => some (left ++ right)

/-! ## `merge_sort` (lines 354-417) -/

/-- Lines 378-410: the `while (true)` loop that merges the two sorted halves of `array` into
`merged`, carrying `left_idx`, `right_idx`, `merge_idx` and the entries of `merged` filled
so far.  The first argument bounds the number of passes, `none` means it was used up. -/
def merge_loop (array : List Int) (elements : Nat) :
    Nat → Nat → Nat → Nat → List Int → Option (List Int)
  | 0, _, _, _, _ => none
  | fuel + 1, left_idx, right_idx, merge_idx, merged =>
    if merge_idx == elements then some merged
    else if left_idx == elements / 2 then
      some (merged ++ (array.drop right_idx).take (elements - merge_idx))
    else if right_idx == elements then
      some (merged ++ (array.drop left_idx).take (elements - merge_idx))
    else if array.getD left_idx 0 < array.getD right_idx 0 then
      merge_loop array elements fuel (left_idx + 1) right_idx (merge_idx + 1)
        (merged ++ [array.getD left_idx 0])
    else
      merge_loop array elements fuel left_idx (right_idx + 1) (merge_idx + 1)
        (merged ++ [array.getD right_idx 0])

/-- The function `merge_sort(array, elements)` on the `elements` entries of `array`.  The
call on `array + elements/2` is the call on the entries from `elements/2` on.  The first
argument bounds the depth of the recursion, `none` means it was used up. -/
def merge_sort : Nat → List Int → Nat → Option (List Int)
  | 0, _, _ => none
  | fuel + 1, array, elements =>
    if elements ≤ 1 then some array
    else
      match merge_sort fuel (array.take (elements / 2)) (elements / 2) with
      | none => none
      | some left =>
        match merge_sort fuel (array.drop (elements / 2)) (elements - elements / 2) with
        | none => none
        | some right =>
          merge_loop (left ++ right) elements (elements + 1) 0 (elements / 2) 0 []

/-! ## Vocabulary of the sorting properties -/

/-- The array is in non-decreasing order: `array[i] <= array[i+1]` for all `i`. -/
def NonDecreasing (array : List Int) : Prop :=
  ∀ i, i + 1 < array.length → array.getD i 0 ≤ array.getD (i + 1) 0

/-- An array of six entries with repeated values. -/
def sample6 : List Int := [3, 1, 2, 3, 0, 1]

/-- The array `r` is what a sort must leave of the array `a`: it is in non-decreasing
order, it has the same elements with the same multiplicities, and `sorted_okay` accepts it
against the checksum taken of `a` before the sort. -/
def SortedCopy (a r : List Int) : Prop :=
  NonDecreasing r ∧ r.Perm a ∧ sorted_okay r a.length (checksum a a.length) = true

/-- A bound `k` on the calls of `quick_sort` in a row that pass the whole array on
(`pivot_idx = 0`): either `k` is the length, or the last entry is a least one and it occurs
again at an index from 1 to `k`. -/
def RoundBound (a : List Int) (k : Nat) : Prop :=
  k = a.length ∨
    (k < a.length ∧ (∀ x ∈ a, a.getD (a.length - 1) 0 ≤ x) ∧
      ∃ i, 1 ≤ i ∧ i ≤ k ∧ a.getD i 0 = a.getD (a.length - 1) 0)

end Sorting

/-!
# Properties

The theorems about the three programs, in the order of the embeddings: `tsp.c`,
`knapsack.c`, `sort.c`.
-/

namespace Tsp

/-! ## Bit vectors -/

theorem shl1_eq {c : Nat} (hc : c < 64) : shl1 c = 2 ^ c := by
  unfold shl1
  rw [Nat.one_shiftLeft]
  exact Nat.mod_eq_of_lt (Nat.pow_lt_pow_right (by decide) hc)

theorem has_bit_eq {c : Nat} (hc : c < 64) (v : Nat) : has_bit v c = v.testBit c := by
  unfold has_bit
  rw [shl1_eq hc]
  cases h : v.testBit c
  · have : v &&& 2 ^ c = 0 := by
      apply Nat.eq_of_testBit_eq
      intro i
      rw [Nat.testBit_land, Nat.testBit_two_pow, Nat.zero_testBit]
      by_cases hi : c = i
      · subst hi; simp [h]
      · simp [hi]
    simp [this]
  · have : (v &&& 2 ^ c).testBit c = true := by
      rw [Nat.testBit_land, Nat.testBit_two_pow_self, h]; rfl
    have hne : v &&& 2 ^ c ≠ 0 := by
      intro h0
      rw [h0, Nat.zero_testBit] at this
      exact Bool.noConfusion this
    simpa using hne

theorem testBit_clear_bit {c : Nat} (hc : c < 64) {v : Nat} (hv : v < 2 ^ 64) (i : Nat) :
    (clear_bit v c).testBit i = (v.testBit i && decide (i ≠ c)) := by
  unfold clear_bit long_not
  rw [shl1_eq hc, Nat.testBit_land]
  have h2 : 2 ^ c < 2 ^ 64 := Nat.pow_lt_pow_right (by decide) hc
  have : 2 ^ 64 - 1 - 2 ^ c = 2 ^ 64 - (2 ^ c + 1) := by omega
  rw [this, Nat.testBit_two_pow_sub_succ h2, Nat.testBit_two_pow]
  by_cases hi : i < 64
  · by_cases hic : c = i
    · subst hic; simp
    · have : i ≠ c := fun h => hic h.symm
      simp [hi, hic, this]
  · have : v.testBit i = false :=
      Nat.testBit_lt_two_pow (lt_of_lt_of_le hv (Nat.pow_le_pow_right (by decide) (by omega)))
    simp [this]

theorem clear_bit_le (v c : Nat) : clear_bit v c ≤ v := Nat.and_le_left

theorem has_bit_clear_bit {c i : Nat} (hc : c < 64) (hi : i < 64) {v : Nat} (hv : v < 2 ^ 64) :
    has_bit (clear_bit v c) i = (has_bit v i && decide (i ≠ c)) := by
  rw [has_bit_eq hi, has_bit_eq hi, testBit_clear_bit hc hv]

theorem exists_has_bit {n v : Nat} (hn : n ≤ 64) (hv : v < 2 ^ n) (h0 : v ≠ 0) :
    ∃ c, c < n ∧ has_bit v c = true := by
  obtain ⟨i, hi⟩ := Nat.ne_zero_implies_bit_true h0
  have hin : i < n := by
    by_contra hge
    have := Nat.testBit_lt_two_pow (lt_of_lt_of_le hv (Nat.pow_le_pow_right (by decide) (not_lt.mp hge)))
    rw [hi] at this
    exact Bool.noConfusion this
  exact ⟨i, hin, by rw [has_bit_eq (by omega)]; exact hi⟩

theorem mem_members {n v c : Nat} : c ∈ members n v ↔ c < n ∧ has_bit v c = true := by
  simp [members]

theorem members_nodup (n v : Nat) : (members n v).Nodup :=
  (List.nodup_range n).filter _

theorem members_zero (n : Nat) : members n 0 = [] := by
  simp [members, has_bit]

theorem members_ne_nil {n v : Nat} (hn : n ≤ 64) (hv : v < 2 ^ n) (h0 : v ≠ 0) :
    members n v ≠ [] := by
  obtain ⟨c, hc, hb⟩ := exists_has_bit hn hv h0
  exact List.ne_nil_of_mem (mem_members.2 ⟨hc, hb⟩)

theorem members_clear_bit {n v c : Nat} (hn : n ≤ 64) (hv : v < 2 ^ 64) (hc : c < n) :
    members n (clear_bit v c) = (members n v).erase c := by
  rw [(members_nodup n v).erase_eq_filter]
  unfold members
  rw [List.filter_filter]
  apply List.filter_congr
  intro i hi
  have hi' : i < 64 := lt_of_lt_of_le (List.mem_range.1 hi) hn
  rw [has_bit_clear_bit (by omega) hi' hv]
  by_cases h : i = c <;> cases has_bit v i <;> simp [h]

theorem length_members_clear_bit {n v c : Nat} (hn : n ≤ 64) (hv : v < 2 ^ 64) (hc : c < n)
    (hb : has_bit v c = true) :
    (members n (clear_bit v c)).length + 1 = (members n v).length := by
  rw [members_clear_bit hn hv hc]
  have hm : c ∈ members n v := mem_members.2 ⟨hc, hb⟩
  rw [List.length_erase_of_mem hm]
  have : 0 < (members n v).length := List.length_pos_of_mem hm
  omega

/-! ## Square root and distances -/

theorem isqrt_from_spec (n : Nat) : ∀ k r, r * r ≤ n → n ≤ r + k →
    isqrt_from n k r * isqrt_from n k r ≤ n ∧
      n < (isqrt_from n k r + 1) * (isqrt_from n k r + 1) := by
  intro k
  induction k with
  | zero =>
    intro r hr hk
    simp only [isqrt_from]
    exact ⟨hr, by nlinarith⟩
  | succ k ih =>
    intro r hr hk
    simp only [isqrt_from]
    split
    · rename_i h
      exact ih (r + 1) h (by omega)
    · rename_i h
      exact ⟨hr, by omega⟩

theorem isqrt_eq_sqrt (n : Nat) : isqrt n = Nat.sqrt n :=
  Nat.eq_sqrt.2 (isqrt_from_spec n n 0 (Nat.zero_le _) (by omega))

theorem isqrt_le (n : Nat) : isqrt n ≤ n := by
  rw [isqrt_eq_sqrt]; exact Nat.sqrt_le_self n

theorem gen_dist_comm (xy : List (Int × Int)) (i j : Nat) : gen_dist xy i j = gen_dist xy j i := by
  unfold gen_dist
  simp only
  congr 3
  ring

theorem gen_dist_self (xy : List (Int × Int)) (i : Nat) : gen_dist xy i i = 0 := by
  unfold gen_dist
  simp [isqrt, isqrt_from]

theorem gen_dist_nonneg (xy : List (Int × Int)) (i j : Nat) : 0 ≤ gen_dist xy i j := by
  unfold gen_dist
  exact Int.natCast_nonneg _

theorem getD_coords_bounds {xy : List (Int × Int)} (h : ValidCoords xy) (i : Nat) :
    0 ≤ (xy.getD i (0, 0)).1 ∧ (xy.getD i (0, 0)).1 ≤ 1000 ∧
      0 ≤ (xy.getD i (0, 0)).2 ∧ (xy.getD i (0, 0)).2 ≤ 1000 := by
  by_cases hi : i < xy.length
  · rw [List.getD_eq_getElem _ _ hi]
    exact h.2.2 _ (List.getElem_mem hi)
  · rw [List.getD_eq_default _ _ (not_lt.mp hi)]
    simp

theorem gen_dist_le {xy : List (Int × Int)} (h : ValidCoords xy) (i j : Nat) :
    gen_dist xy i j ≤ 2000000 := by
  unfold gen_dist
  simp only
  obtain ⟨a1, a2, a3, a4⟩ := getD_coords_bounds h i
  obtain ⟨b1, b2, b3, b4⟩ := getD_coords_bounds h j
  generalize (xy.getD i (0, 0)).1 = xi at *
  generalize (xy.getD i (0, 0)).2 = yi at *
  generalize (xy.getD j (0, 0)).1 = xj at *
  generalize (xy.getD j (0, 0)).2 = yj at *
  have h1 : (xi - xj) * (xi - xj) ≤ 1000000 := by nlinarith
  have h2 : (yi - yj) * (yi - yj) ≤ 1000000 := by nlinarith
  have h3 : 0 ≤ (xi - xj) * (xi - xj) := mul_self_nonneg _
  have h4 : 0 ≤ (yi - yj) * (yi - yj) := mul_self_nonneg _
  have h5 : (((xi - xj) * (xi - xj) + (yi - yj) * (yi - yj)).toNat : Int) ≤ 2000000 := by
    rw [Int.toNat_of_nonneg (by omega)]; omega
  have h6 := isqrt_le ((xi - xj) * (xi - xj) + (yi - yj) * (yi - yj)).toNat
  omega

/-! ## The ranking of neighbours -/

theorem swap_length {α : Type} [Inhabited α] (a : List α) (i j : Nat) :
    (swap a i j).length = a.length := by
  simp [swap]

theorem swap_getD {α : Type} [Inhabited α] (a : List α) {i j : Nat} (hi : i < a.length)
    (hj : j < a.length) (k : Nat) (d : α) :
    (swap a i j).getD k d =
      if k = j then a.getD i d else if k = i then a.getD j d else a.getD k d := by
  unfold swap
  simp only [List.getD_eq_getElem?_getD, List.getElem?_set, List.length_set]
  rw [List.getElem?_eq_getElem hi, List.getElem?_eq_getElem hj]
  by_cases h1 : k = j
  · subst h1; simp [hj]
  · by_cases h2 : k = i
    · subst h2
      have : ¬ j = k := fun h => h1 h.symm
      simp [this, hi, h1]
    · have h3 : ¬ j = k := fun h => h1 h.symm
      have h4 : ¬ i = k := fun h => h2 h.symm
      simp [h1, h2, h3, h4]

theorem swap_perm {α : Type} [Inhabited α] [DecidableEq α] (a : List α) {i j : Nat}
    (hi : i < a.length) (hj : j < a.length) : (swap a i j).Perm a := by
  rw [List.perm_iff_count]
  intro b
  unfold swap
  rw [List.getD_eq_getElem _ _ hi, List.getD_eq_getElem _ _ hj]
  have h2 : (if (a[i] == b) = true then 1 else 0) ≤ List.count b a := by
    split
    · rename_i h
      have : a[i] = b := by simpa using h
      have hm : b ∈ a := this ▸ List.getElem_mem hi
      exact List.count_pos_iff.2 hm
    · exact Nat.zero_le _
  by_cases hij : i = j
  · subst hij
    rw [List.set_set, List.count_set _ _ _ _ hi]
    omega
  · have hj2 : j < (a.set i a[j]).length := by simpa using hj
    rw [List.count_set _ _ _ _ hj2, List.count_set _ _ _ _ hi]
    have h1 : (a.set i a[j])[j] = a[j] := by
      rw [List.getElem_set]; simp [hij]
    rw [h1]
    omega

/-- The scan of lines 131-136 once a first candidate `mi` (a position before `a`) is held:
the result holds the least value among the held one and those scanned, and the position
moves only to a strictly smaller value, so it is the first position with that value. -/
theorem scan_min_range (dist : List Int) : ∀ (len a mi : Nat) (md : Int), mi < a →
    ∃ (m : Nat) (r : Int), scan_min dist (List.range' a len) ((mi : Int), md) = ((m : Int), r) ∧
      ((m = mi ∧ r = md) ∨
        (a ≤ m ∧ m < a + len ∧ r = dist.getD m 0 ∧ r < md ∧
          ∀ k, a ≤ k → k < m → r < dist.getD k 0)) ∧
      r ≤ md ∧ ∀ k, a ≤ k → k < a + len → r ≤ dist.getD k 0 := by
  intro len
  induction len with
  | zero =>
    intro a mi md _
    refine ⟨mi, md, by simp [scan_min], Or.inl ⟨rfl, rfl⟩, le_refl _, ?_⟩
    intro k h1 h2; omega
  | succ len ih =>
    intro a mi md hmi
    rw [List.range'_succ]
    simp only [scan_min]
    have hne : ¬ ((mi : Int) = -1) := by omega
    by_cases hlt : dist.getD a 0 < md
    · rw [if_pos (Or.inr hlt)]
      obtain ⟨m, r, hm, hcase, hle, hall⟩ := ih (a + 1) a (dist.getD a 0) (Nat.lt_succ_self a)
      refine ⟨m, r, hm, Or.inr ?_, le_of_lt (lt_of_le_of_lt hle hlt), ?_⟩
      · rcases hcase with ⟨h1, h2⟩ | ⟨h1, h2, h3, h4, h5⟩
        · subst h1
          refine ⟨le_refl _, by omega, h2, h2 ▸ hlt, ?_⟩
          intro k hk1 hk2; omega
        · refine ⟨by omega, by omega, h3, lt_trans h4 hlt, ?_⟩
          intro k hk1 hk2
          by_cases hka : k = a
          · subst hka; exact h4
          · exact h5 k (by omega) hk2
      · intro k hk1 hk2
        by_cases hka : k = a
        · subst hka; exact hle
        · exact hall k (by omega) (by omega)
    · rw [if_neg (by rintro (h | h); exact hne h; exact hlt h)]
      obtain ⟨m, r, hm, hcase, hle, hall⟩ := ih (a + 1) mi md (by omega)
      have hmd : md ≤ dist.getD a 0 := not_lt.mp hlt
      refine ⟨m, r, hm, ?_, hle, ?_⟩
      · rcases hcase with ⟨h1, h2⟩ | ⟨h1, h2, h3, h4, h5⟩
        · exact Or.inl ⟨h1, h2⟩
        · refine Or.inr ⟨by omega, by omega, h3, h4, ?_⟩
          intro k hk1 hk2
          by_cases hka : k = a
          · subst hka; exact lt_of_lt_of_le h4 hmd
          · exact h5 k (by omega) hk2
      · intro k hk1 hk2
        by_cases hka : k = a
        · subst hka; exact le_trans hle hmd
        · exact hall k (by omega) (by omega)

/-- The scan of lines 130-136 from `j < n`: it returns the first position `m` in `j .. n-1`
whose value is least. -/
theorem scan_min_first (dist : List Int) {j n : Nat} (hj : j < n) :
    ∃ m : Nat, (scan_min dist (List.range' j (n - j)) (-1, -1)).1 = (m : Int) ∧
      j ≤ m ∧ m < n ∧ (∀ k, j ≤ k → k < n → dist.getD m 0 ≤ dist.getD k 0) ∧
      ∀ k, j ≤ k → k < m → dist.getD m 0 < dist.getD k 0 := by
  have hlen : n - j = (n - j - 1) + 1 := by omega
  rw [hlen, List.range'_succ]
  simp only [scan_min, true_or, if_true]
  obtain ⟨m, r, hm, hcase, hle, hall⟩ :=
    scan_min_range dist (n - j - 1) (j + 1) j (dist.getD j 0) (Nat.lt_succ_self j)
  rw [hm]
  refine ⟨m, rfl, ?_⟩
  rcases hcase with ⟨h1, h2⟩ | ⟨h1, h2, h3, h4, h5⟩
  · subst h1
    refine ⟨le_refl _, hj, ?_, ?_⟩
    · intro k hk1 hk2
      by_cases hka : k = m
      · subst hka; exact le_refl _
      · exact h2 ▸ hall k (by omega) (by omega)
    · intro k hk1 hk2; omega
  · refine ⟨by omega, by omega, ?_, ?_⟩
    · intro k hk1 hk2
      by_cases hka : k = j
      · subst hka; exact h3 ▸ le_of_lt h4
      · exact h3 ▸ hall k (by omega) (by omega)
    · intro k hk1 hk2
      by_cases hka : k = j
      · subst hka; exact h3 ▸ h4
      · exact h3 ▸ h5 k (by omega) hk2

theorem rankInv_step {n : Nat} {d0 : List Int} {j m : Nat} {dist : List Int} {sort : List Nat}
    (h : RankInv n d0 j dist sort) (hjm : j ≤ m) (hm : m < n)
    (hmin : ∀ k, j ≤ k → k < n → dist.getD m 0 ≤ dist.getD k 0) :
    RankInv n d0 (j + 1) (swap dist j m) (swap sort j m) := by
  obtain ⟨hd, hs, hp, hrel, hsorted⟩ := h
  have hjd : j < dist.length := by omega
  have hmd : m < dist.length := by omega
  have hjs : j < sort.length := by omega
  have hms : m < sort.length := by omega
  refine ⟨by rw [swap_length]; exact hd, by rw [swap_length]; exact hs,
    (swap_perm sort hjs hms).trans hp, ?_, ?_⟩
  · intro k hk
    rw [swap_getD dist hjd hmd, swap_getD sort hjs hms]
    split
    · exact hrel j (by omega)
    · split
      · exact hrel m hm
      · exact hrel k hk
  · intro a b ha hab hb
    rw [swap_getD dist hjd hmd, swap_getD dist hjd hmd]
    by_cases haj : a = j
    · subst haj
      have e1 : (if a = m then dist.getD a 0 else if a = a then dist.getD m 0 else dist.getD a 0)
          = dist.getD m 0 := by
        by_cases h1 : a = m
        · simp [h1]
        · simp [h1]
      rw [e1]
      split
      · exact hmin a (le_refl _) (by omega)
      · split
        · exact le_refl _
        · exact hmin b hab hb
    · have halt : a < j := by omega
      have h1 : ¬ a = m := by omega
      rw [if_neg h1, if_neg haj]
      split
      · exact hsorted a j halt (by omega) (by omega)
      · split
        · exact hsorted a m halt (by omega) hm
        · exact hsorted a b halt hab hb

theorem rank_loop_spec (n : Nat) (d0 : List Int) : ∀ (len j : Nat) (dist : List Int)
    (sort : List Nat), j + len = n → RankInv n d0 j dist sort →
    ∃ dist' sort', rank_loop n (List.range' j len) (dist, sort) = .ret (dist', sort') ∧
      RankInv n d0 n dist' sort' := by
  intro len
  induction len with
  | zero =>
    intro j dist sort hj h
    have : j = n := by omega
    subst this
    exact ⟨dist, sort, by simp [rank_loop], h⟩
  | succ len ih =>
    intro j dist sort hj h
    rw [List.range'_succ]
    simp only [rank_loop]
    obtain ⟨m, hm, hjm, hmn, hmin, _⟩ := scan_min_first dist (show j < n by omega)
    rw [hm]
    have hne : ¬ ((m : Int) = -1) := by omega
    rw [if_neg hne, Int.toNat_ofNat]
    exact ih (j + 1) _ _ (by omega) (rankInv_step h hjm hmn hmin)

/-- Lines 122-143 for one city whose distances are `d0`: the ranking is produced, it is a
rearrangement of `0 .. n-1`, and the distances are non-decreasing along it. -/
theorem gen_sort_spec (n : Nat) (d0 : List Int) (hd : d0.length = n) :
    ∃ s, gen_sort n d0 = .ret s ∧ s.length = n ∧ s.Perm (List.range n) ∧
      ∀ a b, a ≤ b → b < n → d0.getD (s.getD a 0) 0 ≤ d0.getD (s.getD b 0) 0 := by
  have h0 : RankInv n d0 0 d0 (List.range n) := by
    refine ⟨hd, List.length_range n, List.Perm.refl _, ?_, ?_⟩
    · intro k hk
      rw [List.getD_eq_getElem (List.range n) 0 (by simpa using hk), List.getElem_range]
    · intro a b ha; omega
  obtain ⟨dist', sort', hrun, _, hs, hp, hrel, hsorted⟩ :=
    rank_loop_spec n d0 n 0 d0 (List.range n) (by omega) h0
  rw [← List.range_eq_range'] at hrun
  refine ⟨sort', ?_, hs, hp, ?_⟩
  · unfold gen_sort
    rw [hrun]
  · intro a b hab hb
    rw [← hrel a (by omega), ← hrel b hb]
    exact hsorted a b (by omega) hab hb

/-! ## The table built by `main` -/

theorem gen_cities_spec (xy : List (Int × Int)) : ∀ is : List Nat,
    ∃ cs, gen_cities xy is = .ret cs ∧ cs.length = is.length ∧
      ∀ k, k < is.length →
        (cs.getD k default).dist = (List.range xy.length).map (gen_dist xy (is.getD k 0)) ∧
        gen_sort xy.length ((List.range xy.length).map (gen_dist xy (is.getD k 0))) =
          .ret (cs.getD k default).sort := by
  intro is
  induction is with
  | nil => exact ⟨[], rfl, rfl, fun k hk => absurd hk (Nat.not_lt_zero k)⟩
  | cons i is ih =>
    obtain ⟨cs, hcs, hlen, hrows⟩ := ih
    obtain ⟨s, hs, _⟩ := gen_sort_spec xy.length ((List.range xy.length).map (gen_dist xy i))
      (by simp)
    refine ⟨⟨(xy.getD i (0, 0)).1, (xy.getD i (0, 0)).2,
      (List.range xy.length).map (gen_dist xy i), s⟩ :: cs,
      by simp only [gen_cities, hs, hcs], by simp [hlen], ?_⟩
    intro k hk
    cases k with
    | zero => exact ⟨rfl, hs⟩
    | succ k =>
      have := hrows k (by simpa using hk)
      simpa using this

theorem build_spec (xy : List (Int × Int)) : ∃ g, build xy = .ret g ∧ Built xy g := by
  obtain ⟨cs, hcs, hlen, hrows⟩ := gen_cities_spec xy (List.range xy.length)
  refine ⟨⟨xy.length, cs⟩, by simp only [build, hcs], rfl, by simpa using hlen, ?_⟩
  intro i hi
  have := hrows i (by simpa using hi)
  rw [List.getD_eq_getElem (List.range xy.length) 0 (by simpa using hi),
    List.getElem_range] at this
  exact this

theorem built_of_build {xy : List (Int × Int)} {g : Graph} (h : build xy = .ret g) :
    Built xy g := by
  obtain ⟨g', hg', hb⟩ := build_spec xy
  rw [h] at hg'
  cases hg'
  exact hb

theorem built_dist {xy : List (Int × Int)} {g : Graph} (h : Built xy g) {i j : Nat}
    (hi : i < xy.length) (hj : j < xy.length) : g.dist i j = gen_dist xy i j := by
  unfold Graph.dist
  rw [(h.2.2 i hi).1, List.getD_eq_getElem _ _ (by simpa using hj)]
  simp

theorem built_dist_bounds {xy : List (Int × Int)} {g : Graph} (h : Built xy g)
    (hv : ValidCoords xy) (i j : Nat) : 0 ≤ g.dist i j ∧ g.dist i j ≤ 2000000 := by
  by_cases hi : i < xy.length
  · by_cases hj : j < xy.length
    · rw [built_dist h hi hj]
      exact ⟨gen_dist_nonneg xy i j, gen_dist_le hv i j⟩
    · unfold Graph.dist
      rw [(h.2.2 i hi).1, List.getD_eq_default _ _ (by simpa using hj)]
      omega
  · unfold Graph.dist
    rw [List.getD_eq_default g.city _ (by rw [h.2.1]; omega)]
    simp [default]

/-- Row `i` of the ranking of a built table: a rearrangement of `0 .. n-1` along which the
distances from `i` do not decrease. -/
theorem built_sort {xy : List (Int × Int)} {g : Graph} (h : Built xy g) {i : Nat}
    (hi : i < xy.length) :
    (g.city.getD i default).sort.length = xy.length ∧
      (g.city.getD i default).sort.Perm (List.range xy.length) ∧
      ∀ a b, a ≤ b → b < xy.length → g.dist i (g.sort i a) ≤ g.dist i (g.sort i b) := by
  obtain ⟨s, hs, hlen, hp, hsorted⟩ :=
    gen_sort_spec xy.length ((List.range xy.length).map (gen_dist xy i)) (by simp)
  have hrow := (h.2.2 i hi).2
  rw [hs] at hrow
  cases hrow
  refine ⟨hlen, hp, ?_⟩
  intro a b hab hb
  unfold Graph.dist Graph.sort
  rw [(h.2.2 i hi).1]
  exact hsorted a b hab hb

theorem built_sort_lt {xy : List (Int × Int)} {g : Graph} (h : Built xy g) {i k : Nat}
    (hi : i < xy.length) (hk : k < xy.length) : g.sort i k < xy.length := by
  obtain ⟨hlen, hp, _⟩ := built_sort h hi
  unfold Graph.sort
  rw [List.getD_eq_getElem _ _ (by rw [hlen]; exact hk)]
  have hm : (g.city.getD i default).sort[k] ∈ (g.city.getD i default).sort :=
    List.getElem_mem _
  exact List.mem_range.1 (hp.subset hm)

theorem built_sort_surj {xy : List (Int × Int)} {g : Graph} (h : Built xy g) {i c : Nat}
    (hi : i < xy.length) (hc : c < xy.length) : ∃ k, k < xy.length ∧ g.sort i k = c := by
  obtain ⟨hlen, hp, _⟩ := built_sort h hi
  have hm : c ∈ (g.city.getD i default).sort := hp.symm.subset (List.mem_range.2 hc)
  obtain ⟨k, hk, hkc⟩ := List.mem_iff_getElem.1 hm
  refine ⟨k, by rw [← hlen]; exact hk, ?_⟩
  unfold Graph.sort
  rw [List.getD_eq_getElem _ _ hk]
  exact hkc

theorem built_good {xy : List (Int × Int)} {g : Graph} (h : Built xy g)
    (hv : ValidCoords xy) : GoodGraph g := by
  refine ⟨by rw [h.1]; exact hv.2.1, built_dist_bounds h hv, ?_⟩
  intro i hi
  rw [h.1] at hi ⊢
  exact ⟨fun k hk => built_sort_lt h hi hk, fun c hc => built_sort_surj h hi hc⟩

/-! ## Path lengths -/

theorem wrap32_eq {z : Int} (h1 : -2147483648 ≤ z) (h2 : z < 2147483648) : wrap32 z = z := by
  unfold wrap32
  omega

theorem int_add_eq {a b : Int} (h1 : 0 ≤ a + b) (h2 : a + b < 2147483648) :
    int_add a b = a + b :=
  wrap32_eq (by omega) h2

theorem path_len_bounds {g : Graph} (hg : GoodGraph g) : ∀ (p : List Nat) (s : Nat),
    0 ≤ path_len g s p ∧ path_len g s p ≤ 2000000 * (p.length : Int) := by
  intro p
  induction p with
  | nil => intro s; simp [path_len]
  | cons c p ih =>
    intro s
    have h1 := hg.2.1 s c
    have h2 := ih c
    simp only [path_len, List.length_cons]
    push_cast
    omega

theorem isShortest_unique {g : Graph} {s : Nat} {cs : List Nat} {m m' : Int}
    (h : IsShortest g s cs m) (h' : IsShortest g s cs m') : m = m' := by
  obtain ⟨⟨p, hp, hpm⟩, hmin⟩ := h
  obtain ⟨⟨p', hp', hpm'⟩, hmin'⟩ := h'
  have h1 := hmin p' hp'
  have h2 := hmin' p hp
  omega

theorem isShortest_bounds {g : Graph} (hg : GoodGraph g) {s : Nat} {cs : List Nat} {m : Int}
    (h : IsShortest g s cs m) : 0 ≤ m ∧ m ≤ 2000000 * (cs.length : Int) := by
  obtain ⟨⟨p, hp, hpm⟩, _⟩ := h
  have := path_len_bounds hg p s
  rw [hp.length_eq] at this
  omega

theorem isShortest_nil (g : Graph) (s : Nat) : IsShortest g s [] 0 := by
  refine ⟨⟨[], List.Perm.refl _, rfl⟩, ?_⟩
  intro p hp
  rw [List.perm_nil.1 hp]
  exact le_refl _

/-- The recurrence of line 273 at the level of path lengths: the least candidate
`dist s c + (least length from c through the rest)` is the least length from `s`. -/
theorem isShortest_step {g : Graph} {s : Nat} {cs : List Nat} {m : Int}
    (hex : ∃ c, c ∈ cs ∧ ∃ d, IsShortest g c (cs.erase c) d ∧ m = g.dist s c + d)
    (hall : ∀ c, c ∈ cs → ∃ d, IsShortest g c (cs.erase c) d ∧ m ≤ g.dist s c + d) :
    IsShortest g s cs m := by
  constructor
  · obtain ⟨c, hc, d, ⟨⟨p, hp, hpd⟩, _⟩, hm⟩ := hex
    refine ⟨c :: p, ?_, ?_⟩
    · exact (List.Perm.cons c hp).trans (List.perm_cons_erase hc).symm
    · simp only [path_len]; omega
  · intro p hp
    cases p with
    | nil =>
      obtain ⟨c, hc, _⟩ := hex
      rw [List.nil_perm.1 hp] at hc
      exact absurd hc (List.not_mem_nil c)
    | cons c p =>
      have hc : c ∈ cs := hp.subset (List.mem_cons_self c p)
      obtain ⟨d, ⟨_, hmin⟩, hm⟩ := hall c hc
      have hp' : p.Perm (cs.erase c) := by
        have := hp.erase c
        rwa [List.erase_cons_head] at this
      have := hmin p hp'
      simp only [path_len]
      omega

theorem length_members_le (n v : Nat) : (members n v).length ≤ n := by
  unfold members
  exact le_trans (List.length_filter_le _ _) (by simp)

/-! ## The exact solvers -/

/-- The loop of lines 266-280 when every recursive call it makes returns a value related to
its city by `R` and keeps the table property `P`: the loop returns, keeps `P`, and its
result is the least of the starting value and the candidates. -/
theorem tsp1_scan_spec (g : Graph) (call : Memo → Nat → Nat → Outcome (Int × Memo))
    (s v : Nat) (P : Memo → Prop) (R : Nat → Int → Prop) :
    ∀ cs : List Nat,
    (∀ mem c, c ∈ cs → has_bit v c = true → P mem →
      ∃ d mem', call mem c (clear_bit v c) = .ret (d, mem') ∧ R c d ∧ P mem') →
    ∀ (m0 : Int) (mem : Memo), P mem →
    ∃ m mem', tsp1_scan g call s v cs m0 mem = .ret (m, mem') ∧ P mem' ∧
      (m = m0 ∨ ∃ c, c ∈ cs ∧ has_bit v c = true ∧ ∃ d, R c d ∧ m = int_add (g.dist s c) d) ∧
      m ≤ m0 ∧
      ∀ c, c ∈ cs → has_bit v c = true → ∃ d, R c d ∧ m ≤ int_add (g.dist s c) d := by
  intro cs
  induction cs with
  | nil =>
    intro _ m0 mem hP
    exact ⟨m0, mem, rfl, hP, Or.inl rfl, le_refl _, fun c hc => absurd hc (List.not_mem_nil c)⟩
  | cons c cs ih =>
    intro hcall m0 mem hP
    have hcall' : ∀ mem c, c ∈ cs → has_bit v c = true → P mem →
        ∃ d mem', call mem c (clear_bit v c) = .ret (d, mem') ∧ R c d ∧ P mem' :=
      fun mem c' hc' => hcall mem c' (List.mem_cons_of_mem c hc')
    simp only [tsp1_scan]
    by_cases hb : has_bit v c = false
    · rw [if_pos hb]
      obtain ⟨m, mem', hrun, hP', hcase, hle, hall⟩ := ih hcall' m0 mem hP
      refine ⟨m, mem', hrun, hP', ?_, hle, ?_⟩
      · rcases hcase with h | ⟨c', hc', hb', d, hd, hm⟩
        · exact Or.inl h
        · exact Or.inr ⟨c', List.mem_cons_of_mem c hc', hb', d, hd, hm⟩
      · intro c' hc' hb'
        rcases List.mem_cons.1 hc' with h | h
        · subst h; rw [hb] at hb'; exact Bool.noConfusion hb'
        · exact hall c' h hb'
    · rw [if_neg hb]
      have hb1 : has_bit v c = true := by simpa using hb
      obtain ⟨d, mem1, hc1, hR, hP1⟩ := hcall mem c (List.mem_cons_self c cs) hb1 hP
      rw [hc1]
      simp only
      obtain ⟨m, mem', hrun, hP', hcase, hle, hall⟩ :=
        ih hcall' (if int_add (g.dist s c) d < m0 then int_add (g.dist s c) d else m0) mem1 hP1
      refine ⟨m, mem', hrun, hP', ?_, ?_, ?_⟩
      · rcases hcase with h | ⟨c', hc', hb', d', hd', hm⟩
        · by_cases hlt : int_add (g.dist s c) d < m0
          · rw [if_pos hlt] at h
            exact Or.inr ⟨c, List.mem_cons_self c cs, hb1, d, hR, h⟩
          · rw [if_neg hlt] at h
            exact Or.inl h
        · exact Or.inr ⟨c', List.mem_cons_of_mem c hc', hb', d', hd', hm⟩
      · refine le_trans hle ?_
        split
        · rename_i h; exact le_of_lt h
        · exact le_refl _
      · intro c' hc' hb'
        rcases List.mem_cons.1 hc' with h | h
        · subst h
          refine ⟨d, hR, le_trans hle ?_⟩
          split
          · exact le_refl _
          · rename_i h; exact not_lt.mp h
        · exact hall c' h hb'

theorem memoInv_zero_saved (g : Graph) (saved : Memo) :
    MemoInv g (zero_saved g.max_city saved) := by
  intro c v hc hv hne
  exfalso
  apply hne
  simp [zero_saved, hc, hv]

theorem memoInv_store {g : Graph} {saved : Memo} (h : MemoInv g saved) {s v : Nat} {m : Int}
    (hm : IsShortest g s (members g.max_city v) m) : MemoInv g (store saved s v m) := by
  intro c w hc hw hne
  unfold store at hne ⊢
  by_cases hk : c = s ∧ w = v
  · rw [if_pos hk]
    rw [hk.1, hk.2]
    exact hm
  · rw [if_neg hk] at hne ⊢
    exact h c w hc hw hne

theorem lt_two_pow_64 {n v : Nat} (hn : n ≤ 64) (hv : v < 2 ^ n) : v < 2 ^ 64 :=
  lt_of_lt_of_le hv (Nat.pow_le_pow_right (by decide) hn)

theorem has_bit_clear_bit_self {c v : Nat} (hc : c < 64) (hv : v < 2 ^ 64) :
    has_bit (clear_bit v c) c = false := by
  rw [has_bit_clear_bit hc hc hv]
  simp

/-- Both variants of `tsp1` on a good table, for a start city outside the visit set and a
visit set within the cities: the call returns the least open-path length; with
`dyn_prog` the memo table keeps holding only least lengths, without it the table is left
as it was.  A run with `dyn_prog` from a city other than 0 needs the table to hold only
least lengths on entry; from city 0 the table is cleared first. -/
theorem tsp1_spec {g : Graph} (hg : GoodGraph g) (dp : Bool) :
    ∀ (fuel : Nat) (mem : Memo) (s v : Nat), s < g.max_city → v < 2 ^ g.max_city →
    has_bit v s = false → (members g.max_city v).length ≤ fuel →
    (dp = true → s ≠ 0 → MemoInv g mem) →
    ∃ m mem', tsp1 g fuel mem s v dp = .ret (m, mem') ∧
      IsShortest g s (members g.max_city v) m ∧
      (dp = true → MemoInv g mem') ∧ (dp = false → mem' = mem) := by
  intro fuel
  induction fuel with
  | zero =>
    intro mem s v hs hv hb hlen hinv
    have hv0 : v = 0 := by
      by_contra h0
      have := members_ne_nil hg.1 hv h0
      exact this (List.length_eq_zero.1 (Nat.le_zero.1 hlen))
    subst hv0
    unfold tsp1
    simp only [hb, Bool.false_eq_true, if_false, if_true]
    refine ⟨0, _, rfl, by rw [members_zero]; exact isShortest_nil g s, ?_, ?_⟩
    · intro hdp
      by_cases h0 : s = 0
      · simp only [hdp, h0, beq_self_eq_true, Bool.and_self, if_true]
        exact memoInv_zero_saved g mem
      · have : (s == 0) = false := by simpa using h0
        simp only [hdp, this, Bool.and_false, Bool.false_eq_true, if_false]
        exact hinv hdp h0
    · intro hdp
      simp [hdp]
  | succ fuel ih =>
    intro mem s v hs hv hb hlen hinv
    have hn := hg.1
    have hv64 := lt_two_pow_64 hn hv
    unfold tsp1
    simp only [hb, Bool.false_eq_true, if_false]
    generalize hsaved1 : (if (dp && s == 0) = true then zero_saved g.max_city mem else mem)
      = saved1
    have hinv1 : dp = true → MemoInv g saved1 := by
      intro hdp
      rw [← hsaved1]
      by_cases h0 : s = 0
      · simp only [hdp, h0, beq_self_eq_true, Bool.and_self, if_true]
        exact memoInv_zero_saved g mem
      · have : (s == 0) = false := by simpa using h0
        simp only [hdp, this, Bool.and_false, Bool.false_eq_true, if_false]
        exact hinv hdp h0
    have hsame : dp = false → saved1 = mem := by
      intro hdp
      rw [← hsaved1]
      simp [hdp]
    by_cases hv0 : v = 0
    · rw [if_pos hv0]
      subst hv0
      exact ⟨0, saved1, rfl, by rw [members_zero]; exact isShortest_nil g s, hinv1, hsame⟩
    · rw [if_neg hv0]
      by_cases hhit : (dp && saved1 s v != 0) = true
      · rw [if_pos hhit]
        have hdp : dp = true := by
          cases dp
          · simp at hhit
          · rfl
        have hne : saved1 s v ≠ 0 := by
          rw [hdp] at hhit
          simpa using hhit
        exact ⟨saved1 s v, saved1, rfl, hinv1 hdp s v hs hv hne, hinv1,
          fun h => absurd hdp (by rw [h]; exact Bool.false_ne_true)⟩
      · rw [if_neg hhit]
        obtain ⟨m, mem2, hrun, ⟨hP1, hP2⟩, hcase, hle, hall⟩ :=
          tsp1_scan_spec g (fun m c w => tsp1 g fuel m c w dp) s v
            (fun m => (dp = true → MemoInv g m) ∧ (dp = false → m = saved1))
            (fun c d => IsShortest g c ((members g.max_city v).erase c) d)
            (List.range g.max_city)
            (by
              intro mem0 c hc hbc ⟨hQ1, hQ2⟩
              have hc' : c < g.max_city := List.mem_range.1 hc
              obtain ⟨d, mem', hcall, hsh, hI, hS⟩ := ih mem0 c (clear_bit v c) hc'
                (lt_of_le_of_lt (clear_bit_le v c) hv)
                (has_bit_clear_bit_self (by omega) hv64)
                (by
                  have := length_members_clear_bit hn hv64 hc' hbc
                  omega)
                (fun hdp _ => hQ1 hdp)
              refine ⟨d, mem', hcall, ?_, hI, ?_⟩
              · show IsShortest g c ((members g.max_city v).erase c) d
                rw [← members_clear_bit hn hv64 hc']; exact hsh
              · intro hdp; rw [hS hdp]; exact hQ2 hdp)
            INT32_MAX saved1 ⟨hinv1, fun _ => rfl⟩
        rw [hrun]
        simp only
        have hadd : ∀ c d, IsShortest g c ((members g.max_city v).erase c) d →
            int_add (g.dist s c) d = g.dist s c + d ∧ g.dist s c + d < INT32_MAX := by
          intro c d hd
          have h1 := hg.2.1 s c
          have h2 := isShortest_bounds hg hd
          have h3 : ((members g.max_city v).erase c).length ≤ 64 :=
            le_trans (List.length_erase_le c _) (le_trans (length_members_le _ _) hn)
          have h4 : (((members g.max_city v).erase c).length : Int) ≤ 64 := by exact_mod_cast h3
          have h5 : g.dist s c + d < 2147483648 := by omega
          exact ⟨int_add_eq (by omega) h5, by unfold INT32_MAX; omega⟩
        have hsh : IsShortest g s (members g.max_city v) m := by
          obtain ⟨c0, hc0, hb0⟩ := exists_has_bit hn hv hv0
          apply isShortest_step
          · rcases hcase with h | ⟨c, hc, hbc, d, hd, hm⟩
            · exfalso
              obtain ⟨d, hd, hmd⟩ := hall c0 (List.mem_range.2 hc0) hb0
              have := hadd c0 d hd
              omega
            · exact ⟨c, mem_members.2 ⟨List.mem_range.1 hc, hbc⟩, d, hd,
                by rw [hm]; exact (hadd c d hd).1⟩
          · intro c hc
            obtain ⟨hcn, hbc⟩ := mem_members.1 hc
            obtain ⟨d, hd, hmd⟩ := hall c (List.mem_range.2 hcn) hbc
            exact ⟨d, hd, by rw [← (hadd c d hd).1]; exact hmd⟩
        refine ⟨m, _, rfl, hsh, ?_, ?_⟩
        · intro hdp
          simp only [hdp, if_true]
          exact memoInv_store (hP1 hdp) hsh
        · intro hdp
          simp only [hdp, Bool.false_eq_true, if_false]
          rw [hP2 hdp]
          exact hsame hdp

/-! ## The heuristic solvers -/

/-- The loop of lines 382-408 when every recursive call it makes returns a value related to
its city by `R`: the loop returns; either nothing was recorded, or the recorded city is in
the visit set and the recorded distance is its candidate, below the starting value; and
if some remaining position holds a city of the visit set, the result is at most the
candidate of one such city. -/
theorem tsp2_scan_spec (g : Graph) (call : Nat → Nat → Int → Outcome (Int × Int))
    (s v : Nat) (K : Int) (R : Nat → Int → Prop) :
    ∀ ps : List Nat,
    (∀ i, i ∈ ps → has_bit v (g.sort s i) = true →
      ∃ d b, call (g.sort s i) (clear_bit v (g.sort s i)) (if K > 1 then K - 1 else 1) =
        .ret (d, b) ∧ R (g.sort s i) d) →
    ∀ (m0 b0 n0 : Int),
    ∃ m b, tsp2_scan g call s v K ps m0 b0 n0 = .ret (m, b) ∧
      ((m = m0 ∧ b = b0) ∨
        ∃ i, i ∈ ps ∧ has_bit v (g.sort s i) = true ∧ b = ((g.sort s i : Nat) : Int) ∧
          ∃ d, R (g.sort s i) d ∧ m = int_add (g.dist s (g.sort s i)) d ∧ m < m0) ∧
      m ≤ m0 ∧
      ((∃ i, i ∈ ps ∧ has_bit v (g.sort s i) = true) →
        ∃ i, i ∈ ps ∧ has_bit v (g.sort s i) = true ∧
          ∃ d, R (g.sort s i) d ∧ m ≤ int_add (g.dist s (g.sort s i)) d) := by
  intro ps
  induction ps with
  | nil =>
    intro _ m0 b0 n0
    refine ⟨m0, b0, rfl, Or.inl ⟨rfl, rfl⟩, le_refl _, ?_⟩
    rintro ⟨i, hi, _⟩
    exact absurd hi (List.not_mem_nil i)
  | cons i ps ih =>
    intro hcall m0 b0 n0
    have hcall' : ∀ j, j ∈ ps → has_bit v (g.sort s j) = true →
        ∃ d b, call (g.sort s j) (clear_bit v (g.sort s j)) (if K > 1 then K - 1 else 1) =
          .ret (d, b) ∧ R (g.sort s j) d :=
      fun j hj => hcall j (List.mem_cons_of_mem i hj)
    simp only [tsp2_scan]
    by_cases hb : has_bit v (g.sort s i) = false
    · rw [if_pos hb]
      obtain ⟨m, b, hrun, hcase, hle, hex⟩ := ih hcall' m0 b0 n0
      refine ⟨m, b, hrun, ?_, hle, ?_⟩
      · rcases hcase with h | ⟨j, hj, hbj, hbest, d, hd, hm, hlt⟩
        · exact Or.inl h
        · exact Or.inr ⟨j, List.mem_cons_of_mem i hj, hbj, hbest, d, hd, hm, hlt⟩
      · rintro ⟨j, hj, hbj⟩
        rcases List.mem_cons.1 hj with h | h
        · subst h; rw [hb] at hbj; exact Bool.noConfusion hbj
        · obtain ⟨j', hj', hbj', d, hd, hm⟩ := hex ⟨j, h, hbj⟩
          exact ⟨j', List.mem_cons_of_mem i hj', hbj', d, hd, hm⟩
    · rw [if_neg hb]
      have hb1 : has_bit v (g.sort s i) = true := by simpa using hb
      obtain ⟨d, b1, hc1, hR⟩ := hcall i (List.mem_cons_self i ps) hb1
      rw [hc1]
      simp only
      have hmin_le : (if int_add (g.dist s (g.sort s i)) d < m0
          then int_add (g.dist s (g.sort s i)) d else m0) ≤ m0 := by
        split
        · rename_i h; exact le_of_lt h
        · exact le_refl _
      have hmin_le' : (if int_add (g.dist s (g.sort s i)) d < m0
          then int_add (g.dist s (g.sort s i)) d else m0) ≤
            int_add (g.dist s (g.sort s i)) d := by
        split
        · exact le_refl _
        · rename_i h; exact not_lt.mp h
      have hhere : ((if int_add (g.dist s (g.sort s i)) d < m0
            then int_add (g.dist s (g.sort s i)) d else m0) = m0 ∧
          (if int_add (g.dist s (g.sort s i)) d < m0
            then ((g.sort s i : Nat) : Int) else b0) = b0) ∨
          ((if int_add (g.dist s (g.sort s i)) d < m0
            then ((g.sort s i : Nat) : Int) else b0) = ((g.sort s i : Nat) : Int) ∧
          (if int_add (g.dist s (g.sort s i)) d < m0
            then int_add (g.dist s (g.sort s i)) d else m0) =
              int_add (g.dist s (g.sort s i)) d ∧
          int_add (g.dist s (g.sort s i)) d < m0) := by
        by_cases hlt : int_add (g.dist s (g.sort s i)) d < m0
        · right; simp [hlt]
        · left; simp [hlt]
      generalize (if int_add (g.dist s (g.sort s i)) d < m0
          then int_add (g.dist s (g.sort s i)) d else m0) = m1 at *
      generalize (if int_add (g.dist s (g.sort s i)) d < m0
          then ((g.sort s i : Nat) : Int) else b0) = b1' at *
      by_cases hbrk : n0 + 1 = K
      · rw [if_pos hbrk]
        refine ⟨m1, b1', rfl, ?_, hmin_le, ?_⟩
        · rcases hhere with ⟨h1, h2⟩ | ⟨h1, h2, h3⟩
          · exact Or.inl ⟨h1, h2⟩
          · exact Or.inr ⟨i, List.mem_cons_self i ps, hb1, h1, d, hR, h2, h2 ▸ h3⟩
        · intro _
          exact ⟨i, List.mem_cons_self i ps, hb1, d, hR, hmin_le'⟩
      · rw [if_neg hbrk]
        obtain ⟨m, b, hrun, hcase, hle, _⟩ := ih hcall' m1 b1' (n0 + 1)
        refine ⟨m, b, hrun, ?_, le_trans hle hmin_le, ?_⟩
        · rcases hcase with ⟨h1, h2⟩ | ⟨j, hj, hbj, hbest, d', hd', hm, hlt⟩
          · rcases hhere with ⟨h3, h4⟩ | ⟨h3, h4, h5⟩
            · exact Or.inl ⟨h1.trans h3, h2.trans h4⟩
            · exact Or.inr ⟨i, List.mem_cons_self i ps, hb1, h2.trans h3, d, hR,
                h1.trans h4, by rw [h1, h4]; exact h5⟩
          · exact Or.inr ⟨j, List.mem_cons_of_mem i hj, hbj, hbest, d', hd', hm,
              lt_of_lt_of_le hlt hmin_le⟩
        · intro _
          exact ⟨i, List.mem_cons_self i ps, hb1, d, hR, le_trans hle hmin_le'⟩

theorem isPathLen_bounds {g : Graph} (hg : GoodGraph g) {s : Nat} {cs : List Nat} {d : Int}
    (h : IsPathLen g s cs d) : 0 ≤ d ∧ d ≤ 2000000 * (cs.length : Int) := by
  obtain ⟨p, hp, hpd⟩ := h
  have := path_len_bounds hg p s
  rw [hp.length_eq] at this
  omega

theorem isShortest_le_of_isPathLen {g : Graph} {s : Nat} {cs : List Nat} {m d : Int}
    (hm : IsShortest g s cs m) (hd : IsPathLen g s cs d) : m ≤ d := by
  obtain ⟨p, hp, hpd⟩ := hd
  rw [← hpd]
  exact hm.2 p hp

/-- The call `tsp2(s, v, K, &city_chosen)` on a good table, for `s` outside the visit set, a
visit set within the cities and `K ≥ 1`: it returns; for an empty set the result is
`(0, -1)`; otherwise the chosen city `c` is in the visit set and the distance is
`dist s c` plus the length of a path from `c` through all the other cities of the set. -/
theorem tsp2_spec {g : Graph} (hg : GoodGraph g) :
    ∀ (fuel s v : Nat) (K : Int), s < g.max_city → v < 2 ^ g.max_city →
    has_bit v s = false → 1 ≤ K → (members g.max_city v).length ≤ fuel →
    ∃ d b, tsp2 g fuel s v K = .ret (d, b) ∧
      (v = 0 → d = 0 ∧ b = -1) ∧
      (v ≠ 0 → ∃ c : Nat, b = (c : Int) ∧ c < g.max_city ∧ has_bit v c = true ∧
        ∃ d', IsPathLen g c ((members g.max_city v).erase c) d' ∧ d = g.dist s c + d') := by
  intro fuel
  induction fuel with
  | zero =>
    intro s v K hs hv hb hK hlen
    have hv0 : v = 0 := by
      by_contra h0
      have := members_ne_nil hg.1 hv h0
      exact this (List.length_eq_zero.1 (Nat.le_zero.1 hlen))
    subst hv0
    unfold tsp2
    have hK' : ¬ K < 1 := by omega
    simp only [hb, Bool.false_eq_true, if_false, hK', if_true]
    exact ⟨0, -1, rfl, fun _ => ⟨rfl, rfl⟩, fun h => absurd rfl h⟩
  | succ fuel ih =>
    intro s v K hs hv hb hK hlen
    have hn := hg.1
    have hv64 := lt_two_pow_64 hn hv
    unfold tsp2
    have hK' : ¬ K < 1 := by omega
    simp only [hb, Bool.false_eq_true, if_false, hK']
    by_cases hv0 : v = 0
    · rw [if_pos hv0]
      exact ⟨0, -1, rfl, fun _ => ⟨rfl, rfl⟩, fun h => absurd hv0 h⟩
    · rw [if_neg hv0]
      obtain ⟨m, b, hrun, hcase, hle, hex⟩ :=
        tsp2_scan_spec g (fun c w k => tsp2 g fuel c w k) s v K
          (fun c d => c < g.max_city ∧ IsPathLen g c ((members g.max_city v).erase c) d)
          (List.range g.max_city)
          (by
            intro i hi hbi
            have hi' : i < g.max_city := List.mem_range.1 hi
            have hc : g.sort s i < g.max_city := (hg.2.2 s hs).1 i hi'
            have hk' : (1 : Int) ≤ (if K > 1 then K - 1 else 1) := by
              split
              · omega
              · exact le_refl _
            obtain ⟨d, b, hcall, h0, h1⟩ := ih (g.sort s i) (clear_bit v (g.sort s i))
              (if K > 1 then K - 1 else 1) hc
              (lt_of_le_of_lt (clear_bit_le v _) hv)
              (has_bit_clear_bit_self (by omega) hv64) hk'
              (by
                have := length_members_clear_bit hn hv64 hc hbi
                omega)
            refine ⟨d, b, hcall, hc, ?_⟩
            rw [← members_clear_bit hn hv64 hc]
            by_cases hz : clear_bit v (g.sort s i) = 0
            · rw [hz, members_zero]
              exact ⟨[], List.Perm.refl _, by rw [(h0 hz).1]; rfl⟩
            · obtain ⟨c, _, hcn, hbc, d', ⟨p, hp, hpd⟩, hd⟩ := h1 hz
              have hmem : c ∈ members g.max_city (clear_bit v (g.sort s i)) :=
                mem_members.2 ⟨hcn, hbc⟩
              exact ⟨c :: p, (List.Perm.cons c hp).trans (List.perm_cons_erase hmem).symm,
                by simp only [path_len]; omega⟩)
          INT32_MAX (-1) 0
      rw [hrun]
      simp only
      obtain ⟨c0, hc0, hb0⟩ := exists_has_bit hn hv hv0
      obtain ⟨k0, hk0, hsk0⟩ := (hg.2.2 s hs).2 c0 hc0
      have hadd : ∀ c d, IsPathLen g c ((members g.max_city v).erase c) d →
          int_add (g.dist s c) d = g.dist s c + d ∧ g.dist s c + d < INT32_MAX := by
        intro c d hd
        have h1 := hg.2.1 s c
        have h2 := isPathLen_bounds hg hd
        have h3 : ((members g.max_city v).erase c).length ≤ 64 :=
          le_trans (List.length_erase_le c _) (le_trans (length_members_le _ _) hn)
        have h4 : (((members g.max_city v).erase c).length : Int) ≤ 64 := by exact_mod_cast h3
        have h5 : g.dist s c + d < 2147483648 := by omega
        exact ⟨int_add_eq (by omega) h5, by unfold INT32_MAX; omega⟩
      obtain ⟨i1, _, _, d1, ⟨_, hd1⟩, hm1⟩ :=
        hex ⟨k0, List.mem_range.2 hk0, by rw [hsk0]; exact hb0⟩
      have hmlt : m < INT32_MAX := lt_of_le_of_lt (by rw [← (hadd _ d1 hd1).1]; exact hm1)
        (hadd _ d1 hd1).2
      rcases hcase with ⟨h1, _⟩ | ⟨i, hi, hbi, hbest, d, ⟨hcn, hd⟩, hm, _⟩
      · omega
      · have hne : ¬ (b = -1) := by rw [hbest]; omega
        rw [if_neg hne]
        refine ⟨m, b, rfl, fun h => absurd h hv0, fun _ => ?_⟩
        exact ⟨g.sort s i, hbest, hcn, hbi, d, hd, by rw [hm]; exact (hadd _ d hd).1⟩

/-- The distance returned by `tsp2` is the length of an open path from `s` through every
city of the visit set. -/
theorem tsp2_isPathLen {g : Graph} (hg : GoodGraph g) {fuel s v : Nat} {K : Int}
    (hs : s < g.max_city) (hv : v < 2 ^ g.max_city) (hb : has_bit v s = false) (hK : 1 ≤ K)
    (hlen : (members g.max_city v).length ≤ fuel) :
    ∃ d b, tsp2 g fuel s v K = .ret (d, b) ∧ IsPathLen g s (members g.max_city v) d := by
  obtain ⟨d, b, hrun, h0, h1⟩ := tsp2_spec hg fuel s v K hs hv hb hK hlen
  refine ⟨d, b, hrun, ?_⟩
  by_cases hz : v = 0
  · rw [hz, members_zero]
    exact ⟨[], List.Perm.refl _, by rw [(h0 hz).1]; rfl⟩
  · obtain ⟨c, _, hcn, hbc, d', ⟨p, hp, hpd⟩, hd⟩ := h1 hz
    have hmem : c ∈ members g.max_city v := mem_members.2 ⟨hcn, hbc⟩
    exact ⟨c :: p, (List.Perm.cons c hp).trans (List.perm_cons_erase hmem).symm,
      by simp only [path_len]; omega⟩

/-! ## The visit set of the driver -/

theorem visit_all_eq {n s : Nat} (hn1 : 1 ≤ n) (hn : n ≤ 64) :
    visit_all n s = clear_bit (2 ^ n - 1) s := by
  unfold visit_all clear_bit
  rw [shl1_eq (show n - 1 < 64 by omega)]
  have h2 : 2 * 2 ^ (n - 1) = 2 ^ n := by
    rw [← Nat.pow_succ']
    congr 1
    omega
  rw [h2]
  have hle : 2 ^ n ≤ 2 ^ 64 := Nat.pow_le_pow_right (by decide) hn
  have hpos : 0 < 2 ^ n := Nat.two_pow_pos n
  have h3 : (2 ^ n + 2 ^ 64 - 1) % 2 ^ 64 = 2 ^ n - 1 := by
    have : 2 ^ n + 2 ^ 64 - 1 = (2 ^ n - 1) + 2 ^ 64 := by omega
    rw [this, Nat.add_mod_right]
    exact Nat.mod_eq_of_lt (by omega)
  rw [h3]

theorem visit_all_lt {n s : Nat} (hn1 : 1 ≤ n) (hn : n ≤ 64) : visit_all n s < 2 ^ n := by
  rw [visit_all_eq hn1 hn]
  have hpos : 0 < 2 ^ n := Nat.two_pow_pos n
  exact lt_of_le_of_lt (clear_bit_le _ _) (by omega)

theorem has_bit_visit_all {n s i : Nat} (hn1 : 1 ≤ n) (hn : n ≤ 64) (hs : s < n)
    (hi : i < 64) : has_bit (visit_all n s) i = decide (i < n ∧ i ≠ s) := by
  rw [visit_all_eq hn1 hn]
  have hpos : 0 < 2 ^ n := Nat.two_pow_pos n
  have hle : 2 ^ n ≤ 2 ^ 64 := Nat.pow_le_pow_right (by decide) hn
  rw [has_bit_clear_bit (by omega) hi (by omega), has_bit_eq hi, Nat.testBit_two_pow_sub_one]
  by_cases h1 : i < n <;> by_cases h2 : i = s <;> simp [h1, h2]

theorem members_visit_all {n s : Nat} (hn1 : 1 ≤ n) (hn : n ≤ 64) (hs : s < n) :
    members n (visit_all n s) = (List.range n).erase s := by
  rw [(List.nodup_range n).erase_eq_filter]
  unfold members
  apply List.filter_congr
  intro i hi
  have hi' : i < n := List.mem_range.1 hi
  rw [has_bit_visit_all hn1 hn hs (by omega)]
  by_cases h2 : i = s <;> simp [hi', h2]

/-! ## The route assembler -/

/-- The loop of lines 323-347 when city 0 is not in the visit set: it returns, the hops are
taken from the visit set one after the other until it is empty, they are exactly the
cities of the set, and the total grows by the length of the path along them. -/
theorem tsp_bounded_loop_spec {g : Graph} (hg : GoodGraph g) :
    ∀ (fuel r : Nat) (t : Int) (v : Nat), r < g.max_city → v < 2 ^ g.max_city →
    has_bit v r = false → has_bit v 0 = false → (members g.max_city v).length ≤ fuel →
    0 ≤ t → t + 2000000 * ((members g.max_city v).length : Int) < 2147483648 →
    ∃ hops, tsp_bounded_loop g fuel r t v = .ret (t + path_len g r hops, hops) ∧
      hops.Perm (members g.max_city v) ∧ StepsWithin v hops := by
  intro fuel
  induction fuel with
  | zero =>
    intro r t v hr hv hb h0 hlen ht hbound
    have hv0 : v = 0 := by
      by_contra hne
      have := members_ne_nil hg.1 hv hne
      exact this (List.length_eq_zero.1 (Nat.le_zero.1 hlen))
    subst hv0
    refine ⟨[], ?_, by rw [members_zero], rfl⟩
    unfold tsp_bounded_loop
    simp [path_len]
  | succ fuel ih =>
    intro r t v hr hv hb h0 hlen ht hbound
    have hn := hg.1
    have hv64 := lt_two_pow_64 hn hv
    unfold tsp_bounded_loop
    by_cases hv0 : v = 0
    · subst hv0
      refine ⟨[], ?_, by rw [members_zero], rfl⟩
      simp [path_len]
    · rw [if_neg hv0]
      obtain ⟨d, b, hrun, _, h1⟩ := tsp2_spec hg MAX_CITY r v 10 hr hv hb (by decide)
        (le_trans (length_members_le _ _) hn)
      obtain ⟨c, hbc, hcn, hbit, _⟩ := h1 hv0
      have hc0 : c ≠ 0 := by
        intro h; rw [h, h0] at hbit; exact Bool.noConfusion hbit
      simp only [hrun]
      have hchk : ¬ (b < 1 ∨ b ≥ (g.max_city : Int)) := by rw [hbc]; omega
      rw [if_neg hchk, hbc, Int.toNat_ofNat]
      have hlen' := length_members_clear_bit hn hv64 hcn hbit
      have hd := hg.2.1 r c
      have hcast : ((members g.max_city v).length : Int) =
          ((members g.max_city (clear_bit v c)).length : Int) + 1 := by
        rw [← hlen']; push_cast; rfl
      have hadd : int_add t (g.dist r c) = t + g.dist r c :=
        int_add_eq (by omega) (by omega)
      rw [hadd]
      obtain ⟨hops, hloop, hperm, hsteps⟩ := ih c (t + g.dist r c) (clear_bit v c) hcn
        (lt_of_le_of_lt (clear_bit_le v c) hv)
        (has_bit_clear_bit_self (by omega) hv64)
        (by rw [has_bit_clear_bit (by omega) (by omega) hv64, h0]; rfl)
        (by omega) (by omega) (by omega)
      rw [hloop]
      refine ⟨c :: hops, ?_, ?_, hbit, hsteps⟩
      · simp only [path_len]
        congr 2
        omega
      · rw [members_clear_bit hn hv64 hcn] at hperm
        exact (List.Perm.cons c hperm).trans
          (List.perm_cons_erase (mem_members.2 ⟨hcn, hbit⟩)).symm

/-- The loop of lines 323-347 when city 0 is in the visit set: the pass that chooses city 0
fails the check of line 329, so the loop ends in `exit(1)`. -/
theorem tsp_bounded_loop_fatal {g : Graph} (hg : GoodGraph g) :
    ∀ (fuel r : Nat) (t : Int) (v : Nat), r < g.max_city → v < 2 ^ g.max_city →
    has_bit v r = false → has_bit v 0 = true → (members g.max_city v).length ≤ fuel →
    tsp_bounded_loop g fuel r t v = .fatal := by
  intro fuel
  induction fuel with
  | zero =>
    intro r t v hr hv hb h0 hlen
    exfalso
    have hm : 0 ∈ members g.max_city v := mem_members.2 ⟨by omega, h0⟩
    have := List.length_pos_of_mem hm
    omega
  | succ fuel ih =>
    intro r t v hr hv hb h0 hlen
    have hn := hg.1
    have hv64 := lt_two_pow_64 hn hv
    have hv0 : v ≠ 0 := by
      intro h; rw [h] at h0; simp [has_bit] at h0
    unfold tsp_bounded_loop
    rw [if_neg hv0]
    obtain ⟨d, b, hrun, _, h1⟩ := tsp2_spec hg MAX_CITY r v 10 hr hv hb (by decide)
      (le_trans (length_members_le _ _) hn)
    obtain ⟨c, hbc, hcn, hbit, _⟩ := h1 hv0
    simp only [hrun]
    by_cases hc0 : c = 0
    · have hchk : b < 1 ∨ b ≥ (g.max_city : Int) := by rw [hbc]; omega
      rw [if_pos hchk]
    · have hchk : ¬ (b < 1 ∨ b ≥ (g.max_city : Int)) := by rw [hbc]; omega
      rw [if_neg hchk, hbc, Int.toNat_ofNat]
      have hlen' := length_members_clear_bit hn hv64 hcn hbit
      rw [ih c _ (clear_bit v c) hcn (lt_of_le_of_lt (clear_bit_le v c) hv)
        (has_bit_clear_bit_self (by omega) hv64)
        (by
          rw [has_bit_clear_bit (by omega) (by omega) hv64, h0]
          have : (0 : Nat) ≠ c := fun h => hc0 h.symm
          simp [this])
        (by omega)]

/-- Both variants of `tsp1` return a value whatever the memo table holds, for a start city
outside the visit set and a visit set within the cities. -/
theorem tsp1_returns {g : Graph} (hn : g.max_city ≤ 64) (dp : Bool) :
    ∀ (fuel : Nat) (mem : Memo) (s v : Nat), v < 2 ^ g.max_city →
    has_bit v s = false → (members g.max_city v).length ≤ fuel →
    ∃ r, tsp1 g fuel mem s v dp = .ret r := by
  intro fuel
  induction fuel with
  | zero =>
    intro mem s v hv hb hlen
    have hv0 : v = 0 := by
      by_contra h0
      have := members_ne_nil hn hv h0
      exact this (List.length_eq_zero.1 (Nat.le_zero.1 hlen))
    subst hv0
    unfold tsp1
    simp only [hb, Bool.false_eq_true, if_false, if_true]
    exact ⟨_, rfl⟩
  | succ fuel ih =>
    intro mem s v hv hb hlen
    have hv64 := lt_two_pow_64 hn hv
    unfold tsp1
    simp only [hb, Bool.false_eq_true, if_false]
    generalize (if (dp && s == 0) = true then zero_saved g.max_city mem else mem) = saved1
    by_cases hv0 : v = 0
    · rw [if_pos hv0]
      exact ⟨_, rfl⟩
    · rw [if_neg hv0]
      by_cases hhit : (dp && saved1 s v != 0) = true
      · rw [if_pos hhit]
        exact ⟨_, rfl⟩
      · rw [if_neg hhit]
        obtain ⟨m, mem2, hrun, _⟩ :=
          tsp1_scan_spec g (fun m c w => tsp1 g fuel m c w dp) s v
            (fun _ => True) (fun _ _ => True) (List.range g.max_city)
            (by
              intro mem0 c hc hbc _
              have hc' : c < g.max_city := List.mem_range.1 hc
              obtain ⟨⟨d, mem'⟩, hcall⟩ := ih mem0 c (clear_bit v c)
                (lt_of_le_of_lt (clear_bit_le v c) hv)
                (has_bit_clear_bit_self (by omega) hv64)
                (by
                  have := length_members_clear_bit hn hv64 hc' hbc
                  omega)
              exact ⟨d, mem', hcall, trivial, trivial⟩)
            INT32_MAX saved1 trivial
        rw [hrun]
        exact ⟨_, rfl⟩

theorem outcome_val_ret {α β : Type} {o : Outcome (α × β)} {a : α} {b : β}
    (h : o = .ret (a, b)) : o.val = .ret a := by
  rw [h]; rfl

theorem built_max_city {xy : List (Int × Int)} {g : Graph} (h : build xy = .ret g) :
    g.max_city = xy.length := (built_of_build h).1

theorem good_of_build {xy : List (Int × Int)} {g : Graph} (hv : ValidCoords xy)
    (h : build xy = .ret g) : GoodGraph g := built_good (built_of_build h) hv

/-- The brute-force solver from any start city on any visit set within the cities. -/
theorem tsp_brute_force_spec {g : Graph} (hg : GoodGraph g) (saved : Memo) {s v : Nat}
    (hs : s < g.max_city) (hv : v < 2 ^ g.max_city) (hb : has_bit v s = false) :
    ∃ m, tsp_brute_force g saved s v = .ret (m, saved) ∧
      IsShortest g s (members g.max_city v) m := by
  obtain ⟨m, mem', hrun, hsh, _, hsame⟩ := tsp1_spec hg false MAX_CITY saved s v hs hv hb
    (le_trans (length_members_le _ _) hg.1) (fun h => absurd h Bool.false_ne_true)
  rw [hsame rfl] at hrun
  exact ⟨m, hrun, hsh⟩

/-- The memoised solver on a table that holds only least lengths (or from city 0). -/
theorem tsp_dyn_prog_spec {g : Graph} (hg : GoodGraph g) (saved : Memo) {s v : Nat}
    (hs : s < g.max_city) (hv : v < 2 ^ g.max_city) (hb : has_bit v s = false)
    (hinv : s ≠ 0 → MemoInv g saved) :
    ∃ m mem', tsp_dyn_prog g saved s v = .ret (m, mem') ∧
      IsShortest g s (members g.max_city v) m ∧ MemoInv g mem' := by
  obtain ⟨m, mem', hrun, hsh, hinv', _⟩ := tsp1_spec hg true MAX_CITY saved s v hs hv hb
    (le_trans (length_members_le _ _) hg.1) (fun _ => hinv)
  exact ⟨m, mem', hrun, hsh, hinv' rfl⟩

theorem memoInv_zero_memo (g : Graph) : MemoInv g zero_memo := by
  intro c v _ _ hne
  exact absurd rfl hne

theorem tsp_nearest_neighbor_spec {g : Graph} (hg : GoodGraph g) {s v : Nat}
    (hs : s < g.max_city) (hv : v < 2 ^ g.max_city) (hb : has_bit v s = false) :
    ∃ d, tsp_nearest_neighbor g s v = .ret d ∧ IsPathLen g s (members g.max_city v) d := by
  obtain ⟨d, b, hrun, hp⟩ := @tsp2_isPathLen g hg MAX_CITY s v 1 hs hv hb
    (le_refl _) (le_trans (length_members_le _ _) hg.1)
  refine ⟨d, ?_, hp⟩
  unfold tsp_nearest_neighbor
  rw [hrun]

theorem tsp_bounded_route_spec {g : Graph} (hg : GoodGraph g) {v : Nat}
    (h0 : 0 < g.max_city) (hv : v < 2 ^ g.max_city) (hb : has_bit v 0 = false) :
    ∃ hops, tsp_bounded_route g 0 v = .ret (path_len g 0 hops, hops) ∧
      hops.Perm (members g.max_city v) ∧ StepsWithin v hops := by
  have hl : (members g.max_city v).length ≤ 64 := le_trans (length_members_le _ _) hg.1
  have hl' : ((members g.max_city v).length : Int) ≤ 64 := by exact_mod_cast hl
  obtain ⟨hops, hrun, hperm, hsteps⟩ := tsp_bounded_loop_spec hg MAX_CITY 0 0 v h0 hv hb hb
    hl (le_refl _) (by omega)
  rw [zero_add] at hrun
  exact ⟨hops, hrun, hperm, hsteps⟩

/-! ## The small instances -/

theorem build_coords2 : build coords2 = .ret graph2 := by decide

theorem build_coords3 : build coords3 = .ret graph3 := by decide

theorem validCoords_coords2 : ValidCoords coords2 := by decide

theorem validCoords_coords3 : ValidCoords coords3 := by decide

/-! ## Properties of the program -/

/-- C1: for every table `main` builds from 2 to 13 cities and every start city `s`,
`tsp_brute_force` on the visit set of all cities except `s` returns the minimum, over all
orderings of those cities, of the summed edge distances of the open path that leaves `s`
and visits them in that order. -/
theorem tsp_brute_force_shortest (xy : List (Int × Int)) (g : Graph) (saved : Memo) (s : Nat)
    (hv : ValidCoords xy) (_hn : xy.length ≤ MAX_CITY_BRUTE_FORCE) (hb : build xy = .ret g)
    (hs : s < xy.length) :
    ∃ m, (tsp_brute_force g saved s (visit_all xy.length s)).val = .ret m ∧
      (∃ p, p.Perm ((List.range xy.length).erase s) ∧ path_len g s p = m) ∧
      ∀ p, p.Perm ((List.range xy.length).erase s) → m ≤ path_len g s p := by
  have hg := good_of_build hv hb
  have hmax := built_max_city hb
  have hn1 : 1 ≤ xy.length := by have := hv.1; omega
  obtain ⟨m, hrun, hsh⟩ := tsp_brute_force_spec hg saved (s := s)
    (v := visit_all xy.length s) (by rw [hmax]; exact hs)
    (by rw [hmax]; exact visit_all_lt hn1 hv.2.1)
    (by rw [has_bit_visit_all hn1 hv.2.1 hs (lt_of_lt_of_le hs hv.2.1)]; simp)
  rw [hmax, members_visit_all hn1 hv.2.1 hs] at hsh
  exact ⟨m, outcome_val_ret hrun, hsh.1, hsh.2⟩

theorem tsp_brute_force_shortest_witness :
    ValidCoords coords2 ∧ coords2.length ≤ MAX_CITY_BRUTE_FORCE ∧
      build coords2 = .ret graph2 ∧ 1 < coords2.length ∧
      ∃ m, (tsp_brute_force graph2 zero_memo 1 (visit_all coords2.length 1)).val = .ret m ∧
        (∃ p, p.Perm ((List.range coords2.length).erase 1) ∧ path_len graph2 1 p = m) ∧
        ∀ p, p.Perm ((List.range coords2.length).erase 1) → m ≤ path_len graph2 1 p :=
  ⟨by decide, by decide, by decide, by decide,
    tsp_brute_force_shortest coords2 graph2 zero_memo 1 (by decide) (by decide) (by decide)
      (by decide)⟩

/-- C2: for every table `main` builds from 2 to 13 cities (coincident cities included),
every start city `s` and every visit set within the cities that does not contain `s`,
`tsp_dyn_prog` run on the all-zero memo table and `tsp_brute_force` return the same
value. -/
theorem tsp_dyn_prog_eq_brute_force (xy : List (Int × Int)) (g : Graph) (saved : Memo)
    (s v : Nat) (hv : ValidCoords xy) (_hn : xy.length ≤ MAX_CITY_BRUTE_FORCE)
    (hb : build xy = .ret g) (hs : s < xy.length) (hvs : v < 2 ^ xy.length)
    (hbit : has_bit v s = false) :
    ∃ m, (tsp_dyn_prog g zero_memo s v).val = .ret m ∧
      (tsp_brute_force g saved s v).val = .ret m := by
  have hg := good_of_build hv hb
  have hmax := built_max_city hb
  obtain ⟨m, hrun, hsh⟩ := tsp_brute_force_spec hg saved (s := s) (v := v)
    (by rw [hmax]; exact hs) (by rw [hmax]; exact hvs) hbit
  obtain ⟨m', mem', hrun', hsh', _⟩ := tsp_dyn_prog_spec hg zero_memo (s := s) (v := v)
    (by rw [hmax]; exact hs) (by rw [hmax]; exact hvs) hbit (fun _ => memoInv_zero_memo g)
  have : m' = m := isShortest_unique hsh' hsh
  subst this
  exact ⟨m', outcome_val_ret hrun', outcome_val_ret hrun⟩

theorem tsp_dyn_prog_eq_brute_force_witness :
    ValidCoords coords3 ∧ coords3.length ≤ MAX_CITY_BRUTE_FORCE ∧
      build coords3 = .ret graph3 ∧ 2 < coords3.length ∧ 3 < 2 ^ coords3.length ∧
      has_bit 3 2 = false ∧
      ∃ m, (tsp_dyn_prog graph3 zero_memo 2 3).val = .ret m ∧
        (tsp_brute_force graph3 zero_memo 2 3).val = .ret m :=
  ⟨by decide, by decide, by decide, by decide, by decide, by decide,
    tsp_dyn_prog_eq_brute_force coords3 graph3 zero_memo 2 3 (by decide) (by decide)
      (by decide) (by decide) (by decide) (by decide)⟩

/-- C3: for every table `main` builds and every start city `s`, on the visit set of all
cities except `s`, the exact optimum returned by `tsp_brute_force` is at most the total
returned by `tsp_bounded` and at most the total returned by `tsp_nearest_neighbor`,
whenever the heuristic returns a value. -/
theorem heuristics_ge_brute_force (xy : List (Int × Int)) (g : Graph) (saved : Memo) (s : Nat)
    (hv : ValidCoords xy) (hb : build xy = .ret g) (hs : s < xy.length) :
    ∃ b, (tsp_brute_force g saved s (visit_all xy.length s)).val = .ret b ∧
      (∀ h, tsp_bounded g s (visit_all xy.length s) = .ret h → b ≤ h) ∧
      ∀ h, tsp_nearest_neighbor g s (visit_all xy.length s) = .ret h → b ≤ h := by
  have hg := good_of_build hv hb
  have hmax := built_max_city hb
  have hn1 : 1 ≤ xy.length := by have := hv.1; omega
  have hs' : s < g.max_city := by rw [hmax]; exact hs
  have hlt : visit_all xy.length s < 2 ^ g.max_city := by
    rw [hmax]; exact visit_all_lt hn1 hv.2.1
  have hbit : has_bit (visit_all xy.length s) s = false := by
    rw [has_bit_visit_all hn1 hv.2.1 hs (lt_of_lt_of_le hs hv.2.1)]; simp
  obtain ⟨m, hrun, hsh⟩ := tsp_brute_force_spec hg saved hs' hlt hbit
  refine ⟨m, outcome_val_ret hrun, ?_, ?_⟩
  · intro h hh
    by_cases h0 : s = 0
    · subst h0
      obtain ⟨hops, hroute, hperm, _⟩ := tsp_bounded_route_spec hg hs' hlt hbit
      unfold tsp_bounded at hh
      rw [hroute] at hh
      cases hh
      exact hsh.2 hops hperm
    · exfalso
      have hbit0 : has_bit (visit_all xy.length s) 0 = true := by
        rw [has_bit_visit_all hn1 hv.2.1 hs (by decide)]
        have : (0 : Nat) ≠ s := fun h => h0 h.symm
        simp [this]; omega
      have := tsp_bounded_loop_fatal hg MAX_CITY s 0 (visit_all xy.length s) hs' hlt hbit
        hbit0 (le_trans (length_members_le _ _) hg.1)
      unfold tsp_bounded tsp_bounded_route at hh
      rw [this] at hh
      cases hh
  · intro h hh
    obtain ⟨d, hnn, hp⟩ := tsp_nearest_neighbor_spec hg hs' hlt hbit
    rw [hnn] at hh
    cases hh
    exact isShortest_le_of_isPathLen hsh hp

theorem heuristics_ge_brute_force_witness :
    ValidCoords coords3 ∧ build coords3 = .ret graph3 ∧ 0 < coords3.length ∧
      ∃ b, (tsp_brute_force graph3 zero_memo 0 (visit_all coords3.length 0)).val = .ret b ∧
        (∀ h, tsp_bounded graph3 0 (visit_all coords3.length 0) = .ret h → b ≤ h) ∧
        ∀ h, tsp_nearest_neighbor graph3 0 (visit_all coords3.length 0) = .ret h → b ≤ h :=
  ⟨by decide, by decide, by decide,
    heuristics_ge_brute_force coords3 graph3 zero_memo 0 (by decide) (by decide) (by decide)⟩

/-- C4: for every table `main` builds, with start city 0 and the visit set of the cities
`1 .. N-1`, the route assembler of `tsp_bounded` returns after exactly `N-1` passes; each
pass chooses a city that is in the visit set at that time and clears its bit, the set is
empty after the last pass, the hops are exactly the cities `1 .. N-1` (each once), and the
value returned is the sum of the edge distances `city[route_city].dist[city_chosen]`
along the route. -/
theorem tsp_bounded_route_covers (xy : List (Int × Int)) (g : Graph) (hv : ValidCoords xy)
    (hb : build xy = .ret g) :
    ∃ hops, tsp_bounded_route g 0 (visit_all xy.length 0) = .ret (path_len g 0 hops, hops) ∧
      tsp_bounded g 0 (visit_all xy.length 0) = .ret (path_len g 0 hops) ∧
      hops.length = xy.length - 1 ∧
      StepsWithin (visit_all xy.length 0) hops ∧
      hops.Perm ((List.range xy.length).erase 0) ∧ hops.Nodup ∧
      ∀ c, c ∈ hops ↔ 1 ≤ c ∧ c < xy.length := by
  have hg := good_of_build hv hb
  have hmax := built_max_city hb
  have hn1 : 1 ≤ xy.length := by have := hv.1; omega
  have hs : 0 < xy.length := by omega
  have hs' : 0 < g.max_city := by rw [hmax]; exact hs
  have hlt : visit_all xy.length 0 < 2 ^ g.max_city := by
    rw [hmax]; exact visit_all_lt hn1 hv.2.1
  have hbit : has_bit (visit_all xy.length 0) 0 = false := by
    rw [has_bit_visit_all hn1 hv.2.1 hs (by decide)]; simp
  obtain ⟨hops, hroute, hperm, hsteps⟩ := tsp_bounded_route_spec hg hs' hlt hbit
  rw [hmax, members_visit_all hn1 hv.2.1 hs] at hperm
  refine ⟨hops, hroute, ?_, ?_, hsteps, hperm, ?_, ?_⟩
  · unfold tsp_bounded
    rw [hroute]
    rfl
  · rw [hperm.length_eq, List.length_erase_of_mem (List.mem_range.2 hs), List.length_range]
  · exact hperm.nodup_iff.2 ((List.nodup_range _).erase 0)
  · intro c
    rw [hperm.mem_iff, (List.nodup_range _).mem_erase_iff, List.mem_range]
    omega

theorem tsp_bounded_route_covers_witness :
    ValidCoords coords3 ∧ build coords3 = .ret graph3 ∧
      ∃ hops, tsp_bounded_route graph3 0 (visit_all coords3.length 0) =
          .ret (path_len graph3 0 hops, hops) ∧
        tsp_bounded graph3 0 (visit_all coords3.length 0) = .ret (path_len graph3 0 hops) ∧
        hops.length = coords3.length - 1 ∧
        StepsWithin (visit_all coords3.length 0) hops ∧
        hops.Perm ((List.range coords3.length).erase 0) ∧ hops.Nodup ∧
        ∀ c, c ∈ hops ↔ 1 ≤ c ∧ c < coords3.length :=
  ⟨by decide, by decide, tsp_bounded_route_covers coords3 graph3 (by decide) (by decide)⟩

/-- C5 (as stated, refuted): on the two-city table, a run of `tsp_dyn_prog` from city 1 with
visit set `{0}` finds the entry `saved_solution[1][1] = 10` left in the table and returns
it, while the same run on the all-zero table returns the distance 5. -/
theorem tsp_dyn_prog_stale_counterexample :
    build coords2 = .ret graph2 ∧ has_bit 1 1 = false ∧
      (tsp_dyn_prog graph2 (store zero_memo 1 1 10) 1 1).val = .ret 10 ∧
      (tsp_dyn_prog graph2 zero_memo 1 1).val = .ret 5 := by
  decide

/-- C5 (amended): a dynamic-programming run from start city 0 clears the memo table first:
for every table `main` builds with at most 22 cities, every visit set within the cities
that does not contain the start city and every prior content of `saved_solution`,
`tsp_dyn_prog(0, V)` returns the value it returns on the all-zero table.  A run from a
start city other than 0 does not clear the table on entry; it returns the value of the
all-zero table provided every non-zero entry `saved_solution[c][W]` of the prior content
(`c < N`, `W < 2 ^ N`) is the least open-path length from `c` through `W` on the current
table. -/
theorem tsp_dyn_prog_prior_content (xy : List (Int × Int)) (g : Graph) (saved : Memo)
    (s v : Nat) (hv : ValidCoords xy) (_hn : xy.length ≤ MAX_CITY_DYN_PROG)
    (hb : build xy = .ret g) (hs : s < xy.length) (hvs : v < 2 ^ xy.length)
    (hbit : has_bit v s = false) (hinv : s ≠ 0 → MemoInv g saved) :
    ∃ m, (tsp_dyn_prog g saved s v).val = .ret m ∧
      (tsp_dyn_prog g zero_memo s v).val = .ret m := by
  have hg := good_of_build hv hb
  have hmax := built_max_city hb
  obtain ⟨m, mem1, hrun, hsh, _⟩ := tsp_dyn_prog_spec hg saved (s := s) (v := v)
    (by rw [hmax]; exact hs) (by rw [hmax]; exact hvs) hbit hinv
  obtain ⟨m', mem2, hrun', hsh', _⟩ := tsp_dyn_prog_spec hg zero_memo (s := s) (v := v)
    (by rw [hmax]; exact hs) (by rw [hmax]; exact hvs) hbit (fun _ => memoInv_zero_memo g)
  have : m' = m := isShortest_unique hsh' hsh
  subst this
  exact ⟨m', outcome_val_ret hrun, outcome_val_ret hrun'⟩

theorem tsp_dyn_prog_prior_content_witness :
    ValidCoords coords3 ∧ coords3.length ≤ MAX_CITY_DYN_PROG ∧
      build coords3 = .ret graph3 ∧ 0 < coords3.length ∧ 6 < 2 ^ coords3.length ∧
      has_bit 6 0 = false ∧ (0 ≠ 0 → MemoInv graph3 (store zero_memo 0 6 10)) ∧
      ∃ m, (tsp_dyn_prog graph3 (store zero_memo 0 6 10) 0 6).val = .ret m ∧
        (tsp_dyn_prog graph3 zero_memo 0 6).val = .ret m :=
  ⟨by decide, by decide, by decide, by decide, by decide, by decide,
    fun h => absurd rfl h,
    tsp_dyn_prog_prior_content coords3 graph3 (store zero_memo 0 6 10) 0 6 (by decide)
      (by decide) (by decide) (by decide) (by decide) (by decide) (fun h => absurd rfl h)⟩

/-- C6 (as stated, refuted): on the two-city table, `tsp_bounded` from start city 1 with the
visit set of every other city, `{0}`, ends in `exit(1)`: the only city it can choose is
city 0, which the check `city_chosen < 1` of line 329 rejects. -/
theorem tsp_bounded_start_counterexample :
    build coords2 = .ret graph2 ∧ visit_all 2 1 = 1 ∧
      tsp2 graph2 MAX_CITY 1 (visit_all 2 1) 10 = .ret (5, 0) ∧
      tsp_bounded graph2 1 (visit_all 2 1) = .fatal := by
  decide

/-- C6 (amended): for every table `main` builds and every start city `s`, on the visit set
of every city except `s`, `tsp_brute_force` and `tsp_nearest_neighbor` return a distance,
and so does `tsp_dyn_prog` on a table of at most 22 cities, whatever the memo table holds;
`tsp_bounded` returns a distance from start city 0. -/
theorem solvers_accept_start_city (xy : List (Int × Int)) (g : Graph) (saved : Memo) (s : Nat)
    (hv : ValidCoords xy) (hb : build xy = .ret g) (hs : s < xy.length) :
    (∃ d, (tsp_brute_force g saved s (visit_all xy.length s)).val = .ret d) ∧
    (xy.length ≤ MAX_CITY_DYN_PROG →
      ∃ d, (tsp_dyn_prog g saved s (visit_all xy.length s)).val = .ret d) ∧
    (∃ d, tsp_nearest_neighbor g s (visit_all xy.length s) = .ret d) ∧
    (s = 0 → ∃ d, tsp_bounded g s (visit_all xy.length s) = .ret d) := by
  have hg := good_of_build hv hb
  have hmax := built_max_city hb
  have hn1 : 1 ≤ xy.length := by have := hv.1; omega
  have hs' : s < g.max_city := by rw [hmax]; exact hs
  have hlt : visit_all xy.length s < 2 ^ g.max_city := by
    rw [hmax]; exact visit_all_lt hn1 hv.2.1
  have hbit : has_bit (visit_all xy.length s) s = false := by
    rw [has_bit_visit_all hn1 hv.2.1 hs (lt_of_lt_of_le hs hv.2.1)]; simp
  have hlen : (members g.max_city (visit_all xy.length s)).length ≤ MAX_CITY :=
    le_trans (length_members_le _ _) hg.1
  refine ⟨?_, ?_, ?_, ?_⟩
  · obtain ⟨⟨d, mem⟩, hrun⟩ := tsp1_returns hg.1 false MAX_CITY saved s _ hlt hbit hlen
    exact ⟨d, outcome_val_ret hrun⟩
  · intro _
    obtain ⟨⟨d, mem⟩, hrun⟩ := tsp1_returns hg.1 true MAX_CITY saved s _ hlt hbit hlen
    exact ⟨d, outcome_val_ret hrun⟩
  · obtain ⟨d, hnn, _⟩ := tsp_nearest_neighbor_spec hg hs' hlt hbit
    exact ⟨d, hnn⟩
  · intro h0
    subst h0
    obtain ⟨hops, hroute, _⟩ := tsp_bounded_route_spec hg hs' hlt hbit
    refine ⟨path_len g 0 hops, ?_⟩
    unfold tsp_bounded
    rw [hroute]
    rfl

theorem solvers_accept_start_city_witness :
    ValidCoords coords3 ∧ build coords3 = .ret graph3 ∧ 0 < coords3.length ∧
      ((∃ d, (tsp_brute_force graph3 zero_memo 0 (visit_all coords3.length 0)).val = .ret d) ∧
      (coords3.length ≤ MAX_CITY_DYN_PROG →
        ∃ d, (tsp_dyn_prog graph3 zero_memo 0 (visit_all coords3.length 0)).val = .ret d) ∧
      (∃ d, tsp_nearest_neighbor graph3 0 (visit_all coords3.length 0) = .ret d) ∧
      (0 = 0 → ∃ d, tsp_bounded graph3 0 (visit_all coords3.length 0) = .ret d)) :=
  ⟨by decide, by decide, by decide,
    solvers_accept_start_city coords3 graph3 zero_memo 0 (by decide) (by decide) (by decide)⟩

/-- C7: a call of `tsp1` (either variant) or of `tsp2` whose visit set contains the bit of
its start city ends in `exit(1)` and returns no distance, whatever the memo table, the
recursion depth left, the rest of the visit set and the lookahead `K` are. -/
theorem start_city_in_visit_set_is_fatal (g : Graph) (fuel : Nat) (saved : Memo) (s v : Nat)
    (dyn_prog : Bool) (K : Int) (h : has_bit v s = true) :
    tsp1 g fuel saved s v dyn_prog = .fatal ∧ tsp2 g fuel s v K = .fatal ∧
      tsp_brute_force g saved s v = .fatal ∧ tsp_dyn_prog g saved s v = .fatal := by
  have h1 : ∀ f dp, tsp1 g f saved s v dp = .fatal := by
    intro f dp
    unfold tsp1
    simp only [h, if_true]
  refine ⟨h1 fuel dyn_prog, ?_, h1 _ _, h1 _ _⟩
  unfold tsp2
  simp only [h, if_true]

theorem start_city_in_visit_set_is_fatal_witness :
    has_bit 1 0 = true ∧
      (tsp1 graph2 0 zero_memo 0 1 true = .fatal ∧ tsp2 graph2 0 0 1 0 = .fatal ∧
        tsp_brute_force graph2 zero_memo 0 1 = .fatal ∧
        tsp_dyn_prog graph2 zero_memo 0 1 = .fatal) :=
  ⟨by decide, start_city_in_visit_set_is_fatal graph2 0 zero_memo 0 1 true 0 (by decide)⟩

/-- C8: after `main` has built the table, for every city `i` the row `city[i].sort` has `N`
entries, is a rearrangement of `0 .. N-1`, and the distances from `i` do not decrease
along it: `city[i].dist[sort[j]] ≤ city[i].dist[sort[j+1]]` for every `j < N-1`. -/
theorem ranking_sorted_permutation (xy : List (Int × Int)) (_hv : ValidCoords xy) :
    ∃ g, build xy = .ret g ∧ g.max_city = xy.length ∧
      ∀ i, i < xy.length →
        (g.city.getD i default).sort.length = xy.length ∧
        (g.city.getD i default).sort.Perm (List.range xy.length) ∧
        ∀ j, j + 1 < xy.length → g.dist i (g.sort i j) ≤ g.dist i (g.sort i (j + 1)) := by
  obtain ⟨g, hg, hb⟩ := build_spec xy
  refine ⟨g, hg, hb.1, ?_⟩
  intro i hi
  obtain ⟨hlen, hp, hsorted⟩ := built_sort hb hi
  exact ⟨hlen, hp, fun j hj => hsorted j (j + 1) (Nat.le_succ j) hj⟩

theorem ranking_sorted_permutation_witness :
    ValidCoords coords3 ∧
      ∃ g, build coords3 = .ret g ∧ g.max_city = coords3.length ∧
        ∀ i, i < coords3.length →
          (g.city.getD i default).sort.length = coords3.length ∧
          (g.city.getD i default).sort.Perm (List.range coords3.length) ∧
          ∀ j, j + 1 < coords3.length →
            g.dist i (g.sort i j) ≤ g.dist i (g.sort i (j + 1)) :=
  ⟨by decide, ranking_sorted_permutation coords3 (by decide)⟩

/-- C9 (as stated, refuted): for the cities `(3,4)`, `(4,3)`, `(0,0)`, cities 0 and 1 are
both at distance 5 from city 2, and the ranking of city 2 is `[2, 1, 0]`: city 1 comes
before city 0. -/
theorem ranking_ties_counterexample :
    build coords3 = .ret graph3 ∧ graph3.dist 2 0 = 5 ∧ graph3.dist 2 1 = 5 ∧
      (graph3.city.getD 2 default).sort = [2, 1, 0] ∧
      graph3.sort 2 1 = 1 ∧ graph3.sort 2 2 = 0 := by
  decide

/-- C9 (amended): in the ranking of a city, pass `j` picks the first position `m` in
`j .. N-1` of the working arrays whose distance is least: no position from `j` on holds a
smaller distance, and every position from `j` up to `m` holds a strictly larger one.  Ties
are broken by position in the arrays as rearranged by the earlier passes, not by city
index. -/
theorem ranking_pass_picks_first_least (dist : List Int) (j n : Nat) (hj : j < n) :
    ∃ m : Nat, (scan_min dist (List.range' j (n - j)) (-1, -1)).1 = (m : Int) ∧
      j ≤ m ∧ m < n ∧ (∀ k, j ≤ k → k < n → dist.getD m 0 ≤ dist.getD k 0) ∧
      ∀ k, j ≤ k → k < m → dist.getD m 0 < dist.getD k 0 :=
  scan_min_first dist hj

theorem ranking_pass_picks_first_least_witness :
    0 < 3 ∧
      ∃ m : Nat, (scan_min [5, 5, 0] (List.range' 0 (3 - 0)) (-1, -1)).1 = (m : Int) ∧
        0 ≤ m ∧ m < 3 ∧
        (∀ k, 0 ≤ k → k < 3 → ([5, 5, 0] : List Int).getD m 0 ≤ ([5, 5, 0] : List Int).getD k 0) ∧
        ∀ k, 0 ≤ k → k < m → ([5, 5, 0] : List Int).getD m 0 < ([5, 5, 0] : List Int).getD k 0 :=
  ⟨by decide, ranking_pass_picks_first_least [5, 5, 0] 0 3 (by decide)⟩

/-- C10: in every table `main` builds, `city[i].dist[j]` is the integer part of the square
root of `dx*dx + dy*dy`, so for all cities `i`, `j` below `N`:
`city[i].dist[j] = city[j].dist[i]`, `city[i].dist[i] = 0` and `city[i].dist[j] ≥ 0`. -/
theorem distances_symmetric (xy : List (Int × Int)) (_hv : ValidCoords xy) :
    ∃ g, build xy = .ret g ∧
      ∀ i j, i < xy.length → j < xy.length →
        g.dist i j = g.dist j i ∧ g.dist i i = 0 ∧ 0 ≤ g.dist i j ∧
        g.dist i j = (Nat.sqrt
          (((xy.getD i (0, 0)).1 - (xy.getD j (0, 0)).1) *
              ((xy.getD i (0, 0)).1 - (xy.getD j (0, 0)).1) +
            ((xy.getD i (0, 0)).2 - (xy.getD j (0, 0)).2) *
              ((xy.getD i (0, 0)).2 - (xy.getD j (0, 0)).2)).toNat : Nat) := by
  obtain ⟨g, hg, hb⟩ := build_spec xy
  refine ⟨g, hg, ?_⟩
  intro i j hi hj
  rw [built_dist hb hi hj, built_dist hb hj hi, built_dist hb hi hi]
  refine ⟨gen_dist_comm xy i j, gen_dist_self xy i, gen_dist_nonneg xy i j, ?_⟩
  unfold gen_dist
  simp only
  rw [isqrt_eq_sqrt]

theorem distances_symmetric_witness :
    ValidCoords coords3 ∧
      ∃ g, build coords3 = .ret g ∧
        ∀ i j, i < coords3.length → j < coords3.length →
          g.dist i j = g.dist j i ∧ g.dist i i = 0 ∧ 0 ≤ g.dist i j ∧
          g.dist i j = (Nat.sqrt
            (((coords3.getD i (0, 0)).1 - (coords3.getD j (0, 0)).1) *
                ((coords3.getD i (0, 0)).1 - (coords3.getD j (0, 0)).1) +
              ((coords3.getD i (0, 0)).2 - (coords3.getD j (0, 0)).2) *
                ((coords3.getD i (0, 0)).2 - (coords3.getD j (0, 0)).2)).toNat : Nat) :=
  ⟨by decide, distances_symmetric coords3 (by decide)⟩

/-- C11: for the four cities `(0,0)`, `(10,0)`, `(10,10)`, `(0,10)` the table built has
`d(0,1) = d(1,2) = d(2,3) = d(0,3) = 10` and `d(0,2) = d(1,3) = 14`, and from start city 0
with visit set `{1,2,3}` both `tsp_brute_force` and `tsp_dyn_prog` return 30. -/
theorem square_instance_exact_solvers :
    build coords4 = .ret graph4 ∧
      graph4.dist 0 1 = 10 ∧ graph4.dist 1 2 = 10 ∧ graph4.dist 2 3 = 10 ∧
      graph4.dist 0 3 = 10 ∧ graph4.dist 0 2 = 14 ∧ graph4.dist 1 3 = 14 ∧
      visit_all 4 0 = 14 ∧
      (tsp_brute_force graph4 zero_memo 0 14).val = .ret 30 ∧
      (tsp_dyn_prog graph4 zero_memo 0 14).val = .ret 30 := by
  refine ⟨by decide, by decide, by decide, by decide, by decide, by decide, by decide,
    by decide, by decide!, by decide!⟩

/-! ## The candidates of the heuristic recurrence -/

theorem next_lookahead_pos (K : Int) : 1 ≤ next_lookahead K := by
  unfold next_lookahead
  split
  · omega
  · exact le_refl _

theorem next_lookahead_mono {K K' : Int} (h : K ≤ K') :
    next_lookahead K ≤ next_lookahead K' := by
  unfold next_lookahead
  split <;> split <;> omega

/-- The loop of lines 382-408 is the candidate loop run on the cities of the visit set met
along the ranking, cut after `K - n` of them (`n` candidates already counted). -/
theorem tsp2_scan_eq_pick (g : Graph) (call : Nat → Nat → Int → Outcome (Int × Int))
    (s v : Nat) (K : Int) :
    ∀ (ps : List Nat) (m b n : Int), n < K →
    tsp2_scan g call s v K ps m b n =
      tsp2_pick g call s v (next_lookahead K)
        (((ps.map (g.sort s)).filter (fun c => has_bit v c)).take (K - n).toNat) m b := by
  intro ps
  induction ps with
  | nil => intro m b n _; simp [tsp2_scan, tsp2_pick]
  | cons i ps ih =>
    intro m b n hn
    simp only [tsp2_scan, List.map_cons]
    by_cases hb : has_bit v (g.sort s i) = false
    · rw [if_pos hb, List.filter_cons_of_neg (by simp [hb])]
      exact ih m b n hn
    · rw [if_neg hb]
      have hb1 : has_bit v (g.sort s i) = true := by simpa using hb
      rw [List.filter_cons_of_pos (by simp [hb1])]
      obtain ⟨k, hk⟩ : ∃ k, (K - n).toNat = k + 1 := ⟨(K - n).toNat - 1, by omega⟩
      rw [hk, List.take_succ_cons]
      simp only [tsp2_pick]
      show (match call (g.sort s i) (clear_bit v (g.sort s i)) (next_lookahead K) with
        | .ret (d, _) => _
        | .fatal => _
        | .cutoff => _) = _
      cases call (g.sort s i) (clear_bit v (g.sort s i)) (next_lookahead K) with
      | fatal => rfl
      | cutoff => rfl
      | ret r =>
        obtain ⟨d, b1⟩ := r
        simp only
        by_cases hbrk : n + 1 = K
        · rw [if_pos hbrk]
          have hk0 : k = 0 := by omega
          subst hk0
          simp [tsp2_pick]
        · rw [if_neg hbrk, ih _ _ (n + 1) (by omega)]
          have : (K - (n + 1)).toNat = k := by omega
          rw [this]

theorem tsp2_pick_congr (g : Graph) (call call' : Nat → Nat → Int → Outcome (Int × Int))
    (s v : Nat) (K' : Int) :
    ∀ (cs : List Nat) (m b : Int),
    (∀ c, c ∈ cs → call c (clear_bit v c) K' = call' c (clear_bit v c) K') →
    tsp2_pick g call s v K' cs m b = tsp2_pick g call' s v K' cs m b := by
  intro cs
  induction cs with
  | nil => intro m b _; rfl
  | cons c cs ih =>
    intro m b h
    simp only [tsp2_pick]
    rw [h c (List.mem_cons_self c cs)]
    cases call' c (clear_bit v c) K' with
    | fatal => rfl
    | cutoff => rfl
    | ret r =>
      obtain ⟨d, b1⟩ := r
      simp only
      exact ih _ _ (fun x hx => h x (List.mem_cons_of_mem c hx))

/-- The candidate loop when the recursive call on each candidate `c` returns the distance
`e c`: the loop returns the least of the starting value and the candidate totals
`dist s c + e c`; the city recorded is the first candidate whose total is that least value,
or the starting one if no total is below the starting value. -/
theorem tsp2_pick_spec (g : Graph) (call : Nat → Nat → Int → Outcome (Int × Int))
    (s v : Nat) (K' : Int) (e : Nat → Int) :
    ∀ (cs : List Nat),
    (∀ c, c ∈ cs → ∃ bc, call c (clear_bit v c) K' = .ret (e c, bc)) →
    ∀ (m0 b0 : Int),
    ∃ m b, tsp2_pick g call s v K' cs m0 b0 = .ret (m, b) ∧ m ≤ m0 ∧
      (∀ c, c ∈ cs → m ≤ int_add (g.dist s c) (e c)) ∧
      ((m = m0 ∧ b = b0) ∨
        ∃ (pre : List Nat) (c : Nat) (post : List Nat), cs = pre ++ c :: post ∧ b = (c : Int) ∧
          m = int_add (g.dist s c) (e c) ∧ m < m0 ∧
          ∀ x, x ∈ pre → m < int_add (g.dist s x) (e x)) := by
  intro cs
  induction cs with
  | nil =>
    intro _ m0 b0
    exact ⟨m0, b0, rfl, le_refl _, fun c hc => absurd hc (List.not_mem_nil c),
      Or.inl ⟨rfl, rfl⟩⟩
  | cons c cs ih =>
    intro hcall m0 b0
    obtain ⟨bc, hc⟩ := hcall c (List.mem_cons_self c cs)
    simp only [tsp2_pick, hc]
    have hcall' : ∀ x, x ∈ cs → ∃ bx, call x (clear_bit v x) K' = .ret (e x, bx) :=
      fun x hx => hcall x (List.mem_cons_of_mem c hx)
    by_cases hlt : int_add (g.dist s c) (e c) < m0
    · rw [if_pos hlt, if_pos hlt]
      obtain ⟨m, b, hrun, hle, hall, hcase⟩ := ih hcall' (int_add (g.dist s c) (e c)) (c : Int)
      refine ⟨m, b, hrun, le_trans hle (le_of_lt hlt), ?_, Or.inr ?_⟩
      · intro x hx
        rcases List.mem_cons.1 hx with h | h
        · rw [h]; exact hle
        · exact hall x h
      · rcases hcase with ⟨h1, h2⟩ | ⟨pre, c', post, hcs, hb, hm, hmlt, hpre⟩
        · exact ⟨[], c, cs, rfl, h2, h1, h1 ▸ hlt, fun x hx => absurd hx (List.not_mem_nil x)⟩
        · refine ⟨c :: pre, c', post, by rw [hcs]; rfl, hb, hm, lt_trans hmlt hlt, ?_⟩
          intro x hx
          rcases List.mem_cons.1 hx with h | h
          · rw [h]; exact hmlt
          · exact hpre x h
    · rw [if_neg hlt, if_neg hlt]
      obtain ⟨m, b, hrun, hle, hall, hcase⟩ := ih hcall' m0 b0
      refine ⟨m, b, hrun, hle, ?_, ?_⟩
      · intro x hx
        rcases List.mem_cons.1 hx with h | h
        · rw [h]; exact le_trans hle (not_lt.mp hlt)
        · exact hall x h
      · rcases hcase with h | ⟨pre, c', post, hcs, hb, hm, hmlt, hpre⟩
        · exact Or.inl h
        · refine Or.inr ⟨c :: pre, c', post, by rw [hcs]; rfl, hb, hm, hmlt, ?_⟩
          intro x hx
          rcases List.mem_cons.1 hx with h | h
          · rw [h]; exact lt_of_lt_of_le hmlt (not_lt.mp hlt)
          · exact hpre x h

/-- A call of `tsp2` past its checks, with a non-empty visit set: the candidate loop over
the first `K` ranked cities of the visit set, then the check of line 411. -/
theorem tsp2_succ_eq (g : Graph) (fuel s v : Nat) (K : Int) (hb : has_bit v s = false)
    (hK : 1 ≤ K) (hv0 : v ≠ 0) :
    tsp2 g (fuel + 1) s v K =
      match tsp2_pick g (fun c w k => tsp2 g fuel c w k) s v (next_lookahead K)
          (candidates g s v K) INT32_MAX (-1) with
      | .ret (min_distance, best_city) =>
        if best_city = -1 then .fatal else .ret (min_distance, best_city)
      | .fatal => .fatal
      | .cutoff => .cutoff := by
  have hK' : ¬ K < 1 := by omega
  rw [tsp2]
  simp only [hb, Bool.false_eq_true, if_false, hK', hv0]
  rw [tsp2_scan_eq_pick g _ s v K (List.range g.max_city) INT32_MAX (-1) 0 (by omega)]
  simp only [sub_zero]
  rfl

theorem ranked_perm {g : Graph} (hg : GoodGraph g) {s : Nat} (hs : s < g.max_city) (v : Nat) :
    (ranked g s v).Perm (members g.max_city v) := by
  unfold ranked members
  apply List.Perm.filter
  apply List.Perm.symm
  apply List.Subperm.perm_of_length_le
  · apply List.subperm_of_subset (List.nodup_range _)
    intro c hc
    obtain ⟨k, hk, hkc⟩ := (hg.2.2 s hs).2 c (List.mem_range.1 hc)
    exact List.mem_map.2 ⟨k, List.mem_range.2 hk, hkc⟩
  · simp

theorem mem_ranked {g : Graph} (hg : GoodGraph g) {s : Nat} (hs : s < g.max_city) {v c : Nat} :
    c ∈ ranked g s v ↔ c < g.max_city ∧ has_bit v c = true := by
  rw [(ranked_perm hg hs v).mem_iff, mem_members]

theorem mem_of_mem_candidates {g : Graph} (hg : GoodGraph g) {s : Nat} (hs : s < g.max_city)
    {v c : Nat} {K : Int} (h : c ∈ candidates g s v K) :
    c < g.max_city ∧ has_bit v c = true :=
  (mem_ranked hg hs).1 (List.mem_of_mem_take h)

theorem candidates_length {g : Graph} (hg : GoodGraph g) {s : Nat} (hs : s < g.max_city)
    (v : Nat) (K : Int) :
    (candidates g s v K).length = min K.toNat (members g.max_city v).length := by
  unfold candidates
  rw [List.length_take, (ranked_perm hg hs v).length_eq]

theorem candidates_nodup {g : Graph} (hg : GoodGraph g) {s : Nat} (hs : s < g.max_city)
    (v : Nat) (K : Int) : (candidates g s v K).Nodup :=
  ((ranked_perm hg hs v).nodup_iff.2 (members_nodup _ _)).sublist (List.take_sublist _ _)

theorem tsp2_of_guard (g : Graph) (s v : Nat) (K : Int)
    (h : has_bit v s = true ∨ K < 1 ∨ v = 0) (f1 f2 : Nat) :
    tsp2 g f1 s v K = tsp2 g f2 s v K := by
  have key : ∀ f, tsp2 g f s v K =
      if has_bit v s = true then .fatal else if K < 1 then .fatal else .ret (0, -1) := by
    intro f
    rw [tsp2.eq_def]
    rcases h with h | h | h
    · simp only [h, if_true]
    · simp only [h, if_true]
    · simp only [h, if_true]
  rw [key f1, key f2]

/-- One more level of recursion budget changes nothing once the budget covers the cities of
the visit set. -/
theorem tsp2_fuel_succ {g : Graph} (hg : GoodGraph g) :
    ∀ (fuel s v : Nat) (K : Int), s < g.max_city → v < 2 ^ g.max_city →
    (members g.max_city v).length ≤ fuel →
    tsp2 g (fuel + 1) s v K = tsp2 g fuel s v K := by
  intro fuel
  induction fuel with
  | zero =>
    intro s v K hs hv hlen
    apply tsp2_of_guard
    right; right
    by_contra h0
    exact members_ne_nil hg.1 hv h0 (List.length_eq_zero.1 (Nat.le_zero.1 hlen))
  | succ fuel ih =>
    intro s v K hs hv hlen
    by_cases hguard : has_bit v s = true ∨ K < 1 ∨ v = 0
    · exact tsp2_of_guard g s v K hguard _ _
    · have hb : has_bit v s = false := by
        cases h : has_bit v s
        · rfl
        · exact absurd (Or.inl h) hguard
      have hK : 1 ≤ K := by
        by_contra h; exact hguard (Or.inr (Or.inl (by omega)))
      have hv0 : v ≠ 0 := fun h => hguard (Or.inr (Or.inr h))
      rw [tsp2_succ_eq g (fuel + 1) s v K hb hK hv0, tsp2_succ_eq g fuel s v K hb hK hv0]
      rw [tsp2_pick_congr g (fun c w k => tsp2 g (fuel + 1) c w k)
        (fun c w k => tsp2 g fuel c w k)]
      intro c hc
      obtain ⟨hcn, hbc⟩ := mem_of_mem_candidates hg hs hc
      have hv64 := lt_two_pow_64 hg.1 hv
      have := length_members_clear_bit hg.1 hv64 hcn hbc
      exact ih c (clear_bit v c) _ hcn (lt_of_le_of_lt (clear_bit_le v c) hv) (by omega)

theorem tsp2_fuel_add {g : Graph} (hg : GoodGraph g) {fuel s v : Nat} (K : Int)
    (hs : s < g.max_city) (hv : v < 2 ^ g.max_city)
    (hlen : (members g.max_city v).length ≤ fuel) (k : Nat) :
    tsp2 g (fuel + k) s v K = tsp2 g fuel s v K := by
  induction k with
  | zero => rfl
  | succ k ih =>
    rw [← Nat.add_assoc, tsp2_fuel_succ hg (fuel + k) s v K hs hv (by omega), ih]

/-- With a budget that covers the visit set, `tsp2` gives what it gives with the full
budget of 64 levels. -/
theorem tsp2_fuel_eq {g : Graph} (hg : GoodGraph g) {fuel s v : Nat} (K : Int)
    (hs : s < g.max_city) (hv : v < 2 ^ g.max_city)
    (hlen : (members g.max_city v).length ≤ fuel) :
    tsp2 g fuel s v K = tsp2 g MAX_CITY s v K := by
  have hl : (members g.max_city v).length ≤ 64 := le_trans (length_members_le _ _) hg.1
  have h1 := tsp2_fuel_add hg K hs hv (le_refl (members g.max_city v).length)
    (fuel - (members g.max_city v).length)
  have h2 := tsp2_fuel_add hg K hs hv (le_refl (members g.max_city v).length)
    (64 - (members g.max_city v).length)
  rw [Nat.add_sub_cancel' hlen] at h1
  rw [Nat.add_sub_cancel' hl] at h2
  rw [h1]
  exact h2.symm

theorem tsp2_estimate {g : Graph} (hg : GoodGraph g) {s v : Nat} {K : Int}
    (hs : s < g.max_city) (hv : v < 2 ^ g.max_city) (hb : has_bit v s = false) (hK : 1 ≤ K) :
    (∃ b, tsp2 g MAX_CITY s v K = .ret (estimate g s v K, b)) ∧
      IsPathLen g s (members g.max_city v) (estimate g s v K) := by
  obtain ⟨d, b, hrun, hp⟩ := @tsp2_isPathLen g hg MAX_CITY s v K hs hv hb hK
    (le_trans (length_members_le _ _) hg.1)
  have : estimate g s v K = d := by
    unfold estimate
    rw [hrun]
  rw [this]
  exact ⟨⟨b, hrun⟩, hp⟩

theorem estimate_zero (g : Graph) {s : Nat} {K : Int} (hK : 1 ≤ K) : estimate g s 0 K = 0 := by
  have hK' : ¬ K < 1 := by omega
  have h0 : has_bit 0 s = false := by simp [has_bit]
  unfold estimate
  rw [show MAX_CITY = 63 + 1 from rfl, tsp2]
  simp [h0, hK']

theorem estimate_add_bounds {g : Graph} (hg : GoodGraph g) {s c v : Nat} {K : Int}
    (hv : v < 2 ^ g.max_city) (hc : c < g.max_city) (_hbc : has_bit v c = true) (hK : 1 ≤ K) :
    int_add (g.dist s c) (estimate g c (clear_bit v c) K) =
        g.dist s c + estimate g c (clear_bit v c) K ∧
      0 ≤ estimate g c (clear_bit v c) K ∧
      g.dist s c + estimate g c (clear_bit v c) K < INT32_MAX := by
  have hv64 := lt_two_pow_64 hg.1 hv
  have hp := (tsp2_estimate hg hc (lt_of_le_of_lt (clear_bit_le v c) hv)
    (has_bit_clear_bit_self (by have := hg.1; omega) hv64) hK).2
  have h1 := hg.2.1 s c
  have h2 := isPathLen_bounds hg hp
  have h3 : (members g.max_city (clear_bit v c)).length ≤ 64 :=
    le_trans (length_members_le _ _) hg.1
  have h4 : ((members g.max_city (clear_bit v c)).length : Int) ≤ 64 := by exact_mod_cast h3
  have h5 : g.dist s c + estimate g c (clear_bit v c) K < 2147483648 := by omega
  exact ⟨int_add_eq (by omega) h5, h2.1, by unfold INT32_MAX; omega⟩

/-- The recurrence computed by `tsp2` on a good table, for `s` outside a non-empty visit set
within the cities and `K ≥ 1`: every candidate's recursive call returns; the distance
returned is the least candidate total `dist s c + estimate c (visit without c) K'`; and the
city reported is the first candidate, in ranking order, whose total is that least value. -/
theorem tsp2_char {g : Graph} (hg : GoodGraph g) {s v : Nat} {K : Int}
    (hs : s < g.max_city) (hv : v < 2 ^ g.max_city) (hb : has_bit v s = false) (hK : 1 ≤ K)
    (hv0 : v ≠ 0) :
    (∀ c, c ∈ candidates g s v K →
      ∃ bc, tsp2 g MAX_CITY c (clear_bit v c) (next_lookahead K) =
        .ret (estimate g c (clear_bit v c) (next_lookahead K), bc)) ∧
    (∀ c, c ∈ candidates g s v K →
      estimate g s v K ≤ g.dist s c + estimate g c (clear_bit v c) (next_lookahead K)) ∧
    ∃ (pre : List Nat) (c : Nat) (post : List Nat),
      candidates g s v K = pre ++ c :: post ∧
      tsp2 g MAX_CITY s v K = .ret (estimate g s v K, (c : Int)) ∧
      estimate g s v K = g.dist s c + estimate g c (clear_bit v c) (next_lookahead K) ∧
      ∀ x, x ∈ pre →
        estimate g s v K < g.dist s x + estimate g x (clear_bit v x) (next_lookahead K) := by
  have hn := hg.1
  have hv64 := lt_two_pow_64 hn hv
  have hcand : ∀ c, c ∈ candidates g s v K →
      ∃ bc, tsp2 g MAX_CITY c (clear_bit v c) (next_lookahead K) =
        .ret (estimate g c (clear_bit v c) (next_lookahead K), bc) := by
    intro c hc
    obtain ⟨hcn, _⟩ := mem_of_mem_candidates hg hs hc
    exact (tsp2_estimate hg hcn (lt_of_le_of_lt (clear_bit_le v c) hv)
      (has_bit_clear_bit_self (by omega) hv64) (next_lookahead_pos K)).1
  have hcand63 : ∀ c, c ∈ candidates g s v K →
      ∃ bc, (fun c w k => tsp2 g 63 c w k) c (clear_bit v c) (next_lookahead K) =
        .ret (estimate g c (clear_bit v c) (next_lookahead K), bc) := by
    intro c hc
    obtain ⟨hcn, hbc⟩ := mem_of_mem_candidates hg hs hc
    obtain ⟨bc, hrun⟩ := hcand c hc
    refine ⟨bc, ?_⟩
    have hlen := length_members_clear_bit hn hv64 hcn hbc
    have hl := length_members_le g.max_city v
    show tsp2 g 63 c (clear_bit v c) (next_lookahead K) = _
    rw [tsp2_fuel_eq hg _ hcn (lt_of_le_of_lt (clear_bit_le v c) hv) (by omega)]
    exact hrun
  obtain ⟨m, b, hrun, _, hall, hcase⟩ :=
    tsp2_pick_spec g (fun c w k => tsp2 g 63 c w k) s v (next_lookahead K)
      (fun c => estimate g c (clear_bit v c) (next_lookahead K)) (candidates g s v K) hcand63
      INT32_MAX (-1)
  have hadd : ∀ c, c ∈ candidates g s v K →
      int_add (g.dist s c) (estimate g c (clear_bit v c) (next_lookahead K)) =
          g.dist s c + estimate g c (clear_bit v c) (next_lookahead K) ∧
        g.dist s c + estimate g c (clear_bit v c) (next_lookahead K) < INT32_MAX := by
    intro c hc
    obtain ⟨hcn, hbc⟩ := mem_of_mem_candidates hg hs hc
    have := estimate_add_bounds (s := s) hg hv hcn hbc (next_lookahead_pos K)
    exact ⟨this.1, this.2.2⟩
  have hne : candidates g s v K ≠ [] := by
    intro h
    have hlen := candidates_length hg hs v K
    rw [h] at hlen
    have h1 : 0 < (members g.max_city v).length :=
      List.length_pos.2 (members_ne_nil hn hv hv0)
    have h2 : 0 < K.toNat := by omega
    simp only [List.length_nil] at hlen
    omega
  have hrun' : tsp2 g MAX_CITY s v K =
      if b = -1 then .fatal else .ret (m, b) := by
    rw [show MAX_CITY = 63 + 1 from rfl, tsp2_succ_eq g 63 s v K hb hK hv0, hrun]
  rcases hcase with ⟨h1, _⟩ | ⟨pre, c, post, hcs, hbc, hm, _, hpre⟩
  · exfalso
    obtain ⟨c, hc⟩ := List.exists_mem_of_ne_nil _ hne
    have h2 := hall c hc
    have h3 := hadd c hc
    omega
  · have hcm : c ∈ candidates g s v K := by rw [hcs]; simp
    have hne1 : ¬ (b = -1) := by rw [hbc]; omega
    rw [if_neg hne1, hbc] at hrun'
    have hest : estimate g s v K = m := by
      unfold estimate
      rw [hrun']
    refine ⟨hcand, ?_, pre, c, post, hcs, by rw [hest]; exact hrun', ?_, ?_⟩
    · intro x hx
      rw [hest, ← (hadd x hx).1]
      exact hall x hx
    · rw [hest, hm]
      exact (hadd c hcm).1
    · intro x hx
      have hxm : x ∈ candidates g s v K := by rw [hcs]; simp [hx]
      rw [hest, ← (hadd x hxm).1]
      exact hpre x hx

/-! ## Lookahead -/

theorem tsp_bounded_loop_eq_k (g : Graph) : ∀ (fuel r : Nat) (t : Int) (v : Nat),
    tsp_bounded_loop g fuel r t v = tsp_bounded_loop_k g 10 fuel r t v := by
  intro fuel
  induction fuel with
  | zero => intro r t v; rw [tsp_bounded_loop.eq_def, tsp_bounded_loop_k.eq_def]
  | succ fuel ih =>
    intro r t v
    rw [tsp_bounded_loop.eq_def, tsp_bounded_loop_k.eq_def]
    simp only [ih]

theorem mem_candidates_mono {g : Graph} {s v c : Nat} {K K' : Int} (h : K ≤ K')
    (hc : c ∈ candidates g s v K) : c ∈ candidates g s v K' := by
  unfold candidates at hc ⊢
  have : List.take K.toNat (ranked g s v) =
      List.take K.toNat (List.take K'.toNat (ranked g s v)) := by
    rw [List.take_take, Nat.min_eq_left (Int.toNat_le_toNat h)]
  rw [this] at hc
  exact List.mem_of_mem_take hc

/-- A larger lookahead never gives a larger distance estimate. -/
theorem estimate_mono {g : Graph} (hg : GoodGraph g) :
    ∀ (n s v : Nat) (K K' : Int), (members g.max_city v).length ≤ n → s < g.max_city →
    v < 2 ^ g.max_city → has_bit v s = false → 1 ≤ K → K ≤ K' →
    estimate g s v K' ≤ estimate g s v K := by
  intro n
  induction n with
  | zero =>
    intro s v K K' hlen hs hv hb hK hKK
    have hv0 : v = 0 := by
      by_contra h0
      exact members_ne_nil hg.1 hv h0 (List.length_eq_zero.1 (Nat.le_zero.1 hlen))
    subst hv0
    rw [estimate_zero g hK, estimate_zero g (le_trans hK hKK)]
  | succ n ih =>
    intro s v K K' hlen hs hv hb hK hKK
    by_cases hv0 : v = 0
    · subst hv0
      rw [estimate_zero g hK, estimate_zero g (le_trans hK hKK)]
    · have hv64 := lt_two_pow_64 hg.1 hv
      obtain ⟨_, _, pre, c, post, hcs, _, hest, _⟩ := tsp2_char hg hs hv hb hK hv0
      have hc : c ∈ candidates g s v K := by rw [hcs]; simp
      obtain ⟨hcn, hbc⟩ := mem_of_mem_candidates hg hs hc
      obtain ⟨_, hall, _⟩ := tsp2_char hg hs hv hb (le_trans hK hKK) hv0
      have h1 := hall c (mem_candidates_mono hKK hc)
      have hlen' := length_members_clear_bit hg.1 hv64 hcn hbc
      have h2 := ih c (clear_bit v c) (next_lookahead K) (next_lookahead K') (by omega) hcn
        (lt_of_le_of_lt (clear_bit_le v c) hv) (has_bit_clear_bit_self (by have := hg.1; omega) hv64)
        (next_lookahead_pos K) (next_lookahead_mono hKK)
      omega

/-- The route assembler run with lookahead `K ≥ 1` when city 0 is not in the visit set: it
returns, its hops are exactly the cities of the visit set, taken one after the other, and
the length of its route is at most the distance estimate `tsp2` gives for the same city,
visit set and lookahead; with `K = 1` it is that estimate. -/
theorem tsp_bounded_loop_k_spec {g : Graph} (hg : GoodGraph g) {K : Int} (hK : 1 ≤ K) :
    ∀ (fuel r : Nat) (t : Int) (v : Nat), r < g.max_city → v < 2 ^ g.max_city →
    has_bit v r = false → has_bit v 0 = false → (members g.max_city v).length ≤ fuel →
    0 ≤ t → t + 2000000 * ((members g.max_city v).length : Int) < 2147483648 →
    ∃ hops, tsp_bounded_loop_k g K fuel r t v = .ret (t + path_len g r hops, hops) ∧
      hops.Perm (members g.max_city v) ∧ StepsWithin v hops ∧
      path_len g r hops ≤ estimate g r v K ∧
      (K = 1 → path_len g r hops = estimate g r v K) := by
  intro fuel
  induction fuel with
  | zero =>
    intro r t v hr hv hb h0 hlen ht hbound
    have hv0 : v = 0 := by
      by_contra hne
      exact members_ne_nil hg.1 hv hne (List.length_eq_zero.1 (Nat.le_zero.1 hlen))
    subst hv0
    refine ⟨[], ?_, by rw [members_zero], rfl, ?_, ?_⟩
    · rw [tsp_bounded_loop_k.eq_def]
      simp [path_len]
    · rw [estimate_zero g hK]; exact le_refl _
    · intro _; rw [estimate_zero g hK]; rfl
  | succ fuel ih =>
    intro r t v hr hv hb h0 hlen ht hbound
    have hn := hg.1
    have hv64 := lt_two_pow_64 hn hv
    by_cases hv0 : v = 0
    · subst hv0
      refine ⟨[], ?_, by rw [members_zero], rfl, ?_, ?_⟩
      · rw [tsp_bounded_loop_k.eq_def]
        simp [path_len]
      · rw [estimate_zero g hK]; exact le_refl _
      · intro _; rw [estimate_zero g hK]; rfl
    · obtain ⟨_, _, pre, c, post, hcs, hrun, hest, _⟩ := tsp2_char hg hr hv hb hK hv0
      have hc : c ∈ candidates g r v K := by rw [hcs]; simp
      obtain ⟨hcn, hbit⟩ := mem_of_mem_candidates hg hr hc
      have hc0 : c ≠ 0 := by
        intro h; rw [h, h0] at hbit; exact Bool.noConfusion hbit
      rw [tsp_bounded_loop_k.eq_def]
      simp only [hv0, if_false, hrun]
      have hchk : ¬ ((c : Int) < 1 ∨ (c : Int) ≥ (g.max_city : Int)) := by omega
      rw [if_neg hchk, Int.toNat_ofNat]
      have hlen' := length_members_clear_bit hn hv64 hcn hbit
      have hd := hg.2.1 r c
      have hcast : ((members g.max_city v).length : Int) =
          ((members g.max_city (clear_bit v c)).length : Int) + 1 := by
        rw [← hlen']; push_cast; rfl
      have hadd : int_add t (g.dist r c) = t + g.dist r c :=
        int_add_eq (by omega) (by omega)
      rw [hadd]
      have hvc : clear_bit v c < 2 ^ g.max_city := lt_of_le_of_lt (clear_bit_le v c) hv
      have hbc : has_bit (clear_bit v c) c = false := has_bit_clear_bit_self (by omega) hv64
      obtain ⟨hops, hloop, hperm, hsteps, hle, heq⟩ := ih c (t + g.dist r c) (clear_bit v c) hcn
        hvc hbc (by rw [has_bit_clear_bit (by omega) (by omega) hv64, h0]; rfl)
        (by omega) (by omega) (by omega)
      rw [hloop]
      have hmono := estimate_mono hg _ c (clear_bit v c) (next_lookahead K) K (le_refl _) hcn
        hvc hbc (next_lookahead_pos K) (by unfold next_lookahead; split <;> omega)
      refine ⟨c :: hops, ?_, ?_, ⟨hbit, hsteps⟩, ?_, ?_⟩
      · simp only [path_len]
        congr 2
        omega
      · rw [members_clear_bit hn hv64 hcn] at hperm
        exact (List.Perm.cons c hperm).trans
          (List.perm_cons_erase (mem_members.2 ⟨hcn, hbit⟩)).symm
      · simp only [path_len]
        omega
      · intro hK1
        have h1 := heq hK1
        have hnl : next_lookahead K = K := by rw [hK1]; rfl
        rw [hnl] at hest
        simp only [path_len]
        omega

theorem tsp_bounded_route_k_spec {g : Graph} (hg : GoodGraph g) {K : Int} (hK : 1 ≤ K)
    {v : Nat} (h0 : 0 < g.max_city) (hv : v < 2 ^ g.max_city) (hb : has_bit v 0 = false) :
    ∃ hops, tsp_bounded_route_k g K 0 v = .ret (path_len g 0 hops, hops) ∧
      hops.Perm (members g.max_city v) ∧ StepsWithin v hops ∧
      path_len g 0 hops ≤ estimate g 0 v K ∧
      (K = 1 → path_len g 0 hops = estimate g 0 v K) := by
  have hl : (members g.max_city v).length ≤ 64 := le_trans (length_members_le _ _) hg.1
  have hl' : ((members g.max_city v).length : Int) ≤ 64 := by exact_mod_cast hl
  obtain ⟨hops, hrun, hrest⟩ := tsp_bounded_loop_k_spec hg hK MAX_CITY 0 0 v h0 hv hb hb
    hl (le_refl _) (by omega)
  rw [zero_add] at hrun
  exact ⟨hops, hrun, hrest⟩

theorem tsp_bounded_route_eq_k (g : Graph) (s v : Nat) :
    tsp_bounded_route g s v = tsp_bounded_route_k g 10 s v :=
  tsp_bounded_loop_eq_k g MAX_CITY s 0 v

theorem tsp_nearest_neighbor_eq_estimate {g : Graph} (hg : GoodGraph g) {s v : Nat}
    (hs : s < g.max_city) (hv : v < 2 ^ g.max_city) (hb : has_bit v s = false) :
    tsp_nearest_neighbor g s v = .ret (estimate g s v 1) := by
  obtain ⟨⟨b, hrun⟩, _⟩ := tsp2_estimate hg hs hv hb (le_refl (1 : Int))
  unfold tsp_nearest_neighbor
  rw [hrun]

theorem build_coords6 : build coords6 = .ret graph6 := by decide

theorem validCoords_coords6 : ValidCoords coords6 := by decide

/-- C12 (as stated, refuted): on the six cities `(5,5)`, `(6,2)`, `(1,6)`, `(2,3)`, `(1,0)`,
`(3,1)`, from start city 0 with every other city to visit, the route assembler run with
lookahead 2 builds the route `0,1,5,4,3,2` of total 14, and run with lookahead 3 it builds
the route `0,2,3,4,5,1` of total 15. -/
theorem lookahead_not_monotone_counterexample :
    ValidCoords coords6 ∧ build coords6 = .ret graph6 ∧ visit_all 6 0 = 62 ∧
      tsp_bounded_route_k graph6 2 0 62 = .ret (14, [1, 5, 4, 3, 2]) ∧
      tsp_bounded_route_k graph6 3 0 62 = .ret (15, [2, 3, 4, 5, 1]) := by
  refine ⟨by decide, by decide, by decide, by decide!, by decide!⟩

/-- C12 (amended): for every table `main` builds, start city 0, every other city to visit
and lookaheads `1 ≤ K ≤ K'`, the route assembler run with lookahead `K'` returns a total
that is at most the distance estimate `tsp2(0, V, K)`, and that estimate is at most the
total the route assembler returns with lookahead 1; a lookahead above 1 is never worse
than lookahead 1. -/
theorem route_total_le_estimate (xy : List (Int × Int)) (g : Graph) (K K' : Int)
    (hv : ValidCoords xy) (hb : build xy = .ret g) (hK : 1 ≤ K) (hKK : K ≤ K') :
    ∃ hops hops1,
      tsp_bounded_route_k g K' 0 (visit_all xy.length 0) = .ret (path_len g 0 hops, hops) ∧
      tsp_bounded_route_k g 1 0 (visit_all xy.length 0) = .ret (path_len g 0 hops1, hops1) ∧
      (∃ b, tsp2 g MAX_CITY 0 (visit_all xy.length 0) K =
        .ret (estimate g 0 (visit_all xy.length 0) K, b)) ∧
      path_len g 0 hops ≤ estimate g 0 (visit_all xy.length 0) K ∧
      estimate g 0 (visit_all xy.length 0) K ≤ path_len g 0 hops1 := by
  have hg := good_of_build hv hb
  have hmax := built_max_city hb
  have hn1 : 1 ≤ xy.length := by have := hv.1; omega
  have hs : 0 < xy.length := by omega
  have hs' : 0 < g.max_city := by rw [hmax]; exact hs
  have hlt : visit_all xy.length 0 < 2 ^ g.max_city := by
    rw [hmax]; exact visit_all_lt hn1 hv.2.1
  have hbit : has_bit (visit_all xy.length 0) 0 = false := by
    rw [has_bit_visit_all hn1 hv.2.1 hs (by decide)]; simp
  obtain ⟨hops, hroute, _, _, hle, _⟩ :=
    tsp_bounded_route_k_spec hg (le_trans hK hKK) hs' hlt hbit
  obtain ⟨hops1, hroute1, _, _, _, heq⟩ :=
    tsp_bounded_route_k_spec hg (le_refl (1 : Int)) hs' hlt hbit
  refine ⟨hops, hops1, hroute, hroute1, (tsp2_estimate hg hs' hlt hbit hK).1, ?_, ?_⟩
  · exact le_trans hle (estimate_mono hg _ 0 _ K K' (le_refl _) hs' hlt hbit hK hKK)
  · rw [heq rfl]
    exact estimate_mono hg _ 0 _ 1 K (le_refl _) hs' hlt hbit (le_refl _) hK

theorem route_total_le_estimate_witness :
    ValidCoords coords6 ∧ build coords6 = .ret graph6 ∧ (1 : Int) ≤ 2 ∧ (2 : Int) ≤ 3 ∧
      ∃ hops hops1,
        tsp_bounded_route_k graph6 3 0 (visit_all coords6.length 0) =
          .ret (path_len graph6 0 hops, hops) ∧
        tsp_bounded_route_k graph6 1 0 (visit_all coords6.length 0) =
          .ret (path_len graph6 0 hops1, hops1) ∧
        (∃ b, tsp2 graph6 MAX_CITY 0 (visit_all coords6.length 0) 2 =
          .ret (estimate graph6 0 (visit_all coords6.length 0) 2, b)) ∧
        path_len graph6 0 hops ≤ estimate graph6 0 (visit_all coords6.length 0) 2 ∧
        estimate graph6 0 (visit_all coords6.length 0) 2 ≤ path_len graph6 0 hops1 :=
  ⟨by decide, by decide, by decide, by decide,
    route_total_le_estimate coords6 graph6 2 3 (by decide) (by decide) (by decide)
      (by decide)⟩

/-- C13: for every table `main` builds, from start city 0 with every other city to visit,
`tsp_bounded` (lookahead 10) and `tsp_nearest_neighbor` both return, and the total of
`tsp_bounded` is at most the total of `tsp_nearest_neighbor`. -/
theorem tsp_bounded_le_nearest_neighbor (xy : List (Int × Int)) (g : Graph)
    (hv : ValidCoords xy) (hb : build xy = .ret g) :
    ∃ b n, tsp_bounded g 0 (visit_all xy.length 0) = .ret b ∧
      tsp_nearest_neighbor g 0 (visit_all xy.length 0) = .ret n ∧ b ≤ n := by
  have hg := good_of_build hv hb
  have hmax := built_max_city hb
  have hn1 : 1 ≤ xy.length := by have := hv.1; omega
  have hs : 0 < xy.length := by omega
  have hs' : 0 < g.max_city := by rw [hmax]; exact hs
  have hlt : visit_all xy.length 0 < 2 ^ g.max_city := by
    rw [hmax]; exact visit_all_lt hn1 hv.2.1
  have hbit : has_bit (visit_all xy.length 0) 0 = false := by
    rw [has_bit_visit_all hn1 hv.2.1 hs (by decide)]; simp
  obtain ⟨hops, hroute, _, _, hle, _⟩ :=
    tsp_bounded_route_k_spec hg (show (1 : Int) ≤ 10 by decide) hs' hlt hbit
  refine ⟨path_len g 0 hops, estimate g 0 (visit_all xy.length 0) 1, ?_,
    tsp_nearest_neighbor_eq_estimate hg hs' hlt hbit, ?_⟩
  · unfold tsp_bounded
    rw [tsp_bounded_route_eq_k, hroute]
    rfl
  · exact le_trans hle
      (estimate_mono hg _ 0 _ 1 10 (le_refl _) hs' hlt hbit (le_refl _) (by decide))

theorem tsp_bounded_le_nearest_neighbor_witness :
    ValidCoords coords6 ∧ build coords6 = .ret graph6 ∧
      ∃ b n, tsp_bounded graph6 0 (visit_all coords6.length 0) = .ret b ∧
        tsp_nearest_neighbor graph6 0 (visit_all coords6.length 0) = .ret n ∧ b ≤ n :=
  ⟨by decide, by decide, tsp_bounded_le_nearest_neighbor coords6 graph6 (by decide) (by decide)⟩

/-! ## Nearest neighbour -/

theorem built_ranked {xy : List (Int × Int)} {g : Graph} (h : Built xy g) :
    RankedByDistance g := by
  intro i hi a b hab hb
  rw [h.1] at hi hb
  exact (built_sort h hi).2.2 a b hab hb

theorem head_filter_map_range' (f : Nat → Nat) (p : Nat → Bool) (c : Nat) :
    ∀ (len a : Nat), (((List.range' a len).map f).filter p).head? = some c →
    ∃ i, a ≤ i ∧ i < a + len ∧ f i = c ∧ ∀ j, a ≤ j → j < i → p (f j) = false := by
  intro len
  induction len with
  | zero => intro a h; simp at h
  | succ len ih =>
    intro a h
    rw [List.range'_succ, List.map_cons] at h
    by_cases hp : p (f a) = true
    · rw [List.filter_cons_of_pos hp] at h
      simp only [List.head?_cons, Option.some.injEq] at h
      exact ⟨a, le_refl _, by omega, h, fun j h1 h2 => by omega⟩
    · rw [List.filter_cons_of_neg hp] at h
      obtain ⟨i, h1, h2, h3, h4⟩ := ih (a + 1) h
      refine ⟨i, by omega, by omega, h3, ?_⟩
      intro j hj1 hj2
      by_cases hja : j = a
      · subst hja; simpa using hp
      · exact h4 j (by omega) hj2

/-- The first city of the visit set along the ranking of `s` is nearest to `s` among the
cities of the visit set. -/
theorem ranked_head_nearest {g : Graph} (hg : GoodGraph g) (hr : RankedByDistance g)
    {s v c : Nat} (hs : s < g.max_city) (h : (ranked g s v).head? = some c) :
    ∀ c', c' < g.max_city → has_bit v c' = true → g.dist s c ≤ g.dist s c' := by
  intro c' hc' hb'
  unfold ranked at h
  rw [List.range_eq_range'] at h
  obtain ⟨i, _, hi, hfi, hfirst⟩ :=
    head_filter_map_range' (g.sort s) (fun c => has_bit v c) c g.max_city 0 h
  obtain ⟨j, hj, hjc⟩ := (hg.2.2 s hs).2 c' hc'
  have hij : i ≤ j := by
    by_contra hlt
    have := hfirst j (Nat.zero_le _) (by omega)
    simp only [hjc, hb'] at this
    exact Bool.noConfusion this
  rw [← hfi, ← hjc]
  exact hr s hs i j hij hj

theorem head?_of_take_one {l : List Nat} {c : Nat} (h : l.take 1 = [c]) : l.head? = some c := by
  cases l with
  | nil => simp at h
  | cons a l => simp at h; simp [h]

/-- The estimate with lookahead 1 is the length of the greedy path. -/
theorem estimate_one_greedy {g : Graph} (hg : GoodGraph g) (hr : RankedByDistance g) :
    ∀ (n s v : Nat), (members g.max_city v).length ≤ n → s < g.max_city →
    v < 2 ^ g.max_city → has_bit v s = false →
    ∃ p, estimate g s v 1 = path_len g s p ∧ GreedyPath g s v p ∧
      p.Perm (members g.max_city v) := by
  intro n
  induction n with
  | zero =>
    intro s v hlen hs hv hb
    have hv0 : v = 0 := by
      by_contra h0
      exact members_ne_nil hg.1 hv h0 (List.length_eq_zero.1 (Nat.le_zero.1 hlen))
    subst hv0
    exact ⟨[], by rw [estimate_zero g (le_refl _)]; rfl, rfl, by rw [members_zero]⟩
  | succ n ih =>
    intro s v hlen hs hv hb
    by_cases hv0 : v = 0
    · subst hv0
      exact ⟨[], by rw [estimate_zero g (le_refl _)]; rfl, rfl, by rw [members_zero]⟩
    · have hv64 := lt_two_pow_64 hg.1 hv
      obtain ⟨_, _, pre, c, post, hcs, _, hest, _⟩ :=
        tsp2_char hg hs hv hb (le_refl (1 : Int)) hv0
      have hc : c ∈ candidates g s v 1 := by rw [hcs]; simp
      obtain ⟨hcn, hbc⟩ := mem_of_mem_candidates hg hs hc
      have hlen1 := candidates_length hg hs v 1
      have hpos : 0 < (members g.max_city v).length :=
        List.length_pos.2 (members_ne_nil hg.1 hv hv0)
      have hone : (candidates g s v 1).length = 1 := by
        rw [hlen1]
        have : (1 : Int).toNat = 1 := rfl
        rw [this]
        omega
      have hpp : pre = [] ∧ post = [] := by
        rw [hcs] at hone
        simp only [List.length_append, List.length_cons] at hone
        constructor
        · exact List.length_eq_zero.1 (by omega)
        · exact List.length_eq_zero.1 (by omega)
      rw [hpp.1, hpp.2] at hcs
      have hhead : (ranked g s v).head? = some c := by
        apply head?_of_take_one
        have : (candidates g s v 1) = (ranked g s v).take 1 := rfl
        rw [← this, hcs]
        rfl
      have hlen' := length_members_clear_bit hg.1 hv64 hcn hbc
      obtain ⟨p, hp, hgp, hperm⟩ := ih c (clear_bit v c) (by omega) hcn
        (lt_of_le_of_lt (clear_bit_le v c) hv) (has_bit_clear_bit_self (by have := hg.1; omega) hv64)
      have hnl : next_lookahead 1 = 1 := rfl
      rw [hnl] at hest
      refine ⟨c :: p, ?_, ⟨hhead, ranked_head_nearest hg hr hs hhead, hgp⟩, ?_⟩
      · simp only [path_len]
        omega
      · rw [members_clear_bit hg.1 hv64 hcn] at hperm
        exact (List.Perm.cons c hperm).trans
          (List.perm_cons_erase (mem_members.2 ⟨hcn, hbc⟩)).symm

/-- C14: for every table `main` builds, every start city `s` and every visit set within the
cities that does not contain `s`, `tsp_nearest_neighbor(s, V)` returns the length of the
greedy path: from the current city the path moves to the first city of its ranking that is
still unvisited, no unvisited city is nearer to the current city than that one, and this
repeats until every city of `V` is visited.  The loop of `tsp2` run with lookahead 1 makes
its recursive call on that one city only. -/
theorem nearest_neighbor_is_greedy (xy : List (Int × Int)) (g : Graph) (s v : Nat)
    (hv : ValidCoords xy) (hb : build xy = .ret g) (hs : s < xy.length)
    (hvs : v < 2 ^ xy.length) (hbit : has_bit v s = false) :
    (∃ p, tsp_nearest_neighbor g s v = .ret (path_len g s p) ∧ GreedyPath g s v p ∧
      p.Perm (members xy.length v)) ∧
    ∀ (call : Nat → Nat → Int → Outcome (Int × Int)) (s' v' : Nat),
      tsp2_scan g call s' v' 1 (List.range g.max_city) INT32_MAX (-1) 0 =
        tsp2_pick g call s' v' 1 ((ranked g s' v').take 1) INT32_MAX (-1) := by
  have hg := good_of_build hv hb
  have hmax := built_max_city hb
  have hs' : s < g.max_city := by rw [hmax]; exact hs
  have hlt : v < 2 ^ g.max_city := by rw [hmax]; exact hvs
  constructor
  · obtain ⟨p, hp, hgp, hperm⟩ := estimate_one_greedy hg (built_ranked (built_of_build hb))
      _ s v (le_refl _) hs' hlt hbit
    refine ⟨p, ?_, hgp, by rw [← hmax]; exact hperm⟩
    rw [tsp_nearest_neighbor_eq_estimate hg hs' hlt hbit, hp]
  · intro call s' v'
    rw [tsp2_scan_eq_pick g call s' v' 1 (List.range g.max_city) INT32_MAX (-1) 0 (by decide)]
    rfl

theorem nearest_neighbor_is_greedy_witness :
    ValidCoords coords6 ∧ build coords6 = .ret graph6 ∧ 0 < coords6.length ∧
      62 < 2 ^ coords6.length ∧ has_bit 62 0 = false ∧
      ((∃ p, tsp_nearest_neighbor graph6 0 62 = .ret (path_len graph6 0 p) ∧
        GreedyPath graph6 0 62 p ∧ p.Perm (members coords6.length 62)) ∧
      ∀ (call : Nat → Nat → Int → Outcome (Int × Int)) (s' v' : Nat),
        tsp2_scan graph6 call s' v' 1 (List.range graph6.max_city) INT32_MAX (-1) 0 =
          tsp2_pick graph6 call s' v' 1 ((ranked graph6 s' v').take 1) INT32_MAX (-1)) :=
  ⟨by decide, by decide, by decide, by decide, by decide,
    nearest_neighbor_is_greedy coords6 graph6 0 62 (by decide) (by decide) (by decide)
      (by decide) (by decide)⟩

/-! ## The sentinel check -/

/-- In the loop of `tsp2`, the recorded city is still `-1` whenever the recorded distance is
still `INT32_MAX`. -/
theorem tsp2_scan_sentinel (g : Graph) (call : Nat → Nat → Int → Outcome (Int × Int))
    (s v : Nat) (K : Int) :
    ∀ (ps : List Nat) (m0 b0 n0 m b : Int), m0 ≤ INT32_MAX → (m0 = INT32_MAX → b0 = -1) →
    tsp2_scan g call s v K ps m0 b0 n0 = .ret (m, b) → m = INT32_MAX → b = -1 := by
  intro ps
  induction ps with
  | nil =>
    intro m0 b0 n0 m b _ h0 hrun hm
    simp only [tsp2_scan, Outcome.ret.injEq, Prod.mk.injEq] at hrun
    rw [← hrun.2]
    exact h0 (by rw [hrun.1]; exact hm)
  | cons i ps ih =>
    intro m0 b0 n0 m b hle h0 hrun hm
    simp only [tsp2_scan] at hrun
    by_cases hb : has_bit v (g.sort s i) = false
    · rw [if_pos hb] at hrun
      exact ih m0 b0 n0 m b hle h0 hrun hm
    · rw [if_neg hb] at hrun
      cases hc : call (g.sort s i) (clear_bit v (g.sort s i)) (if K > 1 then K - 1 else 1) with
      | fatal => rw [hc] at hrun; cases hrun
      | cutoff => rw [hc] at hrun; cases hrun
      | ret r =>
        obtain ⟨d, b1⟩ := r
        rw [hc] at hrun
        simp only at hrun
        have hle1 : (if int_add (g.dist s (g.sort s i)) d < m0
            then int_add (g.dist s (g.sort s i)) d else m0) ≤ INT32_MAX := by
          split
          · rename_i h; exact le_trans (le_of_lt h) hle
          · exact hle
        have h01 : (if int_add (g.dist s (g.sort s i)) d < m0
            then int_add (g.dist s (g.sort s i)) d else m0) = INT32_MAX →
            (if int_add (g.dist s (g.sort s i)) d < m0
              then ((g.sort s i : Nat) : Int) else b0) = -1 := by
          by_cases hlt : int_add (g.dist s (g.sort s i)) d < m0
          · rw [if_pos hlt, if_pos hlt]
            intro h
            exfalso
            omega
          · rw [if_neg hlt, if_neg hlt]
            exact h0
        by_cases hbrk : n0 + 1 = K
        · rw [if_pos hbrk] at hrun
          simp only [Outcome.ret.injEq, Prod.mk.injEq] at hrun
          rw [← hrun.2]
          exact h01 (by rw [hrun.1]; exact hm)
        · rw [if_neg hbrk] at hrun
          exact ih _ _ _ m b hle1 h01 hrun hm

/-- C15 (as stated, refuted): on the two-city table, `tsp1` from city 0 with the non-empty
visit set `0x20` (no city below `N` in it) finds no candidate; both variants return the
sentinel 2147483647 as a distance instead of ending the run. -/
theorem tsp1_returns_sentinel_counterexample :
    has_bit 32 0 = false ∧ members graph2.max_city 32 = [] ∧
      (tsp1 graph2 1 zero_memo 0 32 false).val = .ret 2147483647 ∧
      (tsp_brute_force graph2 zero_memo 0 32).val = .ret 2147483647 ∧
      (tsp_dyn_prog graph2 zero_memo 0 32).val = .ret 2147483647 := by
  decide

/-- C15 (amended): whenever `tsp2` is called with its start city outside a non-empty visit
set and `K ≥ 1`, and its candidate loop ends with the minimum distance still at the
sentinel `INT32_MAX`, the call ends in `exit(1)` at line 413 and returns no value. -/
theorem tsp2_sentinel_is_fatal (g : Graph) (fuel s v : Nat) (K b : Int)
    (hb : has_bit v s = false) (hK : 1 ≤ K) (hv0 : v ≠ 0)
    (hscan : tsp2_scan g (fun c w k => tsp2 g fuel c w k) s v K (List.range g.max_city)
      INT32_MAX (-1) 0 = .ret (INT32_MAX, b)) :
    tsp2 g (fuel + 1) s v K = .fatal := by
  have hb1 : b = -1 :=
    tsp2_scan_sentinel g _ s v K _ INT32_MAX (-1) 0 INT32_MAX b (le_refl _) (fun _ => rfl)
      hscan rfl
  have hK' : ¬ K < 1 := by omega
  rw [tsp2]
  simp only [hb, Bool.false_eq_true, if_false, hK', hv0, hscan, hb1, if_true]

theorem tsp2_sentinel_is_fatal_witness :
    has_bit 32 0 = false ∧ (1 : Int) ≤ 1 ∧ 32 ≠ 0 ∧
      tsp2_scan graph2 (fun c w k => tsp2 graph2 0 c w k) 0 32 1 (List.range graph2.max_city)
        INT32_MAX (-1) 0 = .ret (INT32_MAX, -1) ∧
      tsp2 graph2 (0 + 1) 0 32 1 = .fatal :=
  ⟨by decide, by decide, by decide, by decide,
    tsp2_sentinel_is_fatal graph2 0 0 32 1 (-1) (by decide) (by decide) (by decide)
      (by decide)⟩

/-! ## The recurrence of `tsp2` -/

theorem next_lookahead_eq_max (K : Int) : next_lookahead K = max (K - 1) 1 := by
  unfold next_lookahead
  split
  · rw [max_eq_left (by omega)]
  · rw [max_eq_right (by omega)]

/-- C19: for every table `main` builds, start city `s`, non-empty visit set within the
cities not containing `s`, and `K ≥ 1`: the candidates of `tsp2(s, V, K)` are the first
`K` cities of `city[s].sort` that are in `V`, in ranking order (cities outside `V` are
skipped without counting); there are `min(K, |V|)` of them; the loop of `tsp2` makes its
recursive call on exactly these cities in this order; every such call, with lookahead
`max(K-1, 1)`, returns; and the distance returned is the least, over the candidates `c`,
of `city[s].dist[c]` plus the distance returned for `c`. -/
theorem tsp2_examines_first_candidates (xy : List (Int × Int)) (g : Graph) (s v : Nat)
    (K : Int) (hv : ValidCoords xy) (hb : build xy = .ret g) (hs : s < xy.length)
    (hvs : v < 2 ^ xy.length) (hbit : has_bit v s = false) (hv0 : v ≠ 0) (hK : 1 ≤ K) :
    candidates g s v K =
      (((List.range xy.length).map (g.sort s)).filter (fun c => has_bit v c)).take K.toNat ∧
    (candidates g s v K).length = min K.toNat (members xy.length v).length ∧
    (∀ c, c ∈ candidates g s v K → c < xy.length ∧ has_bit v c = true) ∧
    (∀ call : Nat → Nat → Int → Outcome (Int × Int),
      tsp2_scan g call s v K (List.range g.max_city) INT32_MAX (-1) 0 =
        tsp2_pick g call s v (max (K - 1) 1) (candidates g s v K) INT32_MAX (-1)) ∧
    ∃ d b, tsp2 g MAX_CITY s v K = .ret (d, b) ∧
      (∀ c, c ∈ candidates g s v K →
        ∃ dc bc, tsp2 g MAX_CITY c (clear_bit v c) (max (K - 1) 1) = .ret (dc, bc) ∧
          d ≤ g.dist s c + dc) ∧
      ∃ c, c ∈ candidates g s v K ∧
        ∃ dc bc, tsp2 g MAX_CITY c (clear_bit v c) (max (K - 1) 1) = .ret (dc, bc) ∧
          d = g.dist s c + dc := by
  have hg := good_of_build hv hb
  have hmax := built_max_city hb
  have hs' : s < g.max_city := by rw [hmax]; exact hs
  have hlt : v < 2 ^ g.max_city := by rw [hmax]; exact hvs
  rw [← next_lookahead_eq_max]
  obtain ⟨hcand, hall, pre, c, post, hcs, hrun, hest, _⟩ := tsp2_char hg hs' hlt hbit hK hv0
  refine ⟨by rw [← hmax]; rfl, by rw [← hmax]; exact candidates_length hg hs' v K, ?_, ?_,
    estimate g s v K, (c : Int), hrun, ?_, c, by rw [hcs]; simp, ?_⟩
  · intro x hx
    rw [← hmax]
    exact mem_of_mem_candidates hg hs' hx
  · intro call
    rw [tsp2_scan_eq_pick g call s v K (List.range g.max_city) INT32_MAX (-1) 0 (by omega)]
    simp only [sub_zero]
    rfl
  · intro x hx
    obtain ⟨bx, hx1⟩ := hcand x hx
    exact ⟨_, bx, hx1, hall x hx⟩
  · obtain ⟨bc, hc1⟩ := hcand c (by rw [hcs]; simp)
    exact ⟨_, bc, hc1, hest⟩

theorem tsp2_examines_first_candidates_witness :
    ValidCoords coords6 ∧ build coords6 = .ret graph6 ∧ 0 < coords6.length ∧
      62 < 2 ^ coords6.length ∧ has_bit 62 0 = false ∧ 62 ≠ 0 ∧ (1 : Int) ≤ 2 ∧
      (candidates graph6 0 62 2 =
        (((List.range coords6.length).map (graph6.sort 0)).filter
          (fun c => has_bit 62 c)).take (2 : Int).toNat ∧
      (candidates graph6 0 62 2).length = min (2 : Int).toNat (members coords6.length 62).length ∧
      (∀ c, c ∈ candidates graph6 0 62 2 → c < coords6.length ∧ has_bit 62 c = true) ∧
      (∀ call : Nat → Nat → Int → Outcome (Int × Int),
        tsp2_scan graph6 call 0 62 2 (List.range graph6.max_city) INT32_MAX (-1) 0 =
          tsp2_pick graph6 call 0 62 (max (2 - 1) 1) (candidates graph6 0 62 2)
            INT32_MAX (-1)) ∧
      ∃ d b, tsp2 graph6 MAX_CITY 0 62 2 = .ret (d, b) ∧
        (∀ c, c ∈ candidates graph6 0 62 2 →
          ∃ dc bc, tsp2 graph6 MAX_CITY c (clear_bit 62 c) (max (2 - 1) 1) = .ret (dc, bc) ∧
            d ≤ graph6.dist 0 c + dc) ∧
        ∃ c, c ∈ candidates graph6 0 62 2 ∧
          ∃ dc bc, tsp2 graph6 MAX_CITY c (clear_bit 62 c) (max (2 - 1) 1) = .ret (dc, bc) ∧
            d = graph6.dist 0 c + dc) :=
  ⟨by decide, by decide, by decide, by decide, by decide, by decide, by decide,
    tsp2_examines_first_candidates coords6 graph6 0 62 2 (by decide) (by decide) (by decide)
      (by decide) (by decide) (by decide) (by decide)⟩

/-- C20: for every table `main` builds, start city `s`, visit set within the cities not
containing `s`, and `K ≥ 1`: for the empty visit set `tsp2` reports distance 0 and city
`-1`; for a non-empty one it reports the candidate `c` whose total `city[s].dist[c]` plus
recursive distance equals the returned minimum and which comes first in the ranking
order of the candidates: every candidate before it has a strictly larger total, every
candidate after it a total that is not smaller.  The result is a function of the table
and the arguments alone. -/
theorem tsp2_reports_first_minimum (xy : List (Int × Int)) (g : Graph) (s v : Nat)
    (K : Int) (hv : ValidCoords xy) (hb : build xy = .ret g) (hs : s < xy.length)
    (hvs : v < 2 ^ xy.length) (hbit : has_bit v s = false) (hK : 1 ≤ K) :
    (v = 0 → tsp2 g MAX_CITY s v K = .ret (0, -1)) ∧
    (v ≠ 0 → ∃ (pre : List Nat) (c : Nat) (post : List Nat) (d : Int),
      candidates g s v K = pre ++ c :: post ∧
      tsp2 g MAX_CITY s v K = .ret (d, (c : Int)) ∧
      (∃ dc bc, tsp2 g MAX_CITY c (clear_bit v c) (max (K - 1) 1) = .ret (dc, bc) ∧
        d = g.dist s c + dc) ∧
      (∀ x, x ∈ pre →
        ∃ dx bx, tsp2 g MAX_CITY x (clear_bit v x) (max (K - 1) 1) = .ret (dx, bx) ∧
          d < g.dist s x + dx) ∧
      ∀ x, x ∈ post →
        ∃ dx bx, tsp2 g MAX_CITY x (clear_bit v x) (max (K - 1) 1) = .ret (dx, bx) ∧
          d ≤ g.dist s x + dx) := by
  have hg := good_of_build hv hb
  have hmax := built_max_city hb
  have hs' : s < g.max_city := by rw [hmax]; exact hs
  have hlt : v < 2 ^ g.max_city := by rw [hmax]; exact hvs
  constructor
  · intro hv0
    subst hv0
    have hK' : ¬ K < 1 := by omega
    rw [show MAX_CITY = 63 + 1 from rfl, tsp2]
    simp [hbit, hK']
  · intro hv0
    rw [← next_lookahead_eq_max]
    obtain ⟨hcand, hall, pre, c, post, hcs, hrun, hest, hpre⟩ :=
      tsp2_char hg hs' hlt hbit hK hv0
    refine ⟨pre, c, post, estimate g s v K, hcs, hrun, ?_, ?_, ?_⟩
    · obtain ⟨bc, hc1⟩ := hcand c (by rw [hcs]; simp)
      exact ⟨_, bc, hc1, hest⟩
    · intro x hx
      obtain ⟨bx, hx1⟩ := hcand x (by rw [hcs]; simp [hx])
      exact ⟨_, bx, hx1, hpre x hx⟩
    · intro x hx
      have hxm : x ∈ candidates g s v K := by rw [hcs]; simp [hx]
      obtain ⟨bx, hx1⟩ := hcand x hxm
      exact ⟨_, bx, hx1, hall x hxm⟩

theorem tsp2_reports_first_minimum_witness :
    ValidCoords coords6 ∧ build coords6 = .ret graph6 ∧ 0 < coords6.length ∧
      62 < 2 ^ coords6.length ∧ has_bit 62 0 = false ∧ (1 : Int) ≤ 3 ∧
      ((62 = 0 → tsp2 graph6 MAX_CITY 0 62 3 = .ret (0, -1)) ∧
      (62 ≠ 0 → ∃ (pre : List Nat) (c : Nat) (post : List Nat) (d : Int),
        candidates graph6 0 62 3 = pre ++ c :: post ∧
        tsp2 graph6 MAX_CITY 0 62 3 = .ret (d, (c : Int)) ∧
        (∃ dc bc, tsp2 graph6 MAX_CITY c (clear_bit 62 c) (max (3 - 1) 1) = .ret (dc, bc) ∧
          d = graph6.dist 0 c + dc) ∧
        (∀ x, x ∈ pre →
          ∃ dx bx, tsp2 graph6 MAX_CITY x (clear_bit 62 x) (max (3 - 1) 1) = .ret (dx, bx) ∧
            d < graph6.dist 0 x + dx) ∧
        ∀ x, x ∈ post →
          ∃ dx bx, tsp2 graph6 MAX_CITY x (clear_bit 62 x) (max (3 - 1) 1) = .ret (dx, bx) ∧
            d ≤ graph6.dist 0 x + dx)) :=
  ⟨by decide, by decide, by decide, by decide, by decide, by decide,
    tsp2_reports_first_minimum coords6 graph6 0 62 3 (by decide) (by decide) (by decide)
      (by decide) (by decide) (by decide)⟩

/-! ## Reachability of the fatal branches, termination -/

/-- C21: for every table `main` builds, start city `s`, visit set within the cities not
containing `s`, and `K ≥ 1`, the call `tsp2(s, V, K)` returns (a fatal exit anywhere in the
recursion would end the whole call), every recursive call it makes has its own start city
outside its visit set and a lookahead of at least 1 and returns as well, and for a
non-empty visit set the city reported is a city of the visit set. -/
theorem tsp2_no_fatal_branch (xy : List (Int × Int)) (g : Graph) (s v : Nat)
    (K : Int) (hv : ValidCoords xy) (hb : build xy = .ret g) (hs : s < xy.length)
    (hvs : v < 2 ^ xy.length) (hbit : has_bit v s = false) (hK : 1 ≤ K) :
    (∃ d b, tsp2 g MAX_CITY s v K = .ret (d, b) ∧
      (v ≠ 0 → ∃ c : Nat, b = (c : Int) ∧ c < xy.length ∧ has_bit v c = true)) ∧
    ∀ c, c ∈ candidates g s v K →
      has_bit (clear_bit v c) c = false ∧ 1 ≤ max (K - 1) 1 ∧
      ∃ dc bc, tsp2 g MAX_CITY c (clear_bit v c) (max (K - 1) 1) = .ret (dc, bc) := by
  have hg := good_of_build hv hb
  have hmax := built_max_city hb
  have hs' : s < g.max_city := by rw [hmax]; exact hs
  have hlt : v < 2 ^ g.max_city := by rw [hmax]; exact hvs
  have hv64 := lt_two_pow_64 hg.1 hlt
  constructor
  · obtain ⟨d, b, hrun, _, h1⟩ := tsp2_spec hg MAX_CITY s v K hs' hlt hbit hK
      (le_trans (length_members_le _ _) hg.1)
    refine ⟨d, b, hrun, ?_⟩
    intro hv0
    obtain ⟨c, hbc, hcn, hbit', _⟩ := h1 hv0
    exact ⟨c, hbc, by rw [← hmax]; exact hcn, hbit'⟩
  · intro c hc
    obtain ⟨hcn, hbc⟩ := mem_of_mem_candidates hg hs' hc
    have hself : has_bit (clear_bit v c) c = false :=
      has_bit_clear_bit_self (by have := hg.1; omega) hv64
    rw [← next_lookahead_eq_max]
    obtain ⟨⟨bc, hrun⟩, _⟩ := tsp2_estimate hg hcn (lt_of_le_of_lt (clear_bit_le v c) hlt)
      hself (next_lookahead_pos K)
    exact ⟨hself, next_lookahead_pos K, _, bc, hrun⟩

theorem tsp2_no_fatal_branch_witness :
    ValidCoords coords6 ∧ build coords6 = .ret graph6 ∧ 0 < coords6.length ∧
      62 < 2 ^ coords6.length ∧ has_bit 62 0 = false ∧ (1 : Int) ≤ 10 ∧
      ((∃ d b, tsp2 graph6 MAX_CITY 0 62 10 = .ret (d, b) ∧
        (62 ≠ 0 → ∃ c : Nat, b = (c : Int) ∧ c < coords6.length ∧ has_bit 62 c = true)) ∧
      ∀ c, c ∈ candidates graph6 0 62 10 →
        has_bit (clear_bit 62 c) c = false ∧ 1 ≤ max ((10 : Int) - 1) 1 ∧
        ∃ dc bc, tsp2 graph6 MAX_CITY c (clear_bit 62 c) (max (10 - 1) 1) = .ret (dc, bc)) :=
  ⟨by decide, by decide, by decide, by decide, by decide, by decide,
    tsp2_no_fatal_branch coords6 graph6 0 62 10 (by decide) (by decide) (by decide)
      (by decide) (by decide) (by decide)⟩

theorem shl1_of_ge {c : Nat} (hc : 64 ≤ c) : shl1 c = 0 := by
  unfold shl1
  rw [Nat.one_shiftLeft]
  apply Nat.mod_eq_zero_of_dvd
  exact Nat.pow_dvd_pow 2 hc

theorem lt_of_has_bit {v c : Nat} (h : has_bit v c = true) : c < 64 := by
  by_contra hge
  unfold has_bit at h
  rw [shl1_of_ge (not_lt.mp hge)] at h
  simp at h

theorem tsp1_scan_no_cutoff (g : Graph) (call : Memo → Nat → Nat → Outcome (Int × Memo))
    (s v : Nat) :
    ∀ (cs : List Nat),
    (∀ mem c, c ∈ cs → has_bit v c = true → call mem c (clear_bit v c) ≠ .cutoff) →
    ∀ (m0 : Int) (mem : Memo), tsp1_scan g call s v cs m0 mem ≠ .cutoff := by
  intro cs
  induction cs with
  | nil => intro _ m0 mem h; simp [tsp1_scan] at h
  | cons c cs ih =>
    intro hcall m0 mem
    have hcall' : ∀ mem c, c ∈ cs → has_bit v c = true →
        call mem c (clear_bit v c) ≠ .cutoff :=
      fun mem c' hc' => hcall mem c' (List.mem_cons_of_mem c hc')
    simp only [tsp1_scan]
    by_cases hb : has_bit v c = false
    · rw [if_pos hb]
      exact ih hcall' m0 mem
    · rw [if_neg hb]
      have hb1 : has_bit v c = true := by simpa using hb
      have hne := hcall mem c (List.mem_cons_self c cs) hb1
      cases hc : call mem c (clear_bit v c) with
      | cutoff => exact absurd hc hne
      | fatal => simp
      | ret r =>
        obtain ⟨d, mem'⟩ := r
        exact ih hcall' _ _

theorem tsp2_scan_no_cutoff (g : Graph) (call : Nat → Nat → Int → Outcome (Int × Int))
    (s v : Nat) (K : Int) :
    ∀ (ps : List Nat),
    (∀ i k, i ∈ ps → has_bit v (g.sort s i) = true →
      call (g.sort s i) (clear_bit v (g.sort s i)) k ≠ .cutoff) →
    ∀ (m0 b0 n0 : Int), tsp2_scan g call s v K ps m0 b0 n0 ≠ .cutoff := by
  intro ps
  induction ps with
  | nil => intro _ m0 b0 n0 h; simp [tsp2_scan] at h
  | cons i ps ih =>
    intro hcall m0 b0 n0
    have hcall' : ∀ j k, j ∈ ps → has_bit v (g.sort s j) = true →
        call (g.sort s j) (clear_bit v (g.sort s j)) k ≠ .cutoff :=
      fun j k hj => hcall j k (List.mem_cons_of_mem i hj)
    simp only [tsp2_scan]
    by_cases hb : has_bit v (g.sort s i) = false
    · rw [if_pos hb]
      exact ih hcall' m0 b0 n0
    · rw [if_neg hb]
      have hb1 : has_bit v (g.sort s i) = true := by simpa using hb
      have hne := hcall i (if K > 1 then K - 1 else 1) (List.mem_cons_self i ps) hb1
      cases hc : call (g.sort s i) (clear_bit v (g.sort s i)) (if K > 1 then K - 1 else 1) with
      | cutoff => exact absurd hc hne
      | fatal => simp
      | ret r =>
        obtain ⟨d, b1⟩ := r
        simp only
        split
        · simp
        · exact ih hcall' _ _ _

theorem members64_ne_nil {v : Nat} (hv : v < 2 ^ 64) (h0 : v ≠ 0) : members 64 v ≠ [] :=
  members_ne_nil (le_refl 64) hv h0

/-- Both variants of `tsp1` finish within as many levels of recursion as the visit set has
bits, on any table and memo content. -/
theorem tsp1_no_cutoff (g : Graph) (dp : Bool) :
    ∀ (fuel : Nat) (mem : Memo) (s v : Nat), v < 2 ^ 64 → (members 64 v).length ≤ fuel →
    tsp1 g fuel mem s v dp ≠ .cutoff := by
  intro fuel
  induction fuel with
  | zero =>
    intro mem s v hv hlen
    have hv0 : v = 0 := by
      by_contra h0
      exact members64_ne_nil hv h0 (List.length_eq_zero.1 (Nat.le_zero.1 hlen))
    subst hv0
    have hb : has_bit 0 s = false := by simp [has_bit]
    unfold tsp1
    simp only [hb, Bool.false_eq_true, if_false, if_true]
    simp
  | succ fuel ih =>
    intro mem s v hv hlen
    by_cases hb : has_bit v s = true
    · unfold tsp1
      simp only [hb, if_true]
      simp
    · have hb0 : has_bit v s = false := by simpa using hb
      unfold tsp1
      simp only [hb0, Bool.false_eq_true, if_false]
      generalize (if (dp && s == 0) = true then zero_saved g.max_city mem else mem) = saved1
      by_cases hv0 : v = 0
      · rw [if_pos hv0]; simp
      · rw [if_neg hv0]
        by_cases hhit : (dp && saved1 s v != 0) = true
        · rw [if_pos hhit]; simp
        · rw [if_neg hhit]
          have hscan := tsp1_scan_no_cutoff g (fun m c w => tsp1 g fuel m c w dp) s v
            (List.range g.max_city)
            (by
              intro mem0 c _ hbc
              have hc := lt_of_has_bit hbc
              have := length_members_clear_bit (le_refl 64) hv hc hbc
              exact ih mem0 c (clear_bit v c) (lt_of_le_of_lt (clear_bit_le v c) hv)
                (by omega))
            INT32_MAX saved1
          cases hc : tsp1_scan g (fun m c w => tsp1 g fuel m c w dp) s v
              (List.range g.max_city) INT32_MAX saved1 with
          | cutoff => exact absurd hc hscan
          | fatal => simp
          | ret r => obtain ⟨m, mem2⟩ := r; simp

/-- A call of `tsp2` finishes within as many levels of recursion as the visit set has bits,
on any table. -/
theorem tsp2_no_cutoff (g : Graph) :
    ∀ (fuel s v : Nat) (K : Int), v < 2 ^ 64 → (members 64 v).length ≤ fuel →
    tsp2 g fuel s v K ≠ .cutoff := by
  intro fuel
  induction fuel with
  | zero =>
    intro s v K hv hlen
    have hv0 : v = 0 := by
      by_contra h0
      exact members64_ne_nil hv h0 (List.length_eq_zero.1 (Nat.le_zero.1 hlen))
    rw [tsp2_of_guard g s v K (Or.inr (Or.inr hv0)) 0 1, tsp2]
    subst hv0
    have hb : has_bit 0 s = false := by simp [has_bit]
    simp only [hb, Bool.false_eq_true, if_false, if_true]
    split <;> simp
  | succ fuel ih =>
    intro s v K hv hlen
    by_cases hguard : has_bit v s = true ∨ K < 1 ∨ v = 0
    · rw [tsp2]
      rcases hguard with h | h | h
      · simp only [h, if_true]; simp
      · simp only [h, if_true]; split <;> simp
      · simp only [h, if_true]; split <;> (try split) <;> simp
    · have hb : has_bit v s = false := by
        cases h : has_bit v s
        · rfl
        · exact absurd (Or.inl h) hguard
      have hK : ¬ K < 1 := fun h => hguard (Or.inr (Or.inl h))
      have hv0 : v ≠ 0 := fun h => hguard (Or.inr (Or.inr h))
      rw [tsp2]
      simp only [hb, Bool.false_eq_true, if_false, hK, hv0]
      have hscan := tsp2_scan_no_cutoff g (fun c w k => tsp2 g fuel c w k) s v K
        (List.range g.max_city)
        (by
          intro i k _ hbc
          have hc := lt_of_has_bit hbc
          have := length_members_clear_bit (le_refl 64) hv hc hbc
          exact ih _ (clear_bit v _) k (lt_of_le_of_lt (clear_bit_le v _) hv)
            (by omega))
        INT32_MAX (-1) 0
      cases hc : tsp2_scan g (fun c w k => tsp2 g fuel c w k) s v K
          (List.range g.max_city) INT32_MAX (-1) 0 with
      | cutoff => exact absurd hc hscan
      | fatal => simp
      | ret r =>
        obtain ⟨m, b⟩ := r
        simp only
        split <;> simp

/-- C22: `tsp1` (both variants) and `tsp2` terminate on every table, memo content and
arguments, in particular whenever the start city is not in the visit set: a recursive call
is made only for a city whose bit is set, on the caller's visit set with exactly that bit
cleared, so the number of set bits drops by one at each level and a recursion depth equal
to the number of set bits of the visit set is enough. -/
theorem tsp_recursion_terminates (g : Graph) (fuel : Nat) (saved : Memo) (s v : Nat)
    (dyn_prog : Bool) (K : Int) (hv : v < 2 ^ 64) (hfuel : (members 64 v).length ≤ fuel) :
    tsp1 g fuel saved s v dyn_prog ≠ .cutoff ∧ tsp2 g fuel s v K ≠ .cutoff ∧
      ∀ c, has_bit v c = true →
        members 64 (clear_bit v c) = (members 64 v).erase c ∧
        (members 64 (clear_bit v c)).length + 1 = (members 64 v).length ∧
        clear_bit v c < v := by
  refine ⟨tsp1_no_cutoff g dyn_prog fuel saved s v hv hfuel, tsp2_no_cutoff g fuel s v K hv hfuel,
    ?_⟩
  intro c hbc
  have hc := lt_of_has_bit hbc
  refine ⟨members_clear_bit (le_refl 64) hv hc,
    length_members_clear_bit (le_refl 64) hv hc hbc, ?_⟩
  apply lt_of_le_of_ne (clear_bit_le v c)
  intro h
  have := has_bit_clear_bit_self hc hv
  rw [h, hbc] at this
  exact Bool.noConfusion this

theorem tsp_recursion_terminates_witness :
    62 < 2 ^ 64 ∧ (members 64 62).length ≤ 5 ∧
      (tsp1 graph6 5 zero_memo 0 62 true ≠ .cutoff ∧ tsp2 graph6 5 0 62 10 ≠ .cutoff ∧
      ∀ c, has_bit 62 c = true →
        members 64 (clear_bit 62 c) = (members 64 62).erase c ∧
        (members 64 (clear_bit 62 c)).length + 1 = (members 64 62).length ∧
        clear_bit 62 c < 62) :=
  ⟨by decide, by decide,
    tsp_recursion_terminates graph6 5 zero_memo 0 62 true 10 (by decide) (by decide)⟩

/-! ## Full lookahead -/

theorem candidates_eq_ranked {g : Graph} (hg : GoodGraph g) {s : Nat} (hs : s < g.max_city)
    {v : Nat} {K : Int} (hK : ((members g.max_city v).length : Int) ≤ K) :
    candidates g s v K = ranked g s v := by
  unfold candidates
  apply List.take_of_length_le
  rw [(ranked_perm hg hs v).length_eq]
  omega

/-- With a lookahead at least the size of the visit set, the estimate of `tsp2` is the
least open-path length. -/
theorem estimate_exact {g : Graph} (hg : GoodGraph g) :
    ∀ (n s v : Nat) (K : Int), (members g.max_city v).length ≤ n → s < g.max_city →
    v < 2 ^ g.max_city → has_bit v s = false → 1 ≤ K →
    ((members g.max_city v).length : Int) ≤ K →
    IsShortest g s (members g.max_city v) (estimate g s v K) := by
  intro n
  induction n with
  | zero =>
    intro s v K hlen hs hv hb hK _
    have hv0 : v = 0 := by
      by_contra h0
      exact members_ne_nil hg.1 hv h0 (List.length_eq_zero.1 (Nat.le_zero.1 hlen))
    subst hv0
    rw [estimate_zero g hK, members_zero]
    exact isShortest_nil g s
  | succ n ih =>
    intro s v K hlen hs hv hb hK hKv
    by_cases hv0 : v = 0
    · subst hv0
      rw [estimate_zero g hK, members_zero]
      exact isShortest_nil g s
    · have hv64 := lt_two_pow_64 hg.1 hv
      obtain ⟨_, hall, pre, c, post, hcs, _, hest, _⟩ := tsp2_char hg hs hv hb hK hv0
      have hcr := candidates_eq_ranked hg hs hKv
      have hsub : ∀ x, x ∈ members g.max_city v →
          IsShortest g x ((members g.max_city v).erase x)
            (estimate g x (clear_bit v x) (next_lookahead K)) := by
        intro x hx
        obtain ⟨hxn, hbx⟩ := mem_members.1 hx
        have hlen' := length_members_clear_bit hg.1 hv64 hxn hbx
        rw [← members_clear_bit hg.1 hv64 hxn]
        apply ih x (clear_bit v x) (next_lookahead K) (by omega) hxn
          (lt_of_le_of_lt (clear_bit_le v x) hv)
          (has_bit_clear_bit_self (by have := hg.1; omega) hv64) (next_lookahead_pos K)
        have hcast : ((members g.max_city v).length : Int) =
            ((members g.max_city (clear_bit v x)).length : Int) + 1 := by
          rw [← hlen']; push_cast; rfl
        unfold next_lookahead
        split <;> omega
      have hmem : ∀ x, x ∈ candidates g s v K ↔ x ∈ members g.max_city v := by
        intro x
        rw [hcr, (ranked_perm hg hs v).mem_iff]
      apply isShortest_step
      · exact ⟨c, (hmem c).1 (by rw [hcs]; simp), _, hsub c ((hmem c).1 (by rw [hcs]; simp)),
          hest⟩
      · intro x hx
        exact ⟨_, hsub x hx, hall x ((hmem x).2 hx)⟩

/-- C26: for every table `main` builds, start city `s`, visit set within the cities not
containing `s`, and lookahead `K ≥ max(|V|, 1)`, `tsp2(s, V, K)` returns the distance
`tsp1(s, V)` returns without memo (the brute-force optimum). -/
theorem tsp2_full_lookahead_exact (xy : List (Int × Int)) (g : Graph) (saved : Memo)
    (s v : Nat) (K : Int) (hv : ValidCoords xy) (hb : build xy = .ret g) (hs : s < xy.length)
    (hvs : v < 2 ^ xy.length) (hbit : has_bit v s = false)
    (hK : max ((members xy.length v).length : Int) 1 ≤ K) :
    ∃ d b, tsp2 g MAX_CITY s v K = .ret (d, b) ∧
      (tsp1 g MAX_CITY saved s v false).val = .ret d := by
  have hg := good_of_build hv hb
  have hmax := built_max_city hb
  have hs' : s < g.max_city := by rw [hmax]; exact hs
  have hlt : v < 2 ^ g.max_city := by rw [hmax]; exact hvs
  have hK1 : 1 ≤ K := le_trans (le_max_right _ _) hK
  have hKv : ((members g.max_city v).length : Int) ≤ K := by
    rw [hmax]; exact le_trans (le_max_left _ _) hK
  obtain ⟨⟨b, hrun⟩, _⟩ := tsp2_estimate hg hs' hlt hbit hK1
  have hex := estimate_exact hg _ s v K (le_refl _) hs' hlt hbit hK1 hKv
  obtain ⟨m, hbf, hsh⟩ := tsp_brute_force_spec hg saved hs' hlt hbit
  have : estimate g s v K = m := isShortest_unique hex hsh
  refine ⟨estimate g s v K, b, hrun, ?_⟩
  rw [this]
  exact outcome_val_ret hbf

theorem tsp2_full_lookahead_exact_witness :
    ValidCoords coords6 ∧ build coords6 = .ret graph6 ∧ 0 < coords6.length ∧
      62 < 2 ^ coords6.length ∧ has_bit 62 0 = false ∧
      max ((members coords6.length 62).length : Int) 1 ≤ 5 ∧
      ∃ d b, tsp2 graph6 MAX_CITY 0 62 5 = .ret (d, b) ∧
        (tsp1 graph6 MAX_CITY zero_memo 0 62 false).val = .ret d :=
  ⟨by decide, by decide, by decide, by decide, by decide, by decide,
    tsp2_full_lookahead_exact coords6 graph6 zero_memo 0 62 5 (by decide) (by decide)
      (by decide) (by decide) (by decide) (by decide)⟩

/-- C27: for every table `main` builds from 2 to 11 cities, from start city 0 with every
other city to visit, the route built hop by hop by `tsp_bounded` (lookahead 10) is
optimal: `tsp_bounded` and `tsp_brute_force` return the same value. -/
theorem tsp_bounded_optimal_small (xy : List (Int × Int)) (g : Graph) (saved : Memo)
    (hv : ValidCoords xy) (hn : xy.length ≤ 11) (hb : build xy = .ret g) :
    ∃ d, tsp_bounded g 0 (visit_all xy.length 0) = .ret d ∧
      (tsp_brute_force g saved 0 (visit_all xy.length 0)).val = .ret d := by
  have hg := good_of_build hv hb
  have hmax := built_max_city hb
  have hn1 : 1 ≤ xy.length := by have := hv.1; omega
  have hs : 0 < xy.length := by omega
  have hs' : 0 < g.max_city := by rw [hmax]; exact hs
  have hlt : visit_all xy.length 0 < 2 ^ g.max_city := by
    rw [hmax]; exact visit_all_lt hn1 hv.2.1
  have hbit : has_bit (visit_all xy.length 0) 0 = false := by
    rw [has_bit_visit_all hn1 hv.2.1 hs (by decide)]; simp
  obtain ⟨hops, hroute, hperm, _, hle, _⟩ :=
    tsp_bounded_route_k_spec hg (show (1 : Int) ≤ 10 by decide) hs' hlt hbit
  have hlen : (members g.max_city (visit_all xy.length 0)).length = xy.length - 1 := by
    rw [hmax, members_visit_all hn1 hv.2.1 hs,
      List.length_erase_of_mem (List.mem_range.2 hs), List.length_range]
  have hex := estimate_exact hg _ 0 (visit_all xy.length 0) 10 (le_refl _) hs' hlt hbit
    (by decide) (by rw [hlen]; omega)
  obtain ⟨m, hbf, hsh⟩ := tsp_brute_force_spec hg saved hs' hlt hbit
  have h1 : estimate g 0 (visit_all xy.length 0) 10 = m := isShortest_unique hex hsh
  have h2 : m ≤ path_len g 0 hops := hsh.2 hops hperm
  have h3 : path_len g 0 hops = m := by omega
  refine ⟨m, ?_, outcome_val_ret hbf⟩
  unfold tsp_bounded
  rw [tsp_bounded_route_eq_k, hroute, h3]
  rfl

theorem tsp_bounded_optimal_small_witness :
    ValidCoords coords6 ∧ coords6.length ≤ 11 ∧ build coords6 = .ret graph6 ∧
      ∃ d, tsp_bounded graph6 0 (visit_all coords6.length 0) = .ret d ∧
        (tsp_brute_force graph6 zero_memo 0 (visit_all coords6.length 0)).val = .ret d :=
  ⟨by decide, by decide, by decide,
    tsp_bounded_optimal_small coords6 graph6 zero_memo (by decide) (by decide) (by decide)⟩

/-- C24: for every city count `N` from 2 to 64, the driver's visit set for start city 0,
`(2 * (1L << (N-1)) - 1) & ~(1L << 0)` in wrapping 64-bit arithmetic, has exactly the
bits `1 .. N-1` set: bit 0 is clear and no bit at `N` or above is set, also at `N = 64`. -/
theorem driver_visit_set_bits (n : Nat) (hn2 : 2 ≤ n) (hn : n ≤ 64) :
    visit_all n 0 < 2 ^ 64 ∧
      (∀ i, (visit_all n 0).testBit i = decide (1 ≤ i ∧ i < n)) ∧
      ∀ i, i < 64 → has_bit (visit_all n 0) i = decide (1 ≤ i ∧ i < n) := by
  have hlt := visit_all_lt (s := 0) (show 1 ≤ n by omega) hn
  have h64 := lt_two_pow_64 hn hlt
  have hbits : ∀ i, i < 64 → has_bit (visit_all n 0) i = decide (1 ≤ i ∧ i < n) := by
    intro i hi
    rw [has_bit_visit_all (by omega) hn (by omega) hi]
    by_cases h1 : i < n <;> by_cases h2 : i = 0 <;> simp [h1, h2] <;> omega
  refine ⟨h64, ?_, hbits⟩
  intro i
  by_cases hi : i < 64
  · rw [← has_bit_eq hi, hbits i hi]
  · rw [Nat.testBit_lt_two_pow
      (lt_of_lt_of_le h64 (Nat.pow_le_pow_right (by decide) (not_lt.mp hi)))]
    have : ¬ (1 ≤ i ∧ i < n) := by omega
    simp [this]

theorem driver_visit_set_bits_witness :
    2 ≤ 64 ∧ 64 ≤ 64 ∧
      (visit_all 64 0 < 2 ^ 64 ∧
      (∀ i, (visit_all 64 0).testBit i = decide (1 ≤ i ∧ i < 64)) ∧
      ∀ i, i < 64 → has_bit (visit_all 64 0) i = decide (1 ≤ i ∧ i < 64)) :=
  ⟨by decide, by decide, driver_visit_set_bits 64 (by decide) (by decide)⟩

/-! ## The memo table after a run -/

theorem tsp1_scan_preserves (g : Graph) (call : Memo → Nat → Nat → Outcome (Int × Memo))
    (s v : Nat) (P : Memo → Prop) :
    ∀ (cs : List Nat),
    (∀ mem c d mem', c ∈ cs → has_bit v c = true → P mem →
      call mem c (clear_bit v c) = .ret (d, mem') → P mem') →
    ∀ (m0 : Int) (mem : Memo) (m : Int) (mem' : Memo), P mem →
    tsp1_scan g call s v cs m0 mem = .ret (m, mem') → P mem' := by
  intro cs
  induction cs with
  | nil =>
    intro _ m0 mem m mem' hP hrun
    simp only [tsp1_scan, Outcome.ret.injEq, Prod.mk.injEq] at hrun
    rw [← hrun.2]; exact hP
  | cons c cs ih =>
    intro hcall m0 mem m mem' hP hrun
    have hcall' : ∀ mem c d mem', c ∈ cs → has_bit v c = true → P mem →
        call mem c (clear_bit v c) = .ret (d, mem') → P mem' :=
      fun mem c' d mem' hc' => hcall mem c' d mem' (List.mem_cons_of_mem c hc')
    simp only [tsp1_scan] at hrun
    by_cases hb : has_bit v c = false
    · rw [if_pos hb] at hrun
      exact ih hcall' m0 mem m mem' hP hrun
    · rw [if_neg hb] at hrun
      have hb1 : has_bit v c = true := by simpa using hb
      cases hc : call mem c (clear_bit v c) with
      | cutoff => rw [hc] at hrun; cases hrun
      | fatal => rw [hc] at hrun; cases hrun
      | ret r =>
        obtain ⟨d, mem1⟩ := r
        rw [hc] at hrun
        exact ih hcall' _ mem1 m mem' (hcall mem c d mem1 (List.mem_cons_self c cs) hb1 hP hc)
          hrun

theorem memoKeys_zero_saved {g : Graph} {saved : Memo} (h : MemoKeys g saved) :
    MemoKeys g (zero_saved g.max_city saved) := by
  intro c w hne
  unfold zero_saved at hne
  split at hne
  · exact absurd rfl hne
  · exact h c w hne

theorem memoKeys_store {g : Graph} {saved : Memo} (h : MemoKeys g saved) {s v : Nat} (m : Int)
    (hs : s < g.max_city) (hv : v < 2 ^ g.max_city) (hb : has_bit v s = false) :
    MemoKeys g (store saved s v m) := by
  intro c w hne
  unfold store at hne
  split at hne
  · rename_i hk
    rw [hk.1, hk.2]
    exact ⟨hs, hv, hb⟩
  · exact h c w hne

/-- A memoised call keeps the non-zero entries at valid keys, and leaves its own result in
the entry of its key. -/
theorem tsp1_dyn_keys {g : Graph} (hn : g.max_city ≤ 64) :
    ∀ (fuel : Nat) (mem : Memo) (s v : Nat) (m : Int) (mem' : Memo), s < g.max_city →
    v < 2 ^ g.max_city → has_bit v s = false → MemoKeys g mem →
    tsp1 g fuel mem s v true = .ret (m, mem') →
    MemoKeys g mem' ∧ (v ≠ 0 → mem' s v = m) := by
  intro fuel
  induction fuel with
  | zero =>
    intro mem s v m mem' hs hv hb hkeys hrun
    unfold tsp1 at hrun
    simp only [hb, Bool.false_eq_true, if_false, Bool.true_and] at hrun
    generalize hsaved1 : (if (s == 0) = true then zero_saved g.max_city mem else mem)
      = saved1 at hrun
    have hk1 : MemoKeys g saved1 := by
      rw [← hsaved1]; split
      · exact memoKeys_zero_saved hkeys
      · exact hkeys
    by_cases hv0 : v = 0
    · rw [if_pos hv0] at hrun
      simp only [Outcome.ret.injEq, Prod.mk.injEq] at hrun
      rw [← hrun.2]
      exact ⟨hk1, fun h => absurd hv0 h⟩
    · rw [if_neg hv0] at hrun
      by_cases hhit : (saved1 s v != 0) = true
      · rw [if_pos hhit] at hrun
        simp only [Outcome.ret.injEq, Prod.mk.injEq] at hrun
        rw [← hrun.2, ← hrun.1]
        exact ⟨hk1, fun _ => rfl⟩
      · rw [if_neg hhit] at hrun
        cases hrun
  | succ fuel ih =>
    intro mem s v m mem' hs hv hb hkeys hrun
    have hv64 := lt_two_pow_64 hn hv
    unfold tsp1 at hrun
    simp only [hb, Bool.false_eq_true, if_false, Bool.true_and] at hrun
    generalize hsaved1 : (if (s == 0) = true then zero_saved g.max_city mem else mem)
      = saved1 at hrun
    have hk1 : MemoKeys g saved1 := by
      rw [← hsaved1]; split
      · exact memoKeys_zero_saved hkeys
      · exact hkeys
    by_cases hv0 : v = 0
    · rw [if_pos hv0] at hrun
      simp only [Outcome.ret.injEq, Prod.mk.injEq] at hrun
      rw [← hrun.2]
      exact ⟨hk1, fun h => absurd hv0 h⟩
    · rw [if_neg hv0] at hrun
      by_cases hhit : (saved1 s v != 0) = true
      · rw [if_pos hhit] at hrun
        simp only [Outcome.ret.injEq, Prod.mk.injEq] at hrun
        rw [← hrun.2, ← hrun.1]
        exact ⟨hk1, fun _ => rfl⟩
      · rw [if_neg hhit] at hrun
        cases hsc : tsp1_scan g (fun m c w => tsp1 g fuel m c w true) s v
            (List.range g.max_city) INT32_MAX saved1 with
        | cutoff => rw [hsc] at hrun; cases hrun
        | fatal => rw [hsc] at hrun; cases hrun
        | ret r =>
          obtain ⟨m2, mem2⟩ := r
          rw [hsc] at hrun
          simp only [if_true, Outcome.ret.injEq, Prod.mk.injEq] at hrun
          have hk2 : MemoKeys g mem2 :=
            tsp1_scan_preserves g _ s v (MemoKeys g) (List.range g.max_city)
              (by
                intro mem0 c d mem0' hc hbc hP hcall
                have hc' : c < g.max_city := List.mem_range.1 hc
                exact (ih mem0 c (clear_bit v c) d mem0' hc'
                  (lt_of_le_of_lt (clear_bit_le v c) hv)
                  (has_bit_clear_bit_self (by omega) hv64) hP hcall).1)
              INT32_MAX saved1 m2 mem2 hk1 hsc
          rw [← hrun.2, ← hrun.1]
          refine ⟨memoKeys_store hk2 m2 hs hv hb, fun _ => ?_⟩
          simp [store]

theorem memoKeys_zero_memo (g : Graph) : MemoKeys g zero_memo := by
  intro c w hne
  exact absurd rfl hne

/-- C23: after a dynamic-programming run started from the all-zero memo table (on a table
`main` builds with at most 22 cities), every non-zero entry `saved_solution[c][W]` has a
city `c` below `N` that is not in `W`, a visit set `W` within the cities, and equals the
value `tsp_brute_force(c, W)` returns, so a memo hit returns what a recomputation would;
and the result of the run for a non-empty visit set is in the table at the key of the
run when it returns. -/
theorem memo_entries_are_exact (xy : List (Int × Int)) (g : Graph) (s v : Nat)
    (hv : ValidCoords xy) (_hn : xy.length ≤ MAX_CITY_DYN_PROG) (hb : build xy = .ret g)
    (hs : s < xy.length) (hvs : v < 2 ^ xy.length) (hbit : has_bit v s = false) :
    ∃ m mem', tsp_dyn_prog g zero_memo s v = .ret (m, mem') ∧
      (v ≠ 0 → mem' s v = m) ∧
      ∀ c w, mem' c w ≠ 0 →
        c < xy.length ∧ w < 2 ^ xy.length ∧ has_bit w c = false ∧
        ∀ saved, (tsp_brute_force g saved c w).val = .ret (mem' c w) := by
  have hg := good_of_build hv hb
  have hmax := built_max_city hb
  have hs' : s < g.max_city := by rw [hmax]; exact hs
  have hlt : v < 2 ^ g.max_city := by rw [hmax]; exact hvs
  obtain ⟨m, mem', hrun, _, hinv⟩ := tsp_dyn_prog_spec hg zero_memo hs' hlt hbit
    (fun _ => memoInv_zero_memo g)
  obtain ⟨hkeys, hstored⟩ := tsp1_dyn_keys hg.1 MAX_CITY zero_memo s v m mem' hs' hlt hbit
    (memoKeys_zero_memo g) hrun
  refine ⟨m, mem', hrun, hstored, ?_⟩
  intro c w hne
  obtain ⟨hc, hw, hbw⟩ := hkeys c w hne
  refine ⟨by rw [← hmax]; exact hc, by rw [← hmax]; exact hw, hbw, ?_⟩
  intro saved
  obtain ⟨m1, hbf, hsh⟩ := tsp_brute_force_spec hg saved hc hw hbw
  have : m1 = mem' c w := isShortest_unique hsh (hinv c w hc hw hne)
  rw [← this]
  exact outcome_val_ret hbf

theorem memo_entries_are_exact_witness :
    ValidCoords coords6 ∧ coords6.length ≤ MAX_CITY_DYN_PROG ∧ build coords6 = .ret graph6 ∧
      0 < coords6.length ∧ 62 < 2 ^ coords6.length ∧ has_bit 62 0 = false ∧
      ∃ m mem', tsp_dyn_prog graph6 zero_memo 0 62 = .ret (m, mem') ∧
        (62 ≠ 0 → mem' 0 62 = m) ∧
        ∀ c w, mem' c w ≠ 0 →
          c < coords6.length ∧ w < 2 ^ coords6.length ∧ has_bit w c = false ∧
          ∀ saved, (tsp_brute_force graph6 saved c w).val = .ret (mem' c w) :=
  ⟨by decide, by decide, by decide, by decide, by decide, by decide,
    memo_entries_are_exact coords6 graph6 0 62 (by decide) (by decide) (by decide)
      (by decide) (by decide) (by decide)⟩

/-! ## The driver -/

/-- C25: for every city count from 2 to 64 and every entry of `alg_table`, the driver calls
the solver exactly when `max_city` is at most the entry's bound (13 for brute force, 22
for dynamic programming, 64 for the two heuristics), on start city 0 and the visit set of
line 174; above the bound no call is made and the entry is reported as `not_run`; so
`tsp_dyn_prog` is entered only with `max_city ≤ 22`. -/
theorem driver_runs_within_bound (g : Graph) (saved : Memo) (alg : Alg)
    (_h2 : 2 ≤ g.max_city) (_h64 : g.max_city ≤ MAX_CITY) :
    (g.max_city ≤ alg.bound →
      run_alg g saved alg = some (alg.proc g saved 0 (visit_all g.max_city 0))) ∧
    (alg.bound < g.max_city → run_alg g saved alg = none) ∧
    ((run_alg g saved alg).isSome = true ↔ g.max_city ≤ alg.bound) ∧
    (∀ rest, alg.bound < g.max_city →
      run_algs g (alg :: rest) saved = (alg, none) :: run_algs g rest saved) ∧
    Alg.bound .brute_force = 13 ∧ Alg.bound .dyn_prog = 22 ∧ Alg.bound .bounded = 64 ∧
    Alg.bound .nearest_neighbor = 64 ∧
    ((run_alg g saved .dyn_prog).isSome = true → g.max_city ≤ 22) := by
  have hpos : g.max_city ≤ alg.bound →
      run_alg g saved alg = some (alg.proc g saved 0 (visit_all g.max_city 0)) := by
    intro h; unfold run_alg; rw [if_pos h]
  have hneg : alg.bound < g.max_city → run_alg g saved alg = none := by
    intro h; unfold run_alg; rw [if_neg (by omega)]
  have hiff : ∀ a : Alg, (run_alg g saved a).isSome = true ↔ g.max_city ≤ a.bound := by
    intro a
    unfold run_alg
    split <;> simp [*]
  refine ⟨hpos, hneg, hiff alg, ?_, rfl, rfl, rfl, rfl, ?_⟩
  · intro rest h
    rw [run_algs, hneg h]
  · intro h
    exact (hiff .dyn_prog).1 h

theorem driver_runs_within_bound_witness :
    2 ≤ graph6.max_city ∧ graph6.max_city ≤ MAX_CITY ∧
      ((graph6.max_city ≤ Alg.bound .dyn_prog →
        run_alg graph6 zero_memo .dyn_prog =
          some (Alg.proc graph6 zero_memo 0 (visit_all graph6.max_city 0) .dyn_prog)) ∧
      (Alg.bound .dyn_prog < graph6.max_city → run_alg graph6 zero_memo .dyn_prog = none) ∧
      ((run_alg graph6 zero_memo .dyn_prog).isSome = true ↔
        graph6.max_city ≤ Alg.bound .dyn_prog) ∧
      (∀ rest, Alg.bound .dyn_prog < graph6.max_city →
        run_algs graph6 (.dyn_prog :: rest) zero_memo =
          (.dyn_prog, none) :: run_algs graph6 rest zero_memo) ∧
      Alg.bound .brute_force = 13 ∧ Alg.bound .dyn_prog = 22 ∧ Alg.bound .bounded = 64 ∧
      Alg.bound .nearest_neighbor = 64 ∧
      ((run_alg graph6 zero_memo .dyn_prog).isSome = true → graph6.max_city ≤ 22)) :=
  ⟨by decide, by decide,
    driver_runs_within_bound graph6 zero_memo .dyn_prog (by decide) (by decide)⟩

end Tsp

namespace Knapsack

/-! ## The recurrence -/

theorem int_add_comm (a b : Int) : int_add a b = int_add b a := by
  unfold int_add; rw [Int.add_comm]

theorem int_add_right_comm (a x y : Int) :
    int_add (int_add a x) y = int_add (int_add a y) x := by
  unfold int_add wrap32; omega

theorem best_succ (I : Items) (n : Nat) (c : Int) :
    best I (n + 1) c =
      if takes I (n + 1) c then
        (if c ≥ I.weight (n + 1) then
          int_add (I.value (n + 1)) (best I n (int_sub c (I.weight (n + 1)))) else 0)
      else best I n c := by
  simp only [best, takes]
  split <;> simp_all

theorem best_mono_succ (I : Items) (n : Nat) (c : Int) : best I n c ≤ best I (n + 1) c := by
  simp only [best]
  split_ifs <;> omega

theorem best_nonneg (I : Items) : ∀ (n : Nat) (c : Int), 0 ≤ best I n c
  | 0, _ => by simp [best]
  | n + 1, c => le_trans (best_nonneg I n c) (best_mono_succ I n c)

theorem takes_fits (I : Items) (n : Nat) (c : Int) (h : takes I (n + 1) c = true) :
    c ≥ I.weight (n + 1) := by
  by_contra hc
  simp only [takes, if_neg hc, decide_eq_true_eq] at h
  have := best_nonneg I n c
  omega

theorem best_take (I : Items) (n : Nat) (c : Int) (h : takes I (n + 1) c = true) :
    best I (n + 1) c = int_add (I.value (n + 1)) (best I n (int_sub c (I.weight (n + 1)))) := by
  rw [best_succ, if_pos h, if_pos (takes_fits I n c h)]

theorem best_skip (I : Items) (n : Nat) (c : Int) (h : takes I (n + 1) c = false) :
    best I (n + 1) c = best I n c := by
  rw [best_succ, h]; simp

/-! ## The tables -/

theorem pathOK_ext (I : Items) {sv sv' : Nat → Int → Int} {tk tk' : Nat → Int → Bool}
    (h : Ext I sv tk sv' tk') : ∀ (n : Nat) (c : Int), PathOK I sv tk n c → PathOK I sv' tk' n c
  | 0, _, _ => trivial
  | n + 1, _, hp => ⟨h _ _ hp.1, pathOK_ext I h n _ hp.2⟩

theorem ext_refl (I : Items) (sv : Nat → Int → Int) (tk : Nat → Int → Bool) :
    Ext I sv tk sv tk := fun _ _ h => h

theorem ext_trans (I : Items) {sv sv' sv'' : Nat → Int → Int} {tk tk' tk'' : Nat → Int → Bool}
    (h : Ext I sv tk sv' tk') (h' : Ext I sv' tk' sv'' tk'') : Ext I sv tk sv'' tk'' :=
  fun n c hw => h' n c (h n c hw)

theorem inv_clear (I : Items) (st : State) :
    Inv I (clear_saved st).saved_value (clear_saved st).saved_taken := by
  intro n _ h
  exact absurd rfl h

theorem record_ext (I : Items) (st : State) (n : Nat) (c : Int) :
    Ext I st.saved_value st.saved_taken
      (record st n c (best I n c) (takes I n c)).saved_value
      (record st n c (best I n c) (takes I n c)).saved_taken := by
  intro i d hw
  unfold Written at hw ⊢
  simp only [record]
  by_cases h : i = n ∧ d = c
  · rw [if_pos h, if_pos h, h.1, h.2]; exact ⟨rfl, rfl⟩
  · rw [if_neg h, if_neg h]; exact hw

theorem record_written (I : Items) (st : State) (n : Nat) (c : Int) :
    Written I (record st n c (best I n c) (takes I n c)).saved_value
      (record st n c (best I n c) (takes I n c)).saved_taken n c := by
  unfold Written
  simp [record]

theorem record_taken (st : State) (n : Nat) (c : Int) (v : Int) (t : Bool) :
    (record st n c v t).taken = st.taken := rfl

theorem record_inv (I : Items) (st : State) (n : Nat) (c : Int)
    (hinv : Inv I st.saved_value st.saved_taken)
    (hp : PathOK I st.saved_value st.saved_taken n
      (if takes I (n + 1) c then int_sub c (I.weight (n + 1)) else c)) :
    Inv I (record st (n + 1) c (best I (n + 1) c) (takes I (n + 1) c)).saved_value
      (record st (n + 1) c (best I (n + 1) c) (takes I (n + 1) c)).saved_taken := by
  intro i d hne
  by_cases h : i = n + 1 ∧ d = c
  · rw [h.1, h.2]
    exact ⟨record_written I st (n + 1) c, pathOK_ext I (record_ext I st (n + 1) c) _ _ hp⟩
  · have : st.saved_value i d ≠ 0 := by
      simp only [record, if_neg h] at hne
      exact hne
    exact pathOK_ext I (record_ext I st (n + 1) c) _ _ (hinv i d this)

/-! ## `top_down` -/

theorem top_down_spec (I : Items) (dp : Bool) :
    ∀ (n : Nat) (c : Int) (st : State), n ≤ I.max_item →
      (dp = true → n ≠ I.max_item → Inv I st.saved_value st.saved_taken) →
      (top_down I n c dp st).1 = best I n c ∧
      (n ≠ I.max_item → Ext I st.saved_value st.saved_taken
        (top_down I n c dp st).2.saved_value (top_down I n c dp st).2.saved_taken) ∧
      (dp = true → Inv I (top_down I n c dp st).2.saved_value
        (top_down I n c dp st).2.saved_taken) ∧
      PathOK I (top_down I n c dp st).2.saved_value (top_down I n c dp st).2.saved_taken n c ∧
      (n ≠ I.max_item → (top_down I n c dp st).2.taken = st.taken) ∧
      (n = I.max_item → c = MAX_WEIGHT → n ≠ 0 →
        ∃ t0, (top_down I n c dp st).2.taken =
          scan_taken I (top_down I n c dp st).2.saved_taken n c t0) := by
  intro n
  induction n with
  | zero =>
    intro c st _ hinv
    refine ⟨rfl, ?_, ?_, trivial, ?_, ?_⟩
    · intro hne
      have : (0 == I.max_item) = false := by simpa using hne
      simp only [top_down, this]
      exact ext_refl I _ _
    · intro hdp
      by_cases h0 : 0 = I.max_item
      · have : (0 == I.max_item) = true := by simpa using h0
        simp only [top_down, this, if_true]
        exact inv_clear I st
      · have : (0 == I.max_item) = false := by simpa using h0
        simp only [top_down, this]
        exact hinv hdp h0
    · intro hne
      have : (0 == I.max_item) = false := by simpa using hne
      simp only [top_down, this]
      rfl
    · intro _ _ h; exact absurd rfl h
  | succ n ih =>
    intro c st hn hinv
    have hn1 : n ≤ I.max_item := by omega
    have hn2 : n ≠ I.max_item := by omega
    -- the state after the optional reset
    obtain ⟨st1, hst1, hinv1, hext1, htk1⟩ :
        ∃ st1 : State, st1 = (if (n + 1 == I.max_item) then clear_saved st else st) ∧
          (dp = true → Inv I st1.saved_value st1.saved_taken) ∧
          (n + 1 ≠ I.max_item → st1 = st) ∧ st1.taken = st.taken := by
      refine ⟨_, rfl, ?_, ?_, ?_⟩
      · intro hdp
        by_cases h0 : n + 1 = I.max_item
        · have : (n + 1 == I.max_item) = true := by simpa using h0
          rw [this, if_pos rfl]; exact inv_clear I st
        · have : (n + 1 == I.max_item) = false := by simpa using h0
          rw [this]; exact hinv hdp h0
      · intro h0
        have : (n + 1 == I.max_item) = false := by simpa using h0
        rw [this]; rfl
      · split <;> rfl
    by_cases hhit : (dp && st1.saved_value (n + 1) c != 0) = true
    · -- the saved value is returned
      have hrun : top_down I (n + 1) c dp st = (st1.saved_value (n + 1) c, st1) := by
        simp only [top_down]
        rw [← hst1, if_pos hhit]
      rw [hrun]
      simp only [Bool.and_eq_true, bne_iff_ne, ne_eq] at hhit
      have hp := hinv1 hhit.1 _ _ hhit.2
      refine ⟨hp.1.1, ?_, fun _ => hinv1 hhit.1, hp, ?_, ?_⟩
      · intro h0; rw [hext1 h0]; exact ext_refl I _ _
      · intro _; exact htk1
      · intro h0 _ _
        exfalso
        have : (n + 1 == I.max_item) = true := by simpa using h0
        rw [this, if_pos rfl] at hst1
        rw [hst1] at hhit
        exact hhit.2 rfl
    · -- the two recursive calls
      obtain ⟨tk, htk, htk_v, htk_ext, htk_inv, htk_path, htk_taken⟩ :
          ∃ tk : Int × State,
            tk = (if c ≥ I.weight (n + 1) then
              (int_add (I.value (n + 1))
                (top_down I n (int_sub c (I.weight (n + 1))) dp st1).1,
               (top_down I n (int_sub c (I.weight (n + 1))) dp st1).2)
              else (0, st1)) ∧
            tk.1 = (if c ≥ I.weight (n + 1) then
              int_add (I.value (n + 1)) (best I n (int_sub c (I.weight (n + 1)))) else 0) ∧
            Ext I st1.saved_value st1.saved_taken tk.2.saved_value tk.2.saved_taken ∧
            (dp = true → Inv I tk.2.saved_value tk.2.saved_taken) ∧
            (c ≥ I.weight (n + 1) →
              PathOK I tk.2.saved_value tk.2.saved_taken n (int_sub c (I.weight (n + 1)))) ∧
            tk.2.taken = st1.taken := by
        refine ⟨_, rfl, ?_⟩
        by_cases hfit : c ≥ I.weight (n + 1)
        · obtain ⟨h1, h2, h3, h4, h5, _⟩ :=
            ih (int_sub c (I.weight (n + 1))) st1 hn1 (fun hdp _ => hinv1 hdp)
          simp only [if_pos hfit]
          exact ⟨by rw [h1], h2 hn2, h3, fun _ => h4, h5 hn2⟩
        · simp only [if_neg hfit]
          refine ⟨?_, ext_refl I _ _, hinv1, fun h => absurd h hfit, ?_⟩ <;>
            first | rfl | trivial
      obtain ⟨g1, g2, g3, g4, g5, _⟩ := ih c tk.2 hn1 (fun hdp _ => htk_inv hdp)
      have g2 := g2 hn2
      have g5 := g5 hn2
      -- the stored entry is the recurrence's
      have hrec : (if tk.1 > (top_down I n c dp tk.2).1 then
            record (top_down I n c dp tk.2).2 (n + 1) c tk.1 true
          else record (top_down I n c dp tk.2).2 (n + 1) c (top_down I n c dp tk.2).1 false) =
          record (top_down I n c dp tk.2).2 (n + 1) c (best I (n + 1) c)
            (takes I (n + 1) c) := by
        rw [g1, htk_v]
        by_cases hgt : (if c ≥ I.weight (n + 1) then
              int_add (I.value (n + 1)) (best I n (int_sub c (I.weight (n + 1)))) else 0) >
            best I n c
        · have ht : takes I (n + 1) c = true := by simp only [takes]; exact decide_eq_true hgt
          rw [if_pos hgt, ht, best_succ, ht, if_pos rfl]
        · have ht : takes I (n + 1) c = false := by
            simp only [takes]; exact decide_eq_false hgt
          rw [if_neg hgt, ht, best_skip I n c ht]
      obtain ⟨st4, hst4⟩ : ∃ st4 : State, st4 =
          record (top_down I n c dp tk.2).2 (n + 1) c (best I (n + 1) c) (takes I (n + 1) c) :=
        ⟨_, rfl⟩
      have hpath : PathOK I (top_down I n c dp tk.2).2.saved_value
          (top_down I n c dp tk.2).2.saved_taken n
          (if takes I (n + 1) c then int_sub c (I.weight (n + 1)) else c) := by
        by_cases ht : takes I (n + 1) c = true
        · rw [if_pos ht]
          exact pathOK_ext I g2 _ _ (htk_path (takes_fits I n c ht))
        · rw [if_neg ht]; exact g4
      have hrun : top_down I (n + 1) c dp st =
          ((if (n + 1 == I.max_item) then
              { st4 with taken := scan_taken I st4.saved_taken I.max_item MAX_WEIGHT st4.taken }
            else st4).saved_value (n + 1) c,
           (if (n + 1 == I.max_item) then
              { st4 with taken := scan_taken I st4.saved_taken I.max_item MAX_WEIGHT st4.taken }
            else st4)) := by
        simp only [top_down]
        rw [← hst1, if_neg hhit, ← htk, hrec, ← hst4]
      have hw4 : Written I st4.saved_value st4.saved_taken (n + 1) c := by
        rw [hst4]; exact record_written I _ _ _
      have hext4 : Ext I st1.saved_value st1.saved_taken st4.saved_value st4.saved_taken := by
        rw [hst4]
        exact ext_trans I htk_ext (ext_trans I g2 (record_ext I _ _ _))
      have hp4 : PathOK I st4.saved_value st4.saved_taken (n + 1) c := by
        refine ⟨hw4, ?_⟩
        rw [hst4]
        exact pathOK_ext I (record_ext I _ _ _) _ _ hpath
      have hinv4 : dp = true → Inv I st4.saved_value st4.saved_taken := by
        intro hdp
        rw [hst4]
        exact record_inv I _ n c (g3 hdp) hpath
      have htaken4 : st4.taken = st.taken := by
        rw [hst4, record_taken, g5, htk_taken, htk1]
      rw [hrun]
      by_cases h0 : n + 1 = I.max_item
      · have hb : (n + 1 == I.max_item) = true := by simpa using h0
        simp only [hb, if_true]
        refine ⟨hw4.1, fun h => absurd h0 h, hinv4, hp4, fun h => absurd h0 h, ?_⟩
        intro _ hc _
        exact ⟨st4.taken, by rw [← h0, hc]⟩
      · have hb : (n + 1 == I.max_item) = false := by simpa using h0
        simp only [hb]
        refine ⟨hw4.1, ?_, hinv4, hp4, fun _ => htaken4, fun h => absurd h h0⟩
        intro _
        rw [← hext1 h0]
        exact hext4

/-! ## The flags left in `taken[]` -/

theorem scan_taken_above (I : Items) (tk : Nat → Int → Bool) :
    ∀ (n : Nat) (c : Int) (t : Nat → Bool) (i : Nat), n < i → scan_taken I tk n c t i = t i
  | 0, _, _, _, _ => rfl
  | n + 1, c, t, i, h => by
    have hi : i ≠ n + 1 := by omega
    simp only [scan_taken]
    split
    · rw [scan_taken_above I tk n _ _ i (by omega)]; simp [set_taken, hi]
    · rw [scan_taken_above I tk n _ _ i (by omega)]; simp [set_taken, hi]

theorem value_taken_append (I : Items) (t : Nat → Bool) (i : Nat) :
    ∀ (l : List Nat) (acc : Int), value_taken I t (l ++ [i]) acc =
      if t i then int_add (value_taken I t l acc) (I.value i) else value_taken I t l acc
  | [], acc => by simp [value_taken]
  | j :: l, acc => by
    simp only [List.cons_append, value_taken]
    split
    · exact value_taken_append I t i l _
    · exact value_taken_append I t i l _

theorem value_taken_congr (I : Items) (t t' : Nat → Bool) :
    ∀ (l : List Nat) (acc : Int), (∀ i ∈ l, t i = t' i) →
      value_taken I t l acc = value_taken I t' l acc
  | [], _, _ => rfl
  | j :: l, acc, h => by
    simp only [value_taken]
    rw [h j (List.mem_cons_self _ _)]
    split
    · exact value_taken_congr I t t' l _ (fun i hi => h i (List.mem_cons_of_mem _ hi))
    · exact value_taken_congr I t t' l _ (fun i hi => h i (List.mem_cons_of_mem _ hi))

theorem scan_taken_value (I : Items) (sv : Nat → Int → Int) (tk : Nat → Int → Bool) :
    ∀ (n : Nat) (c : Int) (t : Nat → Bool), PathOK I sv tk n c →
      value_taken I (scan_taken I tk n c t) (List.range' 1 n) 0 = best I n c
  | 0, _, _, _ => rfl
  | n + 1, c, t, hp => by
    have htk : tk (n + 1) c = takes I (n + 1) c := hp.1.2
    rw [List.range'_1_concat, value_taken_append]
    simp only [scan_taken, htk]
    by_cases ht : takes I (n + 1) c = true
    · have hp2 := hp.2
      rw [if_pos ht] at hp2
      simp only [ht, if_true]
      rw [scan_taken_above I tk n _ _ (1 + n) (by omega)]
      have : set_taken t (n + 1) true (1 + n) = true := by simp [set_taken, Nat.add_comm]
      rw [this, if_pos rfl, scan_taken_value I sv tk n _ _ hp2, best_take I n c ht,
        int_add_comm, Nat.add_comm 1 n]
    · have hp2 := hp.2
      rw [if_neg ht] at hp2
      have ht2 : takes I (n + 1) c = false := by simpa using ht
      simp only [ht2, Bool.false_eq_true, if_false]
      rw [scan_taken_above I tk n _ _ (1 + n) (by omega)]
      have : set_taken t (n + 1) false (1 + n) = false := by simp [set_taken, Nat.add_comm]
      rw [this]
      simp only [Bool.false_eq_true, if_false]
      rw [scan_taken_value I sv tk n _ _ hp2, best_skip I n c ht2]

theorem top_down_value (I : Items) (dp : Bool) (st : State) :
    (top_down I I.max_item MAX_WEIGHT dp st).1 = best I I.max_item MAX_WEIGHT :=
  (top_down_spec I dp I.max_item MAX_WEIGHT st (le_refl _) (fun _ h => absurd rfl h)).1

theorem top_down_consistent (I : Items) (dp : Bool) (st : State) :
    print_results I (top_down I I.max_item MAX_WEIGHT dp st).2
      (top_down I I.max_item MAX_WEIGHT dp st).1 = true := by
  obtain ⟨h1, _, _, h4, _, h6⟩ :=
    top_down_spec I dp I.max_item MAX_WEIGHT st (le_refl _) (fun _ h => absurd rfl h)
  unfold print_results
  rw [beq_iff_eq, h1]
  by_cases h0 : I.max_item = 0
  · rw [h0]; rfl
  · obtain ⟨t0, ht0⟩ := h6 rfl rfl h0
    rw [ht0]
    exact (scan_taken_value I _ _ _ _ t0 h4).symm

/-! ## `bottom_up` -/

theorem mem_capacities (cap c : Int) : c ∈ capacities cap ↔ 0 ≤ c ∧ c ≤ cap := by
  unfold capacities
  rw [List.mem_map]
  constructor
  · rintro ⟨k, hk, rfl⟩
    rw [List.mem_range] at hk
    omega
  · rintro ⟨h0, h1⟩
    refine ⟨c.toNat, ?_, ?_⟩
    · rw [List.mem_range]; omega
    · omega

theorem int_sub_exact (c w : Int) (h0 : 0 ≤ w) (h1 : w ≤ c) (h2 : c ≤ 2147483647) :
    int_sub c w = c - w := by
  unfold int_sub wrap32; omega

theorem bottom_up_row_spec (I : Items) (n : Nat) (cap : Int) (hcap : cap ≤ 2147483647)
    (hw : 0 ≤ I.weight (n + 1)) :
    ∀ (cs : List Int) (st : State), (∀ c ∈ cs, 0 ≤ c ∧ c ≤ cap) →
      (∀ c, 0 ≤ c → c ≤ cap → st.saved_value n c = best I n c) →
      Ext I st.saved_value st.saved_taken (bottom_up_row I (n + 1) cs st).saved_value
        (bottom_up_row I (n + 1) cs st).saved_taken ∧
      (∀ j c, j ≠ n + 1 → (bottom_up_row I (n + 1) cs st).saved_value j c = st.saved_value j c) ∧
      (∀ c ∈ cs, Written I (bottom_up_row I (n + 1) cs st).saved_value
        (bottom_up_row I (n + 1) cs st).saved_taken (n + 1) c) ∧
      (bottom_up_row I (n + 1) cs st).taken = st.taken
  | [], st, _, _ => ⟨ext_refl I _ _, fun _ _ _ => rfl, fun _ h => absurd h (List.not_mem_nil _), rfl⟩
  | c :: cs, st, hcs, hrow => by
    have hc := hcs c (List.mem_cons_self _ _)
    have hstep : (if (if I.weight (n + 1) ≤ c then
              int_add (I.value (n + 1))
                (st.saved_value (n + 1 - 1) (int_sub c (I.weight (n + 1))))
            else 0) > st.saved_value (n + 1 - 1) c then
          record st (n + 1) c (if I.weight (n + 1) ≤ c then
              int_add (I.value (n + 1))
                (st.saved_value (n + 1 - 1) (int_sub c (I.weight (n + 1))))
            else 0) true
        else record st (n + 1) c (st.saved_value (n + 1 - 1) c) false) =
        record st (n + 1) c (best I (n + 1) c) (takes I (n + 1) c) := by
      have e1 : st.saved_value (n + 1 - 1) c = best I n c := by
        rw [Nat.add_sub_cancel]; exact hrow c hc.1 hc.2
      have e2 : (if I.weight (n + 1) ≤ c then
              int_add (I.value (n + 1))
                (st.saved_value (n + 1 - 1) (int_sub c (I.weight (n + 1))))
            else 0) =
          (if c ≥ I.weight (n + 1) then
              int_add (I.value (n + 1)) (best I n (int_sub c (I.weight (n + 1))))
            else 0) := by
        by_cases hfit : I.weight (n + 1) ≤ c
        · rw [if_pos hfit, if_pos hfit, Nat.add_sub_cancel,
            hrow _ (by rw [int_sub_exact c _ hw hfit (by omega)]; omega)
              (by rw [int_sub_exact c _ hw hfit (by omega)]; omega)]
        · rw [if_neg hfit, if_neg hfit]
      rw [e1, e2]
      by_cases hgt : (if c ≥ I.weight (n + 1) then
            int_add (I.value (n + 1)) (best I n (int_sub c (I.weight (n + 1)))) else 0) >
          best I n c
      · have ht : takes I (n + 1) c = true := by simp only [takes]; exact decide_eq_true hgt
        rw [if_pos hgt, ht, best_succ, ht, if_pos rfl]
      · have ht : takes I (n + 1) c = false := by
          simp only [takes]; exact decide_eq_false hgt
        rw [if_neg hgt, ht, best_skip I n c ht]
    have hrun : bottom_up_row I (n + 1) (c :: cs) st =
        bottom_up_row I (n + 1) cs
          (record st (n + 1) c (best I (n + 1) c) (takes I (n + 1) c)) := by
      simp only [bottom_up_row]
      rw [hstep]
    rw [hrun]
    have hrow1 : ∀ d, 0 ≤ d → d ≤ cap →
        (record st (n + 1) c (best I (n + 1) c) (takes I (n + 1) c)).saved_value n d =
          best I n d := by
      intro d h0 h1
      have : ¬ (n = n + 1 ∧ d = c) := by omega
      simp only [record, if_neg this]
      exact hrow d h0 h1
    obtain ⟨i1, i2, i3, i4⟩ := bottom_up_row_spec I n cap hcap hw cs _
      (fun d hd => hcs d (List.mem_cons_of_mem _ hd)) hrow1
    refine ⟨ext_trans I (record_ext I st (n + 1) c) i1, ?_, ?_, ?_⟩
    · intro j d hj
      rw [i2 j d hj]
      have : ¬ (j = n + 1 ∧ d = c) := fun h => hj h.1
      simp only [record, if_neg this]
    · intro d hd
      rcases List.mem_cons.1 hd with rfl | hd
      · exact i1 _ _ (record_written I st (n + 1) d)
      · exact i3 d hd
    · rw [i4]; rfl

/-- The rows `1 .. a - 1` of the tables are written for every capacity `0 .. cap`, and
row 0 of `saved_value` is zero. -/
theorem bottom_up_rows_spec (I : Items) (cap : Int) (hcap : cap ≤ 2147483647) :
    ∀ (k a : Nat) (st : State), 1 ≤ a →
      (∀ i, a ≤ i → i < a + k → 0 ≤ I.weight i) →
      (∀ c, st.saved_value 0 c = 0) →
      (∀ j, 1 ≤ j → j < a → ∀ c, 0 ≤ c → c ≤ cap →
        Written I st.saved_value st.saved_taken j c) →
      (∀ c, (bottom_up_rows I cap (List.range' a k) st).saved_value 0 c = 0) ∧
      (∀ j, 1 ≤ j → j < a + k → ∀ c, 0 ≤ c → c ≤ cap →
        Written I (bottom_up_rows I cap (List.range' a k) st).saved_value
          (bottom_up_rows I cap (List.range' a k) st).saved_taken j c) ∧
      (bottom_up_rows I cap (List.range' a k) st).taken = st.taken := by
  intro k
  induction k with
  | zero =>
    intro a st _ _ h0 hrows
    exact ⟨h0, hrows, rfl⟩
  | succ k ih =>
    intro a st ha hw h0 hrows
    obtain ⟨n, rfl⟩ : ∃ n, a = n + 1 := ⟨a - 1, by omega⟩
    have hprev : ∀ c, 0 ≤ c → c ≤ cap → st.saved_value n c = best I n c := by
      intro c hc0 hc1
      cases n with
      | zero => rw [h0 c]; rfl
      | succ m => exact (hrows (m + 1) (by omega) (by omega) c hc0 hc1).1
    obtain ⟨r1, r2, r3, r4⟩ := bottom_up_row_spec I n cap hcap (hw (n + 1) (le_refl _) (by omega))
      (capacities cap) st (fun c hc => (mem_capacities cap c).1 hc) hprev
    have hrun : bottom_up_rows I cap (List.range' (n + 1) (k + 1)) st =
        bottom_up_rows I cap (List.range' (n + 1 + 1) k)
          (bottom_up_row I (n + 1) (capacities cap) st) := by
      simp only [List.range', bottom_up_rows]
    rw [hrun]
    obtain ⟨q1, q2, q3⟩ := ih (n + 1 + 1) (bottom_up_row I (n + 1) (capacities cap) st)
      (by omega) (fun i hi1 hi2 => hw i (by omega) (by omega))
      (fun c => by rw [r2 0 c (by omega)]; exact h0 c)
      (fun j hj1 hj2 c hc0 hc1 => by
        by_cases hj : j = n + 1
        · rw [hj]; exact r3 c ((mem_capacities cap c).2 ⟨hc0, hc1⟩)
        · exact r1 _ _ (hrows j hj1 (by omega) c hc0 hc1))
    refine ⟨q1, ?_, by rw [q3, r4]⟩
    intro j hj1 hj2 c hc0 hc1
    exact q2 j hj1 (by omega) c hc0 hc1

theorem pathOK_of_rows (I : Items) (sv : Nat → Int → Int) (tk : Nat → Int → Bool)
    (N : Nat) (cap : Int) (hcap : cap ≤ 2147483647)
    (hw : ∀ i, 1 ≤ i → i ≤ N → 0 ≤ I.weight i)
    (hrows : ∀ j, 1 ≤ j → j ≤ N → ∀ c, 0 ≤ c → c ≤ cap → Written I sv tk j c) :
    ∀ (n : Nat) (c : Int), n ≤ N → 0 ≤ c → c ≤ cap → PathOK I sv tk n c
  | 0, _, _, _, _ => trivial
  | n + 1, c, hn, hc0, hc1 => by
    refine ⟨hrows (n + 1) (by omega) hn c hc0 hc1, ?_⟩
    by_cases ht : takes I (n + 1) c = true
    · rw [if_pos ht]
      have hfit := takes_fits I n c ht
      have hw1 := hw (n + 1) (by omega) hn
      rw [int_sub_exact c _ hw1 hfit (by omega)]
      exact pathOK_of_rows I sv tk N cap hcap hw hrows n _ (by omega) (by omega) (by omega)
    · rw [if_neg ht]
      exact pathOK_of_rows I sv tk N cap hcap hw hrows n c (by omega) hc0 hc1

theorem bottom_up_spec (I : Items) (N : Nat) (cap : Int) (st : State)
    (hcap0 : 0 ≤ cap) (hcap : cap ≤ 2147483647) (hw : ∀ i, 1 ≤ i → i ≤ N → 0 ≤ I.weight i) :
    (bottom_up I N cap st).1 = best I N cap ∧
      value_taken I (bottom_up I N cap st).2.taken (List.range' 1 N) 0 = best I N cap := by
  obtain ⟨q1, q2, _⟩ := bottom_up_rows_spec I cap hcap N 1 (clear_saved st) (le_refl _)
    (fun i h1 h2 => hw i h1 (by omega)) (fun _ => rfl) (fun j h1 h2 => by omega)
  have hp := pathOK_of_rows I _ _ N cap hcap hw
    (fun j h1 h2 => q2 j h1 (by omega)) N cap (le_refl _) hcap0 (le_refl _)
  constructor
  · show (bottom_up_rows I cap (List.range' 1 N) (clear_saved st)).saved_value N cap = _
    cases N with
    | zero => rw [q1]; rfl
    | succ n => exact hp.1.1
  · exact scan_taken_value I _ _ N cap _ hp

/-! ## `approximation` -/

theorem value_taken_acc (I : Items) (t : Nat → Bool) (x : Int) :
    ∀ (l : List Nat) (acc : Int),
      value_taken I t l (int_add acc x) = int_add (value_taken I t l acc) x
  | [], _ => rfl
  | j :: l, acc => by
    simp only [value_taken]
    split
    · rw [int_add_right_comm]; exact value_taken_acc I t x l _
    · exact value_taken_acc I t x l _

theorem value_taken_set_not_mem (I : Items) (t : Nat → Bool) (k : Nat) (b : Bool) :
    ∀ (l : List Nat) (acc : Int), k ∉ l →
      value_taken I (set_taken t k b) l acc = value_taken I t l acc := by
  intro l acc hk
  apply value_taken_congr
  intro i hi
  have : i ≠ k := fun h => hk (h ▸ hi)
  simp [set_taken, this]

theorem value_taken_set (I : Items) (t : Nat → Bool) (k : Nat) (hk : t k = false) :
    ∀ (l : List Nat) (acc : Int), l.Nodup → k ∈ l →
      value_taken I (set_taken t k true) l acc = int_add (value_taken I t l acc) (I.value k)
  | [], _, _, h => absurd h (List.not_mem_nil _)
  | j :: l, acc, hnd, h => by
    rw [List.nodup_cons] at hnd
    by_cases hj : j = k
    · subst hj
      have e1 : set_taken t j true j = true := by simp [set_taken]
      simp only [value_taken, e1, hk, if_true]
      rw [value_taken_set_not_mem I t j true l _ hnd.1, value_taken_acc]
      simp
    · have hkl : k ∈ l := by
        rcases List.mem_cons.1 h with h | h
        · exact absurd h.symm hj
        · exact h
      have e1 : set_taken t k true j = t j := by simp [set_taken, hj]
      simp only [value_taken, e1]
      split
      · exact value_taken_set I t k hk l _ hnd.2 hkl
      · exact value_taken_set I t k hk l _ hnd.2 hkl

theorem find_max_spec (x : Nat → Int) :
    ∀ (l : List Nat) (m : Int) (mi : Nat),
      (find_max x l (m, mi)).2 = mi ∨
        ((find_max x l (m, mi)).2 ∈ l ∧ x (find_max x l (m, mi)).2 > m)
  | [], _, _ => Or.inl rfl
  | i :: l, m, mi => by
    simp only [find_max]
    split
    · rename_i hgt
      rcases find_max_spec x l (x i) i with h | h
      · right
        rw [h]
        exact ⟨List.mem_cons_self _ _, hgt⟩
      · right
        exact ⟨List.mem_cons_of_mem _ h.1, by omega⟩
    · rcases find_max_spec x l m mi with h | h
      · exact Or.inl h
      · exact Or.inr ⟨List.mem_cons_of_mem _ h.1, h.2⟩

theorem countP_zeroed_lt (x : Nat → Int) (k : Nat) (hx : x k > 0) :
    ∀ (l : List Nat), k ∈ l →
      l.countP (fun i => decide ((if i = k then 0 else x i) > 0)) <
        l.countP (fun i => decide (x i > 0))
  | [], h => absurd h (List.not_mem_nil _)
  | j :: l, h => by
    have hle : ∀ (l : List Nat), l.countP (fun i => decide ((if i = k then 0 else x i) > 0)) ≤
        l.countP (fun i => decide (x i > 0)) := by
      intro l
      apply List.countP_mono_left
      intro i _ hi
      by_cases hik : i = k
      · simp [hik] at hi
      · simpa [hik] using hi
    by_cases hj : j = k
    · subst hj
      rw [List.countP_cons_of_neg, List.countP_cons_of_pos]
      · have := hle l; omega
      · simpa using hx
      · simp
    · have hkl : k ∈ l := by
        rcases List.mem_cons.1 h with h | h
        · exact absurd h.symm hj
        · exact h
      have ih := countP_zeroed_lt x k hx l hkl
      by_cases hp : x j > 0
      · rw [List.countP_cons_of_pos, List.countP_cons_of_pos]
        · omega
        · simpa using hp
        · simpa [hj] using hp
      · rw [List.countP_cons_of_neg, List.countP_cons_of_neg]
        · exact ih
        · simpa using hp
        · simpa [hj] using hp

theorem approx_loop_spec (I : Items) (N : Nat) :
    ∀ (fuel : Nat) (x : Nat → Int) (cap value : Int) (t : Nat → Bool),
      (List.range' 1 N).countP (fun i => decide (x i > 0)) < fuel →
      (∀ i, t i = true → x i ≤ 0) →
      value = value_taken I t (List.range' 1 N) 0 →
      ∃ v t', approx_loop I N fuel x cap value t = some (v, t') ∧
        v = value_taken I t' (List.range' 1 N) 0
  | 0, _, _, _, _, h, _, _ => absurd h (Nat.not_lt_zero _)
  | fuel + 1, x, cap, value, t, hfuel, hx, hv => by
    simp only [approx_loop]
    by_cases h0 : (find_max x (List.range' 1 N) (0, 0)).2 = 0
    · rw [if_pos h0]
      exact ⟨value, t, rfl, hv⟩
    · rw [if_neg h0]
      rcases find_max_spec x (List.range' 1 N) 0 0 with h | ⟨hmem, hpos⟩
      · exact absurd h h0
      · have hlt := countP_zeroed_lt x _ hpos _ hmem
        have ht : t (find_max x (List.range' 1 N) (0, 0)).2 = false := by
          by_contra hc
          have := hx _ (eq_true_of_ne_false hc)
          omega
        have hx' : ∀ (t' : Nat → Bool), (∀ i, t' i = true →
              i = (find_max x (List.range' 1 N) (0, 0)).2 ∨ t i = true) →
            ∀ i, t' i = true →
              (if i = (find_max x (List.range' 1 N) (0, 0)).2 then 0 else x i) ≤ 0 := by
          intro t' ht' i hi
          by_cases hik : i = (find_max x (List.range' 1 N) (0, 0)).2
          · rw [if_pos hik]
          · rw [if_neg hik]
            rcases ht' i hi with h | h
            · exact absurd h hik
            · exact hx i h
        split
        · exact approx_loop_spec I N fuel _ cap value t (by omega)
            (hx' t (fun i hi => Or.inr hi)) hv
        · refine approx_loop_spec I N fuel _ _ _ _ (by omega) (hx' _ ?_) ?_
          · intro i hi
            by_cases hik : i = (find_max x (List.range' 1 N) (0, 0)).2
            · exact Or.inl hik
            · right
              simp only [set_taken, if_neg hik] at hi
              exact hi
          · rw [value_taken_set I t _ ht _ _ (List.nodup_range' 1 N) hmem, hv]

theorem approximation_consistent (I : Items) (cap : Int) (st : State) :
    ∃ value st', approximation I I.max_item cap st = some (value, st') ∧
      print_results I st' value = true := by
  obtain ⟨v, t', h1, h2⟩ := approx_loop_spec I I.max_item (I.max_item + 1) (ratio I) cap 0
    (fun _ => false)
    (by
      have := List.countP_le_length (fun i => decide (ratio I i > 0)) (l := List.range' 1 I.max_item)
      rw [List.length_range'] at this
      omega)
    (fun i hi => by simp at hi)
    (by
      have : ∀ (l : List Nat) (acc : Int), value_taken I (fun _ => false) l acc = acc := by
        intro l
        induction l with
        | nil => intro _; rfl
        | cons j l ih => intro acc; simp only [value_taken]; exact ih acc
      exact (this _ _).symm)
  refine ⟨v, { st with taken := t' }, ?_, ?_⟩
  · unfold approximation
    rw [h1]
  · unfold print_results
    rw [beq_iff_eq]
    exact h2

/-! ## The optimum -/

theorem int_add_exact (a b : Int) (h0 : -2147483648 ≤ a + b) (h1 : a + b ≤ 2147483647) :
    int_add a b = a + b := by
  unfold int_add wrap32; omega

theorem best_optimum (I : Items) (B : Int) (N : Nat) (hB : (N : Int) * B ≤ 2147483647)
    (hI : ∀ i, 1 ≤ i → i ≤ N → 0 ≤ I.value i ∧ I.value i ≤ B ∧ 0 ≤ I.weight i) :
    ∀ (n : Nat) (c : Int), n ≤ N → 0 ≤ c → c ≤ 2147483647 →
      IsOptimum I n c (best I n c) ∧ best I n c ≤ (n : Int) * B
  | 0, c, _, hc0, _ => by
    refine ⟨⟨⟨∅, Finset.empty_subset _, ?_, ?_⟩, ?_⟩, ?_⟩
    · simpa [total_weight] using hc0
    · simp [total_value, best]
    · intro S hS _
      have : S = ∅ := by
        apply Finset.eq_empty_of_forall_not_mem
        intro i hi
        have := Finset.mem_Icc.1 (hS hi)
        omega
      rw [this]
      simp [total_value, best]
    · simp [best]
  | n + 1, c, hn, hc0, hc1 => by
    obtain ⟨hv0, hvB, hw0⟩ := hI (n + 1) (by omega) hn
    have hB0 : 0 ≤ B := le_trans hv0 hvB
    have hcast : ((n + 1 : Nat) : Int) * B ≤ (N : Int) * B :=
      mul_le_mul_of_nonneg_right (by exact_mod_cast hn) hB0
    have hcast2 : ((n + 1 : Nat) : Int) * B = (n : Int) * B + B := by push_cast; ring
    have ihc := best_optimum I B N hB hI n c (by omega) hc0 hc1
    have hsub : ∀ S : Finset Nat, S ⊆ Finset.Icc 1 (n + 1) → n + 1 ∉ S →
        S ⊆ Finset.Icc 1 n := by
      intro S hS hnot i hi
      have h1 := Finset.mem_Icc.1 (hS hi)
      have h2 : i ≠ n + 1 := fun h => hnot (h ▸ hi)
      exact Finset.mem_Icc.2 ⟨by omega, by omega⟩
    have hsub2 : ∀ S : Finset Nat, S ⊆ Finset.Icc 1 (n + 1) →
        S.erase (n + 1) ⊆ Finset.Icc 1 n := by
      intro S hS i hi
      have h1 := Finset.mem_Icc.1 (hS (Finset.mem_of_mem_erase hi))
      have h2 : i ≠ n + 1 := Finset.ne_of_mem_erase hi
      exact Finset.mem_Icc.2 ⟨by omega, by omega⟩
    have hup : ∀ S : Finset Nat, S ⊆ Finset.Icc 1 n → S ⊆ Finset.Icc 1 (n + 1) := by
      intro S hS i hi
      have h1 := Finset.mem_Icc.1 (hS hi)
      exact Finset.mem_Icc.2 ⟨by omega, by omega⟩
    have hwnn : ∀ S : Finset Nat, S ⊆ Finset.Icc 1 n → 0 ≤ total_weight I S := by
      intro S hS
      apply Finset.sum_nonneg
      intro i hi
      have h1 := Finset.mem_Icc.1 (hS hi)
      exact (hI i h1.1 (by omega)).2.2
    have hsplitw : ∀ S : Finset Nat, n + 1 ∈ S →
        total_weight I S = I.weight (n + 1) + total_weight I (S.erase (n + 1)) := by
      intro S hmem
      exact (Finset.add_sum_erase S (fun i => I.weight i) hmem).symm
    have hsplitv : ∀ S : Finset Nat, n + 1 ∈ S →
        total_value I S = I.value (n + 1) + total_value I (S.erase (n + 1)) := by
      intro S hmem
      exact (Finset.add_sum_erase S (fun i => I.value i) hmem).symm
    have hexact : c ≥ I.weight (n + 1) →
        IsOptimum I n (c - I.weight (n + 1)) (best I n (c - I.weight (n + 1))) ∧
        int_add (I.value (n + 1)) (best I n (int_sub c (I.weight (n + 1)))) =
          I.value (n + 1) + best I n (c - I.weight (n + 1)) ∧
        I.value (n + 1) + best I n (c - I.weight (n + 1)) ≤ ((n + 1 : Nat) : Int) * B := by
      intro hfit
      have ihs := best_optimum I B N hB hI n (c - I.weight (n + 1)) (by omega) (by omega)
        (by omega)
      have hnn := best_nonneg I n (c - I.weight (n + 1))
      refine ⟨ihs.1, ?_, by omega⟩
      rw [int_sub_exact c _ hw0 hfit hc1, int_add_exact _ _ (by omega) (by omega)]
    by_cases ht : takes I (n + 1) c = true
    · have hfit := takes_fits I n c ht
      obtain ⟨ihs, hadd, hbnd⟩ := hexact hfit
      have hgt : I.value (n + 1) + best I n (c - I.weight (n + 1)) > best I n c := by
        have := ht
        simp only [takes, decide_eq_true_eq, if_pos hfit] at this
        rw [hadd] at this
        exact this
      have e : best I (n + 1) c = I.value (n + 1) + best I n (c - I.weight (n + 1)) := by
        rw [best_take I n c ht, hadd]
      rw [e]
      refine ⟨⟨?_, ?_⟩, hbnd⟩
      · obtain ⟨S', hS', hw', hv'⟩ := ihs.1
        have hnot : n + 1 ∉ S' := by
          intro h
          have := Finset.mem_Icc.1 (hS' h)
          omega
        refine ⟨insert (n + 1) S', ?_, ?_, ?_⟩
        · intro i hi
          rcases Finset.mem_insert.1 hi with h | h
          · rw [h]; exact Finset.mem_Icc.2 ⟨by omega, le_refl _⟩
          · exact hup S' hS' h
        · have : total_weight I (insert (n + 1) S') = I.weight (n + 1) + total_weight I S' :=
            Finset.sum_insert hnot
          omega
        · have : total_value I (insert (n + 1) S') = I.value (n + 1) + total_value I S' :=
            Finset.sum_insert hnot
          omega
      · intro S hS hwS
        by_cases hmem : n + 1 ∈ S
        · have h1 := hsplitw S hmem
          have h2 := hsplitv S hmem
          have := ihs.2 (S.erase (n + 1)) (hsub2 S hS) (by omega)
          omega
        · have := ihc.1.2 S (hsub S hS hmem) hwS
          omega
    · have ht2 : takes I (n + 1) c = false := by simpa using ht
      rw [best_skip I n c ht2]
      refine ⟨⟨?_, ?_⟩, by have := ihc.2; omega⟩
      · obtain ⟨S', hS', hw', hv'⟩ := ihc.1.1
        exact ⟨S', hup S' hS', hw', hv'⟩
      · intro S hS hwS
        by_cases hmem : n + 1 ∈ S
        · have h1 := hsplitw S hmem
          have h2 := hsplitv S hmem
          have h3 := hwnn (S.erase (n + 1)) (hsub2 S hS)
          have hfit : c ≥ I.weight (n + 1) := by omega
          obtain ⟨ihs, hadd, _⟩ := hexact hfit
          have hle : ¬ (I.value (n + 1) + best I n (c - I.weight (n + 1)) > best I n c) := by
            have := ht2
            simp only [takes, decide_eq_false_iff_not, if_pos hfit] at this
            rw [hadd] at this
            exact this
          have := ihs.2 (S.erase (n + 1)) (hsub2 S hS) (by omega)
          omega
        · exact ihc.1.2 S (hsub S hS hmem) hwS

/-! ## Properties of the program -/

/-- C18: for every item set of at most `MAX_ITEM` items with positive `int` values and
weights, and the call `main` makes (`num_item = max_item`, `capacity = MAX_WEIGHT`), each of
`top_down` without and with dynamic programming, `bottom_up` and `approximation` returns,
from any earlier contents of the global arrays, a value equal to the sum of `item[i].value`
over the items it leaves flagged in `taken[]`: the test of `print_results` passes. -/
theorem returned_value_matches_taken (I : Items) (st : State) (hI : ValidItems I) :
    print_results I (top_down I I.max_item MAX_WEIGHT false st).2
        (top_down I I.max_item MAX_WEIGHT false st).1 = true ∧
      print_results I (top_down I I.max_item MAX_WEIGHT true st).2
        (top_down I I.max_item MAX_WEIGHT true st).1 = true ∧
      print_results I (bottom_up I I.max_item MAX_WEIGHT st).2
        (bottom_up I I.max_item MAX_WEIGHT st).1 = true ∧
      ∃ value st', approximation I I.max_item MAX_WEIGHT st = some (value, st') ∧
        print_results I st' value = true := by
  refine ⟨top_down_consistent I false st, top_down_consistent I true st, ?_,
    approximation_consistent I MAX_WEIGHT st⟩
  obtain ⟨h1, h2⟩ := bottom_up_spec I I.max_item MAX_WEIGHT st (by decide) (by decide)
    (fun i hi1 hi2 => by have := (hI.2 i hi1 hi2).2.2.1; omega)
  unfold print_results
  rw [beq_iff_eq, h1, h2]

theorem returned_value_matches_taken_witness :
    ValidItems items3 ∧
      print_results items3 (top_down items3 items3.max_item MAX_WEIGHT false zero_state).2
        (top_down items3 items3.max_item MAX_WEIGHT false zero_state).1 = true ∧
      print_results items3 (top_down items3 items3.max_item MAX_WEIGHT true zero_state).2
        (top_down items3 items3.max_item MAX_WEIGHT true zero_state).1 = true ∧
      print_results items3 (bottom_up items3 items3.max_item MAX_WEIGHT zero_state).2
        (bottom_up items3 items3.max_item MAX_WEIGHT zero_state).1 = true ∧
      ∃ value st', approximation items3 items3.max_item MAX_WEIGHT zero_state =
          some (value, st') ∧
        print_results items3 st' value = true :=
  ⟨by decide, returned_value_matches_taken items3 zero_state (by decide)⟩

/-- C28 (counterexample): two items of value 2^30 and weight 1 are a valid item set, and
both fit the capacity `MAX_WEIGHT` with total value 2^31; `top_down` without and with
dynamic programming and `bottom_up` all return 2^30, which is not the optimum. -/
theorem exact_algorithms_overflow_counterexample :
    ValidItems items_big ∧
      (top_down items_big items_big.max_item MAX_WEIGHT false zero_state).1 = 1073741824 ∧
      (top_down items_big items_big.max_item MAX_WEIGHT true zero_state).1 = 1073741824 ∧
      (bottom_up items_big items_big.max_item MAX_WEIGHT zero_state).1 = 1073741824 ∧
      ({1, 2} : Finset Nat) ⊆ Finset.Icc 1 items_big.max_item ∧
      total_weight items_big {1, 2} ≤ MAX_WEIGHT ∧
      total_value items_big {1, 2} = 2147483648 ∧
      ¬ IsOptimum items_big items_big.max_item MAX_WEIGHT
        (top_down items_big items_big.max_item MAX_WEIGHT false zero_state).1 := by
  have h1 : (top_down items_big items_big.max_item MAX_WEIGHT false zero_state).1 =
      1073741824 := by decide
  have h2 : (top_down items_big items_big.max_item MAX_WEIGHT true zero_state).1 =
      1073741824 := by decide
  have hb : best items_big items_big.max_item MAX_WEIGHT = 1073741824 := by
    rw [← top_down_value items_big false zero_state]; exact h1
  have h3 : (bottom_up items_big items_big.max_item MAX_WEIGHT zero_state).1 = 1073741824 := by
    rw [(bottom_up_spec items_big items_big.max_item MAX_WEIGHT zero_state (by decide)
      (by decide) (by decide)).1]
    exact hb
  have hs : ({1, 2} : Finset Nat) ⊆ Finset.Icc 1 items_big.max_item := by decide
  have hw : total_weight items_big {1, 2} ≤ MAX_WEIGHT := by decide
  have hv : total_value items_big {1, 2} = 2147483648 := by decide
  refine ⟨by decide, h1, h2, h3, hs, hw, hv, ?_⟩
  intro hopt
  have := hopt.2 {1, 2} hs hw
  rw [hv, h1] at this
  exact absurd this (by decide)

/-- C28 (amended): for every item set of at most `MAX_ITEM` items with positive weights and
values from 1 to `VALUE_BOUND` (so that all values together fit an `int`; the values `main`
generates are far below), and the call `main` makes (`num_item = max_item`,
`capacity = MAX_WEIGHT`), `top_down` without dynamic programming, `top_down` with it and
`bottom_up` return the same value from any earlier contents of the global arrays, and that
value is the 0/1-knapsack optimum: some subset of the items `1 .. max_item` of total weight
at most the capacity has it as total value, and no such subset has more. -/
theorem exact_algorithms_return_optimum (I : Items) (st1 st2 st3 : State)
    (hI : ValidItems I) (hb : ∀ i, 1 ≤ i → i ≤ I.max_item → I.value i ≤ VALUE_BOUND) :
    (top_down I I.max_item MAX_WEIGHT false st1).1 =
        (top_down I I.max_item MAX_WEIGHT true st2).1 ∧
      (top_down I I.max_item MAX_WEIGHT true st2).1 =
        (bottom_up I I.max_item MAX_WEIGHT st3).1 ∧
      IsOptimum I I.max_item MAX_WEIGHT (bottom_up I I.max_item MAX_WEIGHT st3).1 := by
  have hbu := (bottom_up_spec I I.max_item MAX_WEIGHT st3 (by decide) (by decide)
    (fun i hi1 hi2 => by have := (hI.2 i hi1 hi2).2.2.1; omega)).1
  rw [top_down_value, top_down_value, hbu]
  refine ⟨rfl, rfl, ?_⟩
  have hN : (I.max_item : Int) * VALUE_BOUND ≤ 2147483647 := by
    have h1 : (I.max_item : Int) ≤ 100 := by
      have := hI.1
      unfold MAX_ITEM at this
      exact_mod_cast this
    unfold VALUE_BOUND
    omega
  exact (best_optimum I VALUE_BOUND I.max_item hN
    (fun i hi1 hi2 => by
      have h := hI.2 i hi1 hi2
      exact ⟨by omega, hb i hi1 hi2, by omega⟩)
    I.max_item MAX_WEIGHT (le_refl _) (by decide) (by decide)).1

theorem exact_algorithms_return_optimum_witness :
    ValidItems items3 ∧
      (∀ i, 1 ≤ i → i ≤ items3.max_item → items3.value i ≤ VALUE_BOUND) ∧
      (top_down items3 items3.max_item MAX_WEIGHT false zero_state).1 =
        (top_down items3 items3.max_item MAX_WEIGHT true zero_state).1 ∧
      (top_down items3 items3.max_item MAX_WEIGHT true zero_state).1 =
        (bottom_up items3 items3.max_item MAX_WEIGHT zero_state).1 ∧
      IsOptimum items3 items3.max_item MAX_WEIGHT
        (bottom_up items3 items3.max_item MAX_WEIGHT zero_state).1 :=
  ⟨by decide, by decide,
    exact_algorithms_return_optimum items3 zero_state zero_state zero_state (by decide)
      (by decide)⟩

end Knapsack

namespace Sorting

/-! ## Arrays -/

theorem sort_swap_eq (a : List Int) (i j : Nat) : swap a i j = Tsp.swap a i j := rfl

theorem sort_swap_length (a : List Int) (i j : Nat) : (swap a i j).length = a.length := by
  rw [sort_swap_eq]; exact Tsp.swap_length a i j

theorem sort_swap_getD (a : List Int) {i j : Nat} (hi : i < a.length) (hj : j < a.length)
    (k : Nat) :
    (swap a i j).getD k 0 =
      if k = j then a.getD i 0 else if k = i then a.getD j 0 else a.getD k 0 := by
  rw [sort_swap_eq]; exact Tsp.swap_getD a hi hj k 0

theorem sort_swap_perm (a : List Int) {i j : Nat} (hi : i < a.length) (hj : j < a.length) :
    (swap a i j).Perm a := by
  rw [sort_swap_eq]; exact Tsp.swap_perm a hi hj

theorem pairwise_iff_getD (a : List Int) :
    a.Pairwise (· ≤ ·) ↔ ∀ i j, i < j → j < a.length → a.getD i 0 ≤ a.getD j 0 := by
  rw [List.pairwise_iff_getElem]
  constructor
  · intro h i j hij hj
    rw [List.getD_eq_getElem _ _ (by omega), List.getD_eq_getElem _ _ hj]
    exact h i j (by omega) hj hij
  · intro h i j hi hj hij
    have := h i j hij hj
    rw [List.getD_eq_getElem _ _ hi, List.getD_eq_getElem _ _ hj] at this
    exact this

theorem nonDecreasing_of_pairwise (a : List Int) (h : a.Pairwise (· ≤ ·)) :
    NonDecreasing a := by
  intro i hi
  exact (pairwise_iff_getD a).1 h i (i + 1) (by omega) hi

/-! ## `checksum` and `sorted_okay` -/

theorem sum_add_right_comm (a x y : Int) :
    int_add (int_add a x) y = int_add (int_add a y) x := by
  unfold int_add wrap32; omega

theorem checksum_loop_eq_foldl (a : List Int) :
    ∀ (k s : Nat) (acc : Int), s + k = a.length →
      checksum_loop a (List.range' s k) acc = (a.drop s).foldl int_add acc := by
  intro k
  induction k with
  | zero =>
    intro s acc h
    rw [List.drop_of_length_le (by omega)]
    rfl
  | succ k ih =>
    intro s acc h
    have hs : s < a.length := by omega
    rw [List.drop_eq_getElem_cons hs, List.foldl_cons, ← ih (s + 1) _ (by omega)]
    simp only [List.range', checksum_loop]
    rw [List.getD_eq_getElem _ _ hs]

theorem checksum_eq_foldl (a : List Int) : checksum a a.length = a.foldl int_add 0 := by
  unfold checksum
  rw [List.range_eq_range', checksum_loop_eq_foldl a a.length 0 0 (by omega)]
  rfl

theorem checksum_perm {a b : List Int} (h : a.Perm b) :
    checksum a a.length = checksum b b.length := by
  rw [checksum_eq_foldl, checksum_eq_foldl]
  exact List.Perm.foldl_eq' h (fun x _ y _ z => sum_add_right_comm z x y) 0

theorem order_okay_of_le (a : List Int) :
    ∀ (l : List Nat), (∀ i ∈ l, a.getD i 0 ≤ a.getD (i + 1) 0) → order_okay a l = true
  | [], _ => rfl
  | i :: l, h => by
    have h1 := h i (List.mem_cons_self _ _)
    simp only [order_okay]
    rw [if_neg (by omega)]
    exact order_okay_of_le a l (fun k hk => h k (List.mem_cons_of_mem _ hk))

theorem sorted_okay_of_sorted {a b : List Int} (hs : a.Pairwise (· ≤ ·)) (hp : a.Perm b) :
    sorted_okay a a.length (checksum b b.length) = true := by
  unfold sorted_okay
  rw [order_okay_of_le a _ (fun i hi => by
    have := List.mem_range.1 hi
    exact nonDecreasing_of_pairwise a hs i (by omega))]
  rw [checksum_perm hp]
  simp

/-! ## `selection_sort` -/

theorem selection_scan_spec (a : List Int) :
    ∀ (l : List Nat) (mv : Int) (mi : Nat), mv = a.getD mi 0 →
      (selection_scan a l (mv, mi)).1 = a.getD (selection_scan a l (mv, mi)).2 0 ∧
      ((selection_scan a l (mv, mi)).2 = mi ∨ (selection_scan a l (mv, mi)).2 ∈ l) ∧
      (selection_scan a l (mv, mi)).1 ≤ mv ∧
      ∀ i ∈ l, (selection_scan a l (mv, mi)).1 ≤ a.getD i 0
  | [], mv, mi, h => ⟨h, Or.inl rfl, le_refl _, fun _ hi => absurd hi (List.not_mem_nil _)⟩
  | i :: l, mv, mi, h => by
    simp only [selection_scan]
    split
    · rename_i hlt
      obtain ⟨h1, h2, h3, h4⟩ := selection_scan_spec a l (a.getD i 0) i rfl
      refine ⟨h1, ?_, by omega, ?_⟩
      · rcases h2 with h2 | h2
        · right; rw [h2]; exact List.mem_cons_self _ _
        · right; exact List.mem_cons_of_mem _ h2
      · intro k hk
        rcases List.mem_cons.1 hk with rfl | hk
        · exact h3
        · exact h4 k hk
    · rename_i hlt
      obtain ⟨h1, h2, h3, h4⟩ := selection_scan_spec a l mv mi h
      refine ⟨h1, ?_, h3, ?_⟩
      · rcases h2 with h2 | h2
        · exact Or.inl h2
        · right; exact List.mem_cons_of_mem _ h2
      · intro k hk
        rcases List.mem_cons.1 hk with rfl | hk
        · omega
        · exact h4 k hk

theorem selection_loop_spec (n : Nat) :
    ∀ (k s : Nat) (a : List Int), a.length = n → s + k + 1 ≤ n →
      (∀ i j, i < s → i < j → j < n → a.getD i 0 ≤ a.getD j 0) →
      (selection_loop n (List.range' s k) a).Perm a ∧
      (selection_loop n (List.range' s k) a).length = n ∧
      ∀ i j, i < s + k → i < j → j < n →
        (selection_loop n (List.range' s k) a).getD i 0 ≤
          (selection_loop n (List.range' s k) a).getD j 0 := by
  intro k
  induction k with
  | zero =>
    intro s a hlen _ hpre
    exact ⟨List.Perm.refl _, hlen, hpre⟩
  | succ k ih =>
    intro s a hlen hk hpre
    obtain ⟨h1, h2, h3, h4⟩ := selection_scan_spec a (List.range' (s + 1) (n - (s + 1)))
      (a.getD s 0) s rfl
    obtain ⟨mi, hmi⟩ : ∃ mi, mi = (selection_scan a (List.range' (s + 1) (n - (s + 1)))
      (a.getD s 0, s)).2 := ⟨_, rfl⟩
    rw [← hmi] at h1 h2
    rw [h1] at h3 h4
    have hrun : selection_loop n (List.range' s (k + 1)) a =
        selection_loop n (List.range' (s + 1) k) (swap a s mi) := by
      simp only [List.range', selection_loop]
      rw [hmi]
    have hmi1 : s ≤ mi ∧ mi < n := by
      rcases h2 with h2 | h2
      · omega
      · have := List.mem_range'_1.1 h2
        omega
    have hs : s < a.length := by omega
    have hm : mi < a.length := by omega
    have hmin : ∀ j, s ≤ j → j < n → a.getD mi 0 ≤ a.getD j 0 := by
      intro j hj1 hj2
      by_cases hjs : j = s
      · rw [hjs]; exact h3
      · exact h4 j (List.mem_range'_1.2 ⟨by omega, by omega⟩)
    obtain ⟨q1, q2, q3⟩ := ih (s + 1) (swap a s mi) (by rw [sort_swap_length]; exact hlen)
      (by omega)
      (by
        intro i j hi hij hj
        rw [sort_swap_getD a hs hm, sort_swap_getD a hs hm]
        by_cases his : i = s
        · have e1 : (if i = mi then a.getD s 0 else if i = s then a.getD mi 0 else a.getD i 0) =
              a.getD mi 0 := by
            by_cases h : i = mi
            · rw [if_pos h, ← his, h]
            · rw [if_neg h, if_pos his]
          rw [e1]
          split
          · exact h3
          · split
            · exact le_refl _
            · exact hmin j (by omega) hj
        · have e1 : (if i = mi then a.getD s 0 else if i = s then a.getD mi 0 else a.getD i 0) =
              a.getD i 0 := by
            rw [if_neg (by omega), if_neg his]
          rw [e1]
          split
          · exact hpre i s (by omega) (by omega) (by omega)
          · split
            · exact hpre i mi (by omega) (by omega) (by omega)
            · exact hpre i j (by omega) hij hj)
    rw [hrun]
    refine ⟨q1.trans (sort_swap_perm a hs hm), q2, ?_⟩
    intro i j hi hij hj
    exact q3 i j (by omega) hij hj

theorem selection_sort_spec (a : List Int) :
    (selection_sort a a.length).Perm a ∧ (selection_sort a a.length).Pairwise (· ≤ ·) := by
  unfold selection_sort
  by_cases h : a.length ≤ 1
  · rw [if_pos h]
    refine ⟨List.Perm.refl _, ?_⟩
    rw [pairwise_iff_getD]
    intro i j hij hj
    omega
  · rw [if_neg h, List.range_eq_range']
    obtain ⟨q1, q2, q3⟩ := selection_loop_spec a.length (a.length - 1) 0 a rfl (by omega)
      (fun i j hi => absurd hi (Nat.not_lt_zero _))
    refine ⟨q1, ?_⟩
    rw [pairwise_iff_getD]
    intro i j hij hj
    rw [q2] at hj
    exact q3 i j (by omega) hij hj

/-! ## `insertion_sort` -/

theorem ext_getD {a b : List Int} (hl : a.length = b.length)
    (h : ∀ p, p < a.length → a.getD p 0 = b.getD p 0) : a = b := by
  apply List.ext_getElem hl
  intro p h1 h2
  have := h p h1
  rw [List.getD_eq_getElem _ _ h1, List.getD_eq_getElem _ _ h2] at this
  exact this

theorem insert_length (a : List Int) (i j : Nat) (v : Int) :
    ((memmove a (j + 1) j (i - j)).set j v).length = a.length := by
  simp [memmove]

theorem insert_getD (a : List Int) (i j p : Nat) (hj : j ≤ i) (hi : i < a.length) (v : Int) :
    ((memmove a (j + 1) j (i - j)).set j v).getD p 0 =
      if p = j then v else if j < p ∧ p ≤ i then a.getD (p - 1) 0 else a.getD p 0 := by
  unfold memmove
  simp only [List.getD_eq_getElem?_getD, List.getElem?_set, List.length_map, List.length_range,
    List.getElem?_map, List.getElem?_range]
  by_cases hpj : p = j
  · subst hpj
    simp [show p < a.length by omega]
  · have : ¬ j = p := fun h => hpj h.symm
    simp only [this, if_false, hpj]
    by_cases hp : p < a.length
    · rw [List.getElem?_range hp]
      simp only [Option.map_some', Option.getD_some]
      by_cases h1 : j < p ∧ p ≤ i
      · rw [if_pos h1, if_pos (by omega)]
        congr 2
        omega
      · rw [if_neg h1, if_neg (by omega)]
    · rw [List.getElem?_eq_none (by simpa using hp)]
      simp only [Option.map_none', Option.getD_none]
      rw [if_neg (by omega)]
      rw [List.getElem?_eq_none (by omega)]
      rfl

theorem insert_perm (a : List Int) :
    ∀ (d j i : Nat), i = j + d → i < a.length →
      ((memmove a (j + 1) j (i - j)).set j (a.getD i 0)).Perm a := by
  intro d
  induction d with
  | zero =>
    intro j i hij hi
    have : (memmove a (j + 1) j (i - j)).set j (a.getD i 0) = a := by
      apply ext_getD (insert_length a i j _)
      intro p _
      rw [insert_getD a i j p (by omega) hi]
      by_cases hp : p = j
      · rw [if_pos hp, hp]; congr 1
      · rw [if_neg hp, if_neg (by omega)]
    rw [this]
  | succ d ih =>
    intro j i hij hi
    have hX := ih (j + 1) i (by omega) hi
    have hXlen := insert_length a i (j + 1) (a.getD i 0)
    have : (memmove a (j + 1) j (i - j)).set j (a.getD i 0) =
        swap ((memmove a (j + 1 + 1) (j + 1) (i - (j + 1))).set (j + 1) (a.getD i 0))
          j (j + 1) := by
      apply ext_getD
      · rw [insert_length, sort_swap_length, insert_length]
      · intro p _
        rw [sort_swap_getD _ (by omega) (by omega), insert_getD a i j p (by omega) hi,
          insert_getD a i (j + 1) j (by omega) hi, insert_getD a i (j + 1) (j + 1) (by omega) hi,
          insert_getD a i (j + 1) p (by omega) hi]
        by_cases h1 : p = j + 1
        · subst h1
          simp
          intro h; omega
        · by_cases h2 : p = j
          · subst h2
            simp
          · simp only [h1, h2, if_false]
            by_cases h3 : j < p ∧ p ≤ i
            · rw [if_pos h3, if_pos (by omega)]
            · rw [if_neg h3, if_neg (by omega)]
    rw [this]
    exact (sort_swap_perm _ (by omega) (by omega)).trans hX

theorem insertion_scan_spec (a : List Int) (val : Int) :
    ∀ (j0 : Nat), insertion_scan a val j0 ≤ j0 ∧
      (insertion_scan a val j0 = 0 ∨
        val ≥ a.getD (insertion_scan a val j0 - 1) 0) ∧
      ∀ k, insertion_scan a val j0 ≤ k → k < j0 → val < a.getD k 0
  | 0 => ⟨le_refl _, Or.inl rfl, fun k _ h => absurd h (Nat.not_lt_zero _)⟩
  | j + 1 => by
    simp only [insertion_scan]
    split
    · rename_i h
      exact ⟨le_refl _, Or.inr (by simpa using h), fun k h1 h2 => by omega⟩
    · rename_i h
      obtain ⟨h1, h2, h3⟩ := insertion_scan_spec a val j
      refine ⟨by omega, h2, ?_⟩
      intro k hk1 hk2
      by_cases hkj : k = j
      · rw [hkj]; omega
      · exact h3 k hk1 (by omega)

theorem insertion_loop_spec (n : Nat) :
    ∀ (k i : Nat) (a : List Int), a.length = n → 1 ≤ i → i + k ≤ n →
      (∀ p q, p < q → q < i → a.getD p 0 ≤ a.getD q 0) →
      (insertion_loop (List.range' i k) a).Perm a ∧
      ∀ p q, p < q → q < i + k →
        (insertion_loop (List.range' i k) a).getD p 0 ≤
          (insertion_loop (List.range' i k) a).getD q 0 := by
  intro k
  induction k with
  | zero =>
    intro i a _ _ _ hpre
    exact ⟨List.Perm.refl _, hpre⟩
  | succ k ih =>
    intro i a hlen hi hik hpre
    by_cases hge : a.getD i 0 ≥ a.getD (i - 1) 0
    · have hrun : insertion_loop (List.range' i (k + 1)) a =
          insertion_loop (List.range' (i + 1) k) a := by
        simp only [List.range', insertion_loop]
        rw [if_pos hge]
      rw [hrun]
      obtain ⟨q1, q2⟩ := ih (i + 1) a hlen (by omega) (by omega) (by
        intro p q hpq hq
        by_cases hqi : q = i
        · subst hqi
          by_cases hp : p = q - 1
          · rw [hp]; exact hge
          · have := hpre p (q - 1) (by omega) (by omega)
            omega
        · exact hpre p q hpq (by omega))
      exact ⟨q1, fun p q hpq hq => q2 p q hpq (by omega)⟩
    · obtain ⟨s1, s2, s3⟩ := insertion_scan_spec a (a.getD i 0) (i - 1)
      obtain ⟨j, hj⟩ : ∃ j, j = insertion_scan a (a.getD i 0) (i - 1) := ⟨_, rfl⟩
      rw [← hj] at s1 s2 s3
      have hrun : insertion_loop (List.range' i (k + 1)) a =
          insertion_loop (List.range' (i + 1) k)
            ((memmove a (j + 1) j (i - j)).set j (a.getD i 0)) := by
        simp only [List.range', insertion_loop]
        rw [if_neg hge, hj]
      rw [hrun]
      have hlt : ∀ m, j ≤ m → m < i → a.getD i 0 < a.getD m 0 := by
        intro m hm1 hm2
        by_cases hmi : m = i - 1
        · rw [hmi]; omega
        · exact s3 m hm1 (by omega)
      have hle : ∀ m, m < j → a.getD m 0 ≤ a.getD i 0 := by
        intro m hm
        rcases s2 with s2 | s2
        · omega
        · by_cases hmj : m = j - 1
          · rw [hmj]; exact s2
          · have := hpre m (j - 1) (by omega) (by omega)
            omega
      obtain ⟨q1, q2⟩ := ih (i + 1) ((memmove a (j + 1) j (i - j)).set j (a.getD i 0))
        (by rw [insert_length]; exact hlen) (by omega) (by omega) (by
          intro p q hpq hq
          rw [insert_getD a i j p (by omega) (by omega),
            insert_getD a i j q (by omega) (by omega)]
          by_cases hpj : p = j
          · rw [if_pos hpj, if_neg (by omega), if_pos (by omega)]
            exact le_of_lt (hlt (q - 1) (by omega) (by omega))
          · rw [if_neg hpj]
            by_cases hpj2 : j < p
            · rw [if_pos (by omega), if_neg (by omega), if_pos (by omega)]
              by_cases hpq2 : p - 1 = q - 1
              · omega
              · exact hpre (p - 1) (q - 1) (by omega) (by omega)
            · rw [if_neg (by omega)]
              by_cases hqj : q = j
              · rw [if_pos hqj]
                exact hle p (by omega)
              · rw [if_neg hqj]
                by_cases hqj2 : j < q
                · rw [if_pos (by omega)]
                  exact hpre p (q - 1) (by omega) (by omega)
                · rw [if_neg (by omega)]
                  exact hpre p q hpq (by omega))
      exact ⟨q1.trans (insert_perm a (i - j) j i (by omega) (by omega)),
        fun p q hpq hq => q2 p q hpq (by omega)⟩

theorem insertion_sort_spec (a : List Int) :
    (insertion_sort a a.length).Perm a ∧ (insertion_sort a a.length).Pairwise (· ≤ ·) := by
  unfold insertion_sort
  by_cases h : a.length ≤ 1
  · rw [if_pos h]
    refine ⟨List.Perm.refl _, ?_⟩
    rw [pairwise_iff_getD]
    intro i j hij hj
    omega
  · rw [if_neg h]
    obtain ⟨q1, q2⟩ := insertion_loop_spec a.length (a.length - 1) 1 a rfl (le_refl _)
      (by omega) (fun p q hpq hq => by omega)
    refine ⟨q1, ?_⟩
    rw [pairwise_iff_getD]
    intro i j hij hj
    rw [q1.length_eq] at hj
    exact q2 i j hij (by omega)

/-! ## `bubble_sort` -/

theorem pairwise_of_adjacent (a : List Int)
    (h : ∀ q, q + 1 < a.length → a.getD q 0 ≤ a.getD (q + 1) 0) : a.Pairwise (· ≤ ·) := by
  rw [pairwise_iff_getD]
  have key : ∀ d p, p + d + 1 < a.length → a.getD p 0 ≤ a.getD (p + d + 1) 0 := by
    intro d
    induction d with
    | zero => intro p hp; exact h p hp
    | succ d ih =>
      intro p hp
      have h1 := ih p (by omega)
      have h2 := h (p + d + 1) (by omega)
      have e : p + (d + 1) + 1 = p + d + 1 + 1 := by omega
      rw [e]
      omega
  intro i j hij hj
  have := key (j - i - 1) i (by omega)
  have e : i + (j - i - 1) + 1 = j := by omega
  rw [e] at this
  exact this

theorem bubble_pass_sorted :
    ∀ (l : List Nat) (b : List Int) (sw : Bool),
      (∀ q ∈ l, b.getD q 0 ≤ b.getD (q + 1) 0) → bubble_pass l (b, sw) = (b, sw)
  | [], _, _, _ => rfl
  | i :: l, b, sw, h => by
    have h1 := h i (List.mem_cons_self _ _)
    simp only [bubble_pass]
    rw [if_neg (by omega)]
    exact bubble_pass_sorted l b sw (fun q hq => h q (List.mem_cons_of_mem _ hq))

theorem bubble_pass_spec (n t : Nat) :
    ∀ (cnt i : Nat) (b : List Int) (sw : Bool), b.length = n → i + cnt + 1 = n →
      (∀ p, p < i → b.getD p 0 ≤ b.getD i 0) →
      (∀ p q, p < q → q < n → (t ≤ q ∨ (t ≤ q + 1 ∧ q ≤ i)) → b.getD p 0 ≤ b.getD q 0) →
      (bubble_pass (List.range' i cnt) (b, sw)).1.Perm b ∧
      (∀ p q, p < q → q < n → t ≤ q + 1 →
        (bubble_pass (List.range' i cnt) (b, sw)).1.getD p 0 ≤
          (bubble_pass (List.range' i cnt) (b, sw)).1.getD q 0) ∧
      ((bubble_pass (List.range' i cnt) (b, sw)).2 = false →
        (bubble_pass (List.range' i cnt) (b, sw)).1 = b ∧
          ∀ q, i ≤ q → q + 1 < n → b.getD q 0 ≤ b.getD (q + 1) 0) := by
  intro cnt
  induction cnt with
  | zero =>
    intro i b sw _ hi _ hC
    refine ⟨List.Perm.refl _, ?_, fun _ => ⟨rfl, fun q h1 h2 => by omega⟩⟩
    intro p q hpq hq ht
    exact hC p q hpq hq (Or.inr ⟨ht, by omega⟩)
  | succ cnt ih =>
    intro i b sw hlen hi hA hC
    have hi1 : i < b.length := by omega
    have hi2 : i + 1 < b.length := by omega
    by_cases hgt : b.getD i 0 > b.getD (i + 1) 0
    · have hrun : bubble_pass (List.range' i (cnt + 1)) (b, sw) =
          bubble_pass (List.range' (i + 1) cnt) (swap b i (i + 1), true) := by
        simp only [List.range', bubble_pass]
        rw [if_pos hgt]
      have hit : i + 1 < t := by
        by_contra hc
        have := hC i (i + 1) (by omega) (by omega) (Or.inl (by omega))
        omega
      have hA2 : ∀ p, p < i + 1 → (swap b i (i + 1)).getD p 0 ≤ (swap b i (i + 1)).getD (i + 1) 0 := by
        intro p hp
        rw [sort_swap_getD b hi1 hi2 (i + 1), if_pos rfl, sort_swap_getD b hi1 hi2 p,
          if_neg (show ¬ p = i + 1 by omega)]
        by_cases hpi : p = i
        · rw [if_pos hpi]; omega
        · rw [if_neg hpi]; exact hA p (by omega)
      obtain ⟨q1, q2, q3⟩ := ih (i + 1) (swap b i (i + 1)) true
        (by rw [sort_swap_length]; exact hlen) (by omega) hA2
        (by
          intro p q hpq hq hcase
          by_cases htq : t ≤ q
          · rw [sort_swap_getD b hi1 hi2 q, if_neg (show ¬ q = i + 1 by omega),
              if_neg (show ¬ q = i by omega), sort_swap_getD b hi1 hi2 p]
            split
            · exact hC i q (by omega) hq (Or.inl htq)
            · split
              · exact hC (i + 1) q (by omega) hq (Or.inl htq)
              · exact hC p q hpq hq (Or.inl htq)
          · have hq2 : q = i + 1 := by omega
            rw [hq2]
            exact hA2 p (by omega))
      rw [hrun]
      refine ⟨q1.trans (sort_swap_perm b hi1 hi2), q2, ?_⟩
      intro hfalse
      exfalso
      have := q3 hfalse
      -- the flag stays set once it is set
      have hflag : ∀ (l : List Nat) (c : List Int), (bubble_pass l (c, true)).2 = true := by
        intro l
        induction l with
        | nil => intro c; rfl
        | cons j l ihl =>
          intro c
          simp only [bubble_pass]
          split
          · exact ihl _
          · exact ihl _
      rw [hflag] at hfalse
      exact absurd hfalse (by decide)
    · have hrun : bubble_pass (List.range' i (cnt + 1)) (b, sw) =
          bubble_pass (List.range' (i + 1) cnt) (b, sw) := by
        simp only [List.range', bubble_pass]
        rw [if_neg hgt]
      have hA2 : ∀ p, p < i + 1 → b.getD p 0 ≤ b.getD (i + 1) 0 := by
        intro p hp
        by_cases hpi : p = i
        · rw [hpi]; omega
        · have := hA p (by omega)
          omega
      obtain ⟨q1, q2, q3⟩ := ih (i + 1) b sw hlen (by omega) hA2
        (by
          intro p q hpq hq hcase
          by_cases hq2 : q = i + 1
          · rw [hq2]; exact hA2 p (by omega)
          · exact hC p q hpq hq (by omega))
      rw [hrun]
      refine ⟨q1, q2, ?_⟩
      intro hfalse
      obtain ⟨e1, e2⟩ := q3 hfalse
      refine ⟨e1, ?_⟩
      intro q hq1 hq2
      by_cases hqi : q = i
      · rw [hqi]; omega
      · exact e2 q (by omega) hq2

theorem bubble_loop_spec (n : Nat) :
    ∀ (fuel t : Nat) (a : List Int), a.length = n → 2 ≤ n → 1 ≤ fuel → t ≤ fuel →
      (∀ p q, p < q → q < n → t ≤ q → a.getD p 0 ≤ a.getD q 0) →
      ∃ r, bubble_loop n fuel a = some r ∧ r.Perm a ∧ r.Pairwise (· ≤ ·) := by
  intro fuel
  induction fuel with
  | zero => intro t a _ _ h; omega
  | succ fuel ih =>
    intro t a hlen hn _ ht hset
    obtain ⟨q1, q2, q3⟩ := bubble_pass_spec n t (n - 1) 0 a false hlen (by omega)
      (fun p hp => absurd hp (Nat.not_lt_zero _))
      (by
        intro p q hpq hq hcase
        rcases hcase with h | h
        · exact hset p q hpq hq h
        · omega)
    rw [← List.range_eq_range'] at q1 q2 q3
    simp only [bubble_loop]
    by_cases hsw : (bubble_pass (List.range (n - 1)) (a, false)).2 = true
    · rw [if_pos hsw]
      have ht2 : 2 ≤ t := by
        by_contra hc
        have hsorted : bubble_pass (List.range (n - 1)) (a, false) = (a, false) := by
          apply bubble_pass_sorted
          intro q hq
          have := List.mem_range.1 hq
          exact hset q (q + 1) (by omega) (by omega) (by omega)
        rw [hsorted] at hsw
        exact Bool.false_ne_true hsw
      obtain ⟨r, r1, r2, r3⟩ := ih (t - 1) _ (by rw [q1.length_eq]; exact hlen) hn (by omega)
        (by omega)
        (by
          intro p q hpq hq htq
          exact q2 p q hpq hq (by omega))
      exact ⟨r, r1, r2.trans q1, r3⟩
    · rw [if_neg hsw]
      have hsw2 : (bubble_pass (List.range (n - 1)) (a, false)).2 = false := by
        simpa using hsw
      obtain ⟨e1, e2⟩ := q3 hsw2
      refine ⟨_, rfl, q1, ?_⟩
      rw [e1]
      apply pairwise_of_adjacent
      intro q hq
      exact e2 q (Nat.zero_le _) (by omega)

theorem bubble_sort_spec (a : List Int) (fuel : Nat) (hf : a.length ≤ fuel) :
    ∃ r, bubble_sort fuel a a.length = some r ∧ r.Perm a ∧ r.Pairwise (· ≤ ·) := by
  unfold bubble_sort
  by_cases h : a.length ≤ 1
  · rw [if_pos h]
    refine ⟨a, rfl, List.Perm.refl _, ?_⟩
    rw [pairwise_iff_getD]
    intro i j hij hj
    omega
  · rw [if_neg h]
    exact bubble_loop_spec a.length fuel a.length a rfl (by omega) (by omega) hf
      (fun p q _ hq hq2 => by omega)

/-! ## `merge_sort` -/

theorem merge_loop_spec (l r : List Int) (n : Nat) (hl : l.length = n / 2)
    (hn : l.length + r.length = n) (hsl : l.Pairwise (· ≤ ·)) (hsr : r.Pairwise (· ≤ ·)) :
    ∀ (fuel left right merge_idx : Nat) (merged : List Int),
      left ≤ l.length → l.length ≤ right → right ≤ n →
      merge_idx = left + (right - l.length) → n - merge_idx < fuel →
      merged.Pairwise (· ≤ ·) →
      (∀ x ∈ merged, ∀ y ∈ l.drop left ++ r.drop (right - l.length), x ≤ y) →
      ∃ res, merge_loop (l ++ r) n fuel left right merge_idx merged = some res ∧
        res.Perm (merged ++ (l.drop left ++ r.drop (right - l.length))) ∧
        res.Pairwise (· ≤ ·) := by
  intro fuel
  induction fuel with
  | zero => intro _ _ _ _ _ _ _ _ h; omega
  | succ fuel ih =>
    intro left right merge_idx merged h1 h2 h3 hm hf hsm hcross
    have hsL : (l.drop left).Pairwise (· ≤ ·) := hsl.sublist (List.drop_sublist _ _)
    have hsR : (r.drop (right - l.length)).Pairwise (· ≤ ·) :=
      hsr.sublist (List.drop_sublist _ _)
    simp only [merge_loop]
    by_cases c1 : merge_idx = n
    · have e1 : (merge_idx == n) = true := by simpa using c1
      rw [if_pos e1]
      have eL : l.drop left = [] := List.drop_of_length_le (by omega)
      have eR : r.drop (right - l.length) = [] := List.drop_of_length_le (by omega)
      refine ⟨merged, rfl, ?_, hsm⟩
      rw [eL, eR]
      simp
    · have e1 : (merge_idx == n) = false := by simpa using c1
      rw [e1]
      simp only [Bool.false_eq_true, if_false]
      by_cases c2 : left = n / 2
      · have e2 : (left == n / 2) = true := by simpa using c2
        rw [if_pos e2]
        have eL : l.drop left = [] := List.drop_of_length_le (by omega)
        have eD : (l ++ r).drop right = r.drop (right - l.length) := by
          rw [List.drop_append_eq_append_drop, List.drop_of_length_le h2, List.nil_append]
        have eT : ((l ++ r).drop right).take (n - merge_idx) = r.drop (right - l.length) := by
          rw [eD]
          apply List.take_of_length_le
          rw [List.length_drop]
          omega
        rw [eT, eL, List.nil_append]
        refine ⟨_, rfl, List.Perm.refl _, ?_⟩
        rw [List.pairwise_append]
        refine ⟨hsm, hsR, ?_⟩
        intro x hx y hy
        exact hcross x hx y (by rw [eL]; simpa using hy)
      · have e2 : (left == n / 2) = false := by simpa using c2
        rw [e2]
        simp only [Bool.false_eq_true, if_false]
        have hleft : left < l.length := by omega
        by_cases c3 : right = n
        · have e3 : (right == n) = true := by simpa using c3
          rw [if_pos e3]
          have eR : r.drop (right - l.length) = [] := List.drop_of_length_le (by omega)
          have eD : (l ++ r).drop left = l.drop left ++ r := by
            rw [List.drop_append_eq_append_drop]
            have : left - l.length = 0 := by omega
            rw [this, List.drop_zero]
          have eT : ((l ++ r).drop left).take (n - merge_idx) = l.drop left := by
            rw [eD]
            apply List.take_left'
            rw [List.length_drop]
            omega
          rw [eT, eR, List.append_nil]
          refine ⟨_, rfl, List.Perm.refl _, ?_⟩
          rw [List.pairwise_append]
          refine ⟨hsm, hsL, ?_⟩
          intro x hx y hy
          exact hcross x hx y (by rw [eR]; simpa using hy)
        · have e3 : (right == n) = false := by simpa using c3
          rw [e3]
          simp only [Bool.false_eq_true, if_false]
          have hright : right - l.length < r.length := by omega
          have gL : (l ++ r).getD left 0 = l[left] := by
            rw [List.getD_eq_getElem _ _ (by rw [List.length_append]; omega),
              List.getElem_append_left hleft]
          have gR : (l ++ r).getD right 0 = r[right - l.length] := by
            rw [List.getD_eq_getElem _ _ (by rw [List.length_append]; omega),
              List.getElem_append_right h2]
          have dL : l.drop left = l[left] :: l.drop (left + 1) :=
            List.drop_eq_getElem_cons hleft
          have dR : r.drop (right - l.length) =
              r[right - l.length] :: r.drop (right - l.length + 1) :=
            List.drop_eq_getElem_cons hright
          have dR2 : right + 1 - l.length = right - l.length + 1 := by omega
          rw [gL, gR]
          rw [dL] at hsL
          rw [dR] at hsR
          rw [List.pairwise_cons] at hsL hsR
          by_cases c4 : l[left] < r[right - l.length]
          · rw [if_pos c4]
            obtain ⟨res, r1, r2, r3⟩ := ih (left + 1) right (merge_idx + 1)
              (merged ++ [l[left]]) (by omega) h2 h3 (by omega) (by omega)
              (by
                rw [List.pairwise_append]
                refine ⟨hsm, List.pairwise_singleton _ _, ?_⟩
                intro x hx y hy
                rw [List.mem_singleton] at hy
                rw [hy]
                exact hcross x hx _
                  (List.mem_append_left _ (by rw [dL]; exact List.mem_cons_self _ _)))
              (by
                intro x hx y hy
                rcases List.mem_append.1 hx with hx | hx
                · rcases List.mem_append.1 hy with hy | hy
                  · exact hcross x hx y
                      (List.mem_append_left _ (by rw [dL]; exact List.mem_cons_of_mem _ hy))
                  · exact hcross x hx y (List.mem_append_right _ hy)
                · rw [List.mem_singleton] at hx
                  rw [hx]
                  rcases List.mem_append.1 hy with hy | hy
                  · exact hsL.1 y hy
                  · rw [dR] at hy
                    rcases List.mem_cons.1 hy with hy | hy
                    · rw [hy]; omega
                    · have := hsR.1 y hy
                      omega)
            refine ⟨res, r1, ?_, r3⟩
            rw [List.append_assoc, List.singleton_append] at r2
            rw [dL]
            exact r2
          · rw [if_neg c4]
            obtain ⟨res, r1, r2, r3⟩ := ih left (right + 1) (merge_idx + 1)
              (merged ++ [r[right - l.length]]) h1 (by omega) (by omega) (by omega) (by omega)
              (by
                rw [List.pairwise_append]
                refine ⟨hsm, List.pairwise_singleton _ _, ?_⟩
                intro x hx y hy
                rw [List.mem_singleton] at hy
                rw [hy]
                exact hcross x hx _
                  (List.mem_append_right _ (by rw [dR]; exact List.mem_cons_self _ _)))
              (by
                intro x hx y hy
                rw [dR2] at hy
                rcases List.mem_append.1 hx with hx | hx
                · rcases List.mem_append.1 hy with hy | hy
                  · exact hcross x hx y (List.mem_append_left _ hy)
                  · exact hcross x hx y
                      (List.mem_append_right _ (by rw [dR]; exact List.mem_cons_of_mem _ hy))
                · rw [List.mem_singleton] at hx
                  rw [hx]
                  rcases List.mem_append.1 hy with hy | hy
                  · rw [dL] at hy
                    rcases List.mem_cons.1 hy with hy | hy
                    · rw [hy]; omega
                    · have := hsL.1 y hy
                      omega
                  · exact hsR.1 y hy)
            refine ⟨res, r1, ?_, r3⟩
            rw [dR2] at r2
            refine r2.trans ?_
            rw [dR, List.append_assoc, List.singleton_append]
            exact List.Perm.append_left _ List.perm_middle.symm

theorem merge_sort_spec :
    ∀ (fuel : Nat) (a : List Int), 1 ≤ fuel → a.length ≤ fuel →
      ∃ r, merge_sort fuel a a.length = some r ∧ r.Perm a ∧ r.Pairwise (· ≤ ·) := by
  intro fuel
  induction fuel with
  | zero => intro a h; omega
  | succ fuel ih =>
    intro a _ hlen
    simp only [merge_sort]
    by_cases h1 : a.length ≤ 1
    · rw [if_pos h1]
      refine ⟨a, rfl, List.Perm.refl _, ?_⟩
      rw [pairwise_iff_getD]
      intro i j hij hj
      omega
    · rw [if_neg h1]
      have hlt : (a.take (a.length / 2)).length = a.length / 2 := by
        rw [List.length_take]; omega
      have hld : (a.drop (a.length / 2)).length = a.length - a.length / 2 := by
        rw [List.length_drop]
      obtain ⟨l, l1, l2, l3⟩ := ih (a.take (a.length / 2)) (by omega) (by omega)
      obtain ⟨r, r1, r2, r3⟩ := ih (a.drop (a.length / 2)) (by omega) (by omega)
      rw [hlt] at l1
      rw [hld] at r1
      rw [l1, r1]
      have hll : l.length = a.length / 2 := by rw [l2.length_eq, hlt]
      have hrl : r.length = a.length - a.length / 2 := by rw [r2.length_eq, hld]
      obtain ⟨res, m1, m2, m3⟩ := merge_loop_spec l r a.length hll (by omega) l3 r3
        (a.length + 1) 0 (a.length / 2) 0 [] (by omega) (by omega) (by omega) (by omega)
        (by omega) List.Pairwise.nil (fun x hx => absurd hx (List.not_mem_nil _))
      refine ⟨res, m1, ?_, m3⟩
      have e : a.length / 2 - l.length = 0 := by omega
      rw [e, List.drop_zero, List.drop_zero, List.nil_append] at m2
      refine m2.trans ?_
      have := List.Perm.append l2 r2
      rw [List.take_append_drop] at this
      exact this

/-! ## Properties of the program: the elementary sorts -/

theorem sortedCopy_of_sorted {a r : List Int} (hp : r.Perm a) (hs : r.Pairwise (· ≤ ·)) :
    SortedCopy a r := by
  refine ⟨nonDecreasing_of_pairwise r hs, hp, ?_⟩
  have := sorted_okay_of_sorted hs hp
  rw [hp.length_eq] at this
  exact this

/-- C17: for every `int` array `a` of every length, each of `bubble_sort`, `selection_sort`,
`insertion_sort` and `merge_sort` called on its `a.length` entries returns (the scans of
`bubble_sort` and the recursion of `merge_sort` end within any bound above the length), and
the array it leaves is in non-decreasing order, has the same elements with the same
multiplicities as `a`, and passes `sorted_okay` against the checksum of `a`. -/
theorem elementary_sorts_correct (a : List Int) (fuel : Nat) (hf : a.length < fuel) :
    (∃ r, bubble_sort fuel a a.length = some r ∧ SortedCopy a r) ∧
      SortedCopy a (selection_sort a a.length) ∧
      SortedCopy a (insertion_sort a a.length) ∧
      (∃ r, merge_sort fuel a a.length = some r ∧ SortedCopy a r) := by
  refine ⟨?_, ?_, ?_, ?_⟩
  · obtain ⟨r, h1, h2, h3⟩ := bubble_sort_spec a fuel (by omega)
    exact ⟨r, h1, sortedCopy_of_sorted h2 h3⟩
  · exact sortedCopy_of_sorted (selection_sort_spec a).1 (selection_sort_spec a).2
  · exact sortedCopy_of_sorted (insertion_sort_spec a).1 (insertion_sort_spec a).2
  · obtain ⟨r, h1, h2, h3⟩ := merge_sort_spec fuel a (by omega) (by omega)
    exact ⟨r, h1, sortedCopy_of_sorted h2 h3⟩

theorem elementary_sorts_correct_witness :
    sample6.length < 7 ∧
      (∃ r, bubble_sort 7 sample6 sample6.length = some r ∧ SortedCopy sample6 r) ∧
      SortedCopy sample6 (selection_sort sample6 sample6.length) ∧
      SortedCopy sample6 (insertion_sort sample6 sample6.length) ∧
      (∃ r, merge_sort 7 sample6 sample6.length = some r ∧ SortedCopy sample6 r) :=
  ⟨by decide, elementary_sorts_correct sample6 7 (by decide)⟩

/-! ## `quick_sort`: the reordering loop -/

theorem partition_loop_frame (pv : Int) (n : Nat) :
    ∀ (fuel : Nat) (a : List Int) (left right : Nat) (a' : List Int) (L : Nat),
      a.length = n → left ≤ right → right < n →
      partition_loop pv fuel a left right = some (a', L) →
      left ≤ L ∧ ∀ p, p < left ∨ right < p → a'.getD p 0 = a.getD p 0 := by
  intro fuel
  induction fuel with
  | zero => intro a left right a' L _ _ _ h; simp [partition_loop] at h
  | succ fuel ih =>
    intro a left right a' L hlen hlr hr h
    simp only [partition_loop] at h
    by_cases c1 : left = right
    · have e1 : (left == right) = true := by simpa using c1
      rw [if_pos e1] at h
      simp only [Option.some.injEq, Prod.mk.injEq] at h
      rw [← h.1, ← h.2]
      exact ⟨le_refl _, fun _ _ => rfl⟩
    · have e1 : (left == right) = false := by simpa using c1
      rw [e1] at h
      simp only [Bool.false_eq_true, if_false] at h
      by_cases c2 : a.getD left 0 ≥ pv
      · rw [if_pos c2] at h
        obtain ⟨q1, q2⟩ := ih (swap a left right) left (right - 1) a' L
          (by rw [sort_swap_length]; exact hlen) (by omega) (by omega) h
        refine ⟨q1, ?_⟩
        intro p hp
        rw [q2 p (by omega), sort_swap_getD a (by omega) (by omega),
          if_neg (show ¬ p = right by omega), if_neg (show ¬ p = left by omega)]
      · rw [if_neg c2] at h
        obtain ⟨q1, q2⟩ := ih a (left + 1) right a' L hlen (by omega) hr h
        exact ⟨by omega, fun p hp => q2 p (by omega)⟩

theorem partition_loop_spec (pv : Int) (n : Nat) :
    ∀ (fuel : Nat) (a : List Int) (left right : Nat), a.length = n → left ≤ right →
      right < n → right - left < fuel →
      (∀ p, p < left → a.getD p 0 < pv) →
      (∀ p, right < p → p + 1 < n → a.getD p 0 ≥ pv) →
      ∃ a' L, partition_loop pv fuel a left right = some (a', L) ∧ a'.Perm a ∧ L ≤ right ∧
        (∀ p, p < L → a'.getD p 0 < pv) ∧
        (∀ p, L < p → p + 1 < n → a'.getD p 0 ≥ pv) := by
  intro fuel
  induction fuel with
  | zero => intro a left right _ _ _ h; omega
  | succ fuel ih =>
    intro a left right hlen hlr hr hf hlow hhigh
    simp only [partition_loop]
    by_cases c1 : left = right
    · have e1 : (left == right) = true := by simpa using c1
      rw [if_pos e1]
      exact ⟨a, left, rfl, List.Perm.refl _, by omega, hlow,
        fun p hp1 hp2 => hhigh p (by omega) hp2⟩
    · have e1 : (left == right) = false := by simpa using c1
      rw [e1]
      simp only [Bool.false_eq_true, if_false]
      have hl : left < a.length := by omega
      have hr2 : right < a.length := by omega
      by_cases c2 : a.getD left 0 ≥ pv
      · rw [if_pos c2]
        obtain ⟨a', L, r1, r2, r3, r4, r5⟩ := ih (swap a left right) left (right - 1)
          (by rw [sort_swap_length]; exact hlen) (by omega) (by omega) (by omega)
          (by
            intro p hp
            rw [sort_swap_getD a hl hr2, if_neg (show ¬ p = right by omega),
              if_neg (show ¬ p = left by omega)]
            exact hlow p hp)
          (by
            intro p hp1 hp2
            rw [sort_swap_getD a hl hr2]
            by_cases hpr : p = right
            · rw [if_pos hpr]; exact c2
            · rw [if_neg hpr, if_neg (show ¬ p = left by omega)]
              exact hhigh p (by omega) hp2)
        exact ⟨a', L, r1, r2.trans (sort_swap_perm a hl hr2), by omega, r4, r5⟩
      · rw [if_neg c2]
        obtain ⟨a', L, r1, r2, r3, r4, r5⟩ := ih a (left + 1) right hlen (by omega) hr
          (by omega)
          (by
            intro p hp
            by_cases hpl : p = left
            · rw [hpl]; omega
            · exact hlow p (by omega))
          hhigh
        exact ⟨a', L, r1, r2, r3, r4, r5⟩

theorem partition_loop_rotate (pv : Int) (n : Nat) :
    ∀ (fuel : Nat) (b : List Int) (R : Nat) (b' : List Int), b.length = n → R < n →
      partition_loop pv fuel b 0 R = some (b', 0) →
      (∀ j, j < R → b'.getD j 0 = b.getD (j + 1) 0) ∧ b'.getD R 0 = b.getD 0 0 := by
  intro fuel
  induction fuel with
  | zero => intro b R b' _ _ h; simp [partition_loop] at h
  | succ fuel ih =>
    intro b R b' hlen hR h
    have h0 := h
    simp only [partition_loop] at h
    by_cases c1 : 0 = R
    · have e1 : (0 == R) = true := by simpa using c1
      rw [if_pos e1] at h
      simp only [Option.some.injEq, Prod.mk.injEq] at h
      rw [← h.1, ← c1]
      exact ⟨fun j hj => absurd hj (Nat.not_lt_zero _), rfl⟩
    · have e1 : (0 == R) = false := by simpa using c1
      rw [e1] at h
      simp only [Bool.false_eq_true, if_false] at h
      by_cases c2 : b.getD 0 0 ≥ pv
      · rw [if_pos c2] at h
        have hlen2 : (swap b 0 R).length = n := by rw [sort_swap_length]; exact hlen
        obtain ⟨q1, q2⟩ := ih (swap b 0 R) (R - 1) b' hlen2 (by omega) h
        obtain ⟨_, q3⟩ := partition_loop_frame pv n fuel (swap b 0 R) 0 (R - 1) b' 0 hlen2
          (by omega) (by omega) h
        have g : ∀ p, (swap b 0 R).getD p 0 =
            if p = R then b.getD 0 0 else if p = 0 then b.getD R 0 else b.getD p 0 :=
          fun p => sort_swap_getD b (by omega) (by omega) p
        refine ⟨?_, ?_⟩
        · intro j hj
          by_cases hj2 : j = R - 1
          · rw [hj2, q2, g, if_neg (show ¬ 0 = R by omega), if_pos rfl]
            congr 1
            omega
          · rw [q1 j (by omega), g, if_neg (show ¬ j + 1 = R by omega),
              if_neg (show ¬ j + 1 = 0 by omega)]
        · rw [q3 R (by omega), g, if_pos rfl]
      · rw [if_neg c2] at h
        obtain ⟨q1, _⟩ := partition_loop_frame pv n fuel b 1 R b' 0 hlen (by omega) hR h
        omega

/-! ## `quick_sort` -/

theorem rank_lt (p n : Nat) (h : p < n) : p * (p + 1) + p < n * (n + 1) := by
  have h2 : (p + 1) * (p + 2) ≤ n * (n + 1) := Nat.mul_le_mul h (by omega)
  nlinarith

theorem getD_mem_of_lt (a : List Int) (p : Nat) (hp : p < a.length) : a.getD p 0 ∈ a := by
  rw [List.getD_eq_getElem _ _ hp]
  exact List.getElem_mem hp

theorem exists_getD_of_mem (a : List Int) (x : Int) (hx : x ∈ a) :
    ∃ p, p < a.length ∧ a.getD p 0 = x := by
  obtain ⟨p, hp, e⟩ := List.getElem_of_mem hx
  exact ⟨p, hp, by rw [List.getD_eq_getElem _ _ hp]; exact e⟩

theorem quick_sort_small (fuel : Nat) (a : List Int) (h : a.length ≤ 2) :
    ∃ r, quick_sort (fuel + 1) a a.length = some r ∧ r.Perm a ∧ r.Pairwise (· ≤ ·) := by
  simp only [quick_sort]
  rw [if_pos h]
  by_cases c : (a.length == 2 && decide (a.getD 0 0 > a.getD 1 0)) = true
  · rw [if_pos c]
    simp only [Bool.and_eq_true, beq_iff_eq, decide_eq_true_eq] at c
    refine ⟨_, rfl, sort_swap_perm a (by omega) (by omega), ?_⟩
    rw [pairwise_iff_getD]
    intro i j hij hj
    rw [sort_swap_length] at hj
    have hi0 : i = 0 := by omega
    have hj1 : j = 1 := by omega
    rw [hi0, hj1, sort_swap_getD a (by omega) (by omega) 0,
      sort_swap_getD a (by omega) (by omega) 1, if_neg (show ¬ (0 : Nat) = 1 by decide),
      if_pos rfl, if_pos rfl]
    omega
  · rw [if_neg c]
    refine ⟨a, rfl, List.Perm.refl _, ?_⟩
    rw [pairwise_iff_getD]
    intro i j hij hj
    have hi0 : i = 0 := by omega
    have hj1 : j = 1 := by omega
    have hl : a.length = 2 := by omega
    simp only [Bool.and_eq_true, beq_iff_eq, decide_eq_true_eq, not_and, not_lt] at c
    rw [hi0, hj1]
    exact c hl

/-- The state after the reordering loop of a call on three or more entries: what the two
recursive calls receive, and a bound for the call on the second part. -/
theorem quick_sort_round (a : List Int) (k : Nat) (h3 : 3 ≤ a.length) (hb : RoundBound a k) :
    ∃ a2 L, partition_loop (a.getD (a.length / 2) 0) a.length
        (swap a (a.length / 2) (a.length - 1)) 0 (a.length - 2) = some (a2, L) ∧
      a2.Perm a ∧
      (if a2.getD L 0 > a.getD (a.length / 2) 0 then L else L + 1) < a.length ∧
      (∀ x ∈ a2.take (if a2.getD L 0 > a.getD (a.length / 2) 0 then L else L + 1),
        x ≤ a.getD (a.length / 2) 0) ∧
      (∀ x ∈ a2.drop (if a2.getD L 0 > a.getD (a.length / 2) 0 then L else L + 1),
        a.getD (a.length / 2) 0 ≤ x) ∧
      ((if a2.getD L 0 > a.getD (a.length / 2) 0 then L else L + 1) = 0 →
        ∃ k', k' < k ∧ RoundBound a2 k') := by
  obtain ⟨n, hn⟩ : ∃ n, n = a.length := ⟨_, rfl⟩
  rw [← hn]
  rw [← hn] at h3
  obtain ⟨pv, hpv⟩ : ∃ pv, pv = a.getD (n / 2) 0 := ⟨_, rfl⟩
  rw [← hpv]
  have hm1 : 1 ≤ n / 2 := by omega
  have hm2 : n / 2 + 2 ≤ n := by omega
  have hma : n / 2 < a.length := by omega
  have hla : n - 1 < a.length := by omega
  have g1 : ∀ p, (swap a (n / 2) (n - 1)).getD p 0 =
      if p = n - 1 then a.getD (n / 2) 0 else if p = n / 2 then a.getD (n - 1) 0
      else a.getD p 0 := fun p => sort_swap_getD a hma hla p
  have hlen1 : (swap a (n / 2) (n - 1)).length = n := by rw [sort_swap_length, hn]
  obtain ⟨a2, L, hrun, hperm, hL, hlow, hhigh⟩ := partition_loop_spec pv n n
    (swap a (n / 2) (n - 1)) 0 (n - 2) hlen1 (Nat.zero_le _) (by omega) (by omega)
    (fun p hp => absurd hp (Nat.not_lt_zero _)) (fun p hp1 hp2 => by omega)
  obtain ⟨_, hframe⟩ := partition_loop_frame pv n n (swap a (n / 2) (n - 1)) 0 (n - 2) a2 L
    hlen1 (Nat.zero_le _) (by omega) hrun
  have hperm2 : a2.Perm a := hperm.trans (sort_swap_perm a hma hla)
  have hlen2 : a2.length = n := by rw [hperm2.length_eq, hn]
  have hlast : a2.getD (n - 1) 0 = pv := by
    rw [hframe (n - 1) (by omega), g1, if_pos rfl, hpv]
  obtain ⟨P, hP⟩ : ∃ P, P = (if a2.getD L 0 > pv then L else L + 1) := ⟨_, rfl⟩
  have hPle : P ≤ L + 1 := by rw [hP]; split <;> omega
  have hPge : L ≤ P := by rw [hP]; split <;> omega
  have hlowP : ∀ p, p < P → a2.getD p 0 ≤ pv := by
    intro p hp
    by_cases hpL : p < L
    · exact le_of_lt (hlow p hpL)
    · have hpe : p = L := by omega
      by_cases c : a2.getD L 0 > pv
      · rw [hP, if_pos c] at hp; omega
      · rw [hpe]; omega
  have hhighP : ∀ p, P ≤ p → p < n → pv ≤ a2.getD p 0 := by
    intro p hp1 hp2
    by_cases hpl : p = n - 1
    · rw [hpl, hlast]
    · by_cases hpL : p = L
      · by_cases c : a2.getD L 0 > pv
        · rw [hpL]; omega
        · rw [hP, if_neg c] at hp1; omega
      · exact hhigh p (by omega) (by omega)
  refine ⟨a2, L, hrun, hperm2, ?_, ?_, ?_, ?_⟩ <;> rw [← hP]
  · omega
  · intro x hx
    obtain ⟨p, hp, e⟩ := exists_getD_of_mem _ x hx
    rw [List.length_take] at hp
    rw [List.getD_eq_getElem _ _ (by rw [List.length_take]; exact hp), List.getElem_take] at e
    rw [← e, ← List.getD_eq_getElem _ 0]
    exact hlowP p (by omega)
  · intro x hx
    obtain ⟨p, hp, e⟩ := exists_getD_of_mem _ x hx
    rw [List.length_drop] at hp
    rw [List.getD_eq_getElem _ _ (by rw [List.length_drop]; exact hp), List.getElem_drop] at e
    rw [← e, ← List.getD_eq_getElem _ 0]
    exact hhighP (P + p) (by omega) (by omega)
  · intro hP0
    have hL0 : L = 0 := by omega
    have hgt : a2.getD 0 0 > pv := by
      by_contra c
      rw [hL0] at hP
      rw [hP, if_neg c] at hP0
      omega
    rw [hL0] at hrun
    obtain ⟨hrot, _⟩ := partition_loop_rotate pv n n (swap a (n / 2) (n - 1)) (n - 2) a2
      hlen1 (by omega) hrun
    have hmin2 : ∀ x ∈ a2, a2.getD (a2.length - 1) 0 ≤ x := by
      intro x hx
      obtain ⟨p, hp, e⟩ := exists_getD_of_mem _ x hx
      rw [hlen2, hlast, ← e]
      exact hhighP p (by omega) (by omega)
    rcases hb with hb | ⟨hk, hmin, i, hi1, hi2, hi3⟩
    · refine ⟨n - 1, by omega, Or.inr ⟨by omega, hmin2, n - 1, by omega, le_refl _, ?_⟩⟩
      rw [hlen2]
    · rw [← hn] at hk hmin hi3
      -- the pivot is a least entry, as the last entry is
      have e1 : pv = a.getD (n - 1) 0 := by
        have h1 : a.getD (n - 1) 0 ≤ pv := by
          rw [hpv]; exact hmin _ (getD_mem_of_lt a _ (by omega))
        have h2 : pv ≤ a.getD (n - 1) 0 := by
          have hmem : a.getD (n - 1) 0 ∈ a2 :=
            hperm2.symm.subset (getD_mem_of_lt a _ hla)
          have := hmin2 _ hmem
          rw [hlen2, hlast] at this
          exact this
        omega
      have hsame : ∀ p, (swap a (n / 2) (n - 1)).getD p 0 = a.getD p 0 := by
        intro p
        rw [g1]
        by_cases c1 : p = n - 1
        · rw [if_pos c1, c1, ← hpv, e1]
        · rw [if_neg c1]
          by_cases c2 : p = n / 2
          · rw [if_pos c2, c2, ← hpv, e1]
          · rw [if_neg c2]
      have hrot2 : ∀ j, j + 2 < n → a2.getD j 0 = a.getD (j + 1) 0 := by
        intro j hj
        rw [hrot j (by omega), hsame]
      have ha1 : a.getD 1 0 > pv := by
        rw [← hrot2 0 (by omega)]; exact hgt
      have hi4 : i ≠ 1 := by
        intro h
        rw [h] at hi3
        omega
      have hm4 : n / 2 ≠ 1 := by
        intro h
        rw [hpv, h] at ha1
        omega
      by_cases hin : i + 1 < n
      · refine ⟨k - 1, by omega, Or.inr ⟨by omega, hmin2, i - 1, by omega, by omega, ?_⟩⟩
        rw [hlen2, hlast, hrot2 (i - 1) (by omega), e1, ← hi3]
        congr 1
        omega
      · refine ⟨k - 1, by omega, Or.inr ⟨by omega, hmin2, n / 2 - 1, by omega, by omega, ?_⟩⟩
        rw [hlen2, hlast, hrot2 (n / 2 - 1) (by omega), hpv]
        congr 1
        omega

theorem quick_sort_spec :
    ∀ (fuel : Nat) (a : List Int) (k : Nat), a.length * (a.length + 1) + k < fuel →
      RoundBound a k →
      ∃ r, quick_sort fuel a a.length = some r ∧ r.Perm a ∧ r.Pairwise (· ≤ ·) := by
  intro fuel
  induction fuel with
  | zero => intro a k h; omega
  | succ fuel ih =>
    intro a k hfuel hb
    by_cases h2 : a.length ≤ 2
    · exact quick_sort_small fuel a h2
    · obtain ⟨a2, L, hrun, hperm, hP, htake, hdrop, hdeg⟩ :=
        quick_sort_round a k (by omega) hb
      obtain ⟨P, hPdef⟩ : ∃ P, P =
          (if a2.getD L 0 > a.getD (a.length / 2) 0 then L else L + 1) := ⟨_, rfl⟩
      rw [← hPdef] at hP htake hdrop hdeg
      have hlen2 := hperm.length_eq
      have hlt : (a2.take P).length = P := by rw [List.length_take]; omega
      obtain ⟨l, l1, l2, l3⟩ := ih (a2.take P) P
        (by rw [hlt]; have := rank_lt P a.length hP; omega) (Or.inl hlt.symm)
      rw [hlt] at l1
      have hld : (a2.drop P).length = a.length - P := by rw [List.length_drop, hlen2]
      obtain ⟨k', hk', hb'⟩ : ∃ k', (a.length - P) * (a.length - P + 1) + k' < fuel ∧
          RoundBound (a2.drop P) k' := by
        by_cases hP0 : P = 0
        · obtain ⟨k', h1, h2⟩ := hdeg hP0
          refine ⟨k', ?_, ?_⟩
          · rw [hP0, Nat.sub_zero]; omega
          · rw [hP0, List.drop_zero]; exact h2
        · refine ⟨a.length - P, ?_, Or.inl hld.symm⟩
          have := rank_lt (a.length - P) a.length (by omega)
          omega
      obtain ⟨r, r1, r2, r3⟩ := ih (a2.drop P) k' (by rw [hld]; exact hk') hb'
      rw [hld] at r1
      refine ⟨l ++ r, ?_, ?_, ?_⟩
      · simp only [quick_sort]
        rw [if_neg h2, hrun]
        simp only []
        rw [← hPdef, l1, r1]
      · have := List.Perm.append l2 r2
        rw [List.take_append_drop] at this
        exact this.trans hperm
      · rw [List.pairwise_append]
        refine ⟨l3, r3, ?_⟩
        intro x hx y hy
        have h1 := htake x (l2.subset hx)
        have h2 := hdrop y (r2.subset hy)
        omega

/-! ## Properties of the program: `quick_sort` -/

/-- C16: for every `int` array `a` of every length, `quick_sort` called on its `a.length`
entries returns (its recursion ends within any depth above `length * (length + 1) + length`),
and the array it leaves is in non-decreasing order, is a permutation of `a`, and passes
`sorted_okay` against the checksum of `a`. -/
theorem quick_sort_correct (a : List Int) (fuel : Nat)
    (hf : a.length * (a.length + 1) + a.length < fuel) :
    ∃ r, quick_sort fuel a a.length = some r ∧ SortedCopy a r := by
  obtain ⟨r, h1, h2, h3⟩ := quick_sort_spec fuel a a.length hf (Or.inl rfl)
  exact ⟨r, h1, sortedCopy_of_sorted h2 h3⟩

theorem quick_sort_correct_witness :
    sample6.length * (sample6.length + 1) + sample6.length < 49 ∧
      ∃ r, quick_sort 49 sample6 sample6.length = some r ∧ SortedCopy sample6 r :=
  ⟨by decide, quick_sort_correct sample6 49 (by decide)⟩

end Sorting
